import Mathlib

/-!
# Verification of the cbr_utils multi-stream Synchronizer

Shallow embedding of `cbr::Synchronizer<T, Ts...>` from
`include/cbr_utils/synchronizer.hpp` and `include/cbr_utils/synchronizer_impl.hxx`.

Modelling choices:
* The variadic pack of per-stream states (`Impl` for each template argument)
  becomes a `List (SyncStream α)`; all element types are collapsed to one type
  `α` because the algorithm only inspects elements through each stream's
  `time_fcn` (the Lean statements never depend on heterogeneity).
* `int64_t` timestamps become unbounded `Int`; the C++ initial value
  `std::numeric_limits<int64_t>::min()` becomes the constant `int64Min`.
  None of the verified claims concerns wrap-around behaviour.
* Callbacks are not modelled as stored functions: instead every operation
  returns the elements that the C++ code would have passed to the match
  callback (`matched`) and to the per-stream nonsync drop callbacks
  (`drops0` … `drops3`, one list per stream, in firing order, split by the
  four places in `search()` that fire them).
* `std::deque::at` throws `std::out_of_range` when the index is out of
  bounds and `front()/back()/pop_front()` on an empty deque are undefined;
  the embedding makes every such access explicit by returning `Option`
  (`none` models the exceptional/undefined outcome).  Theorems below prove
  the accesses in bounds on the states the algorithm actually reaches.
* The `while` loops of `search()` and `add_and_search()` take explicit fuel;
  the fuel passed by the wrappers is proven sufficient on well-formed states
  (running out of fuel also yields `none`).
-/

/-- Smallest value of `int64_t`: initial value of `m_next_t`. -/
def int64Min : Int := -(2 ^ 63)

/-- Per-stream state: the `Impl` struct of `Synchronizer<T, Ts...>`
(`queue`, `search_idx`, `optimal_idx`, `time_fcn`); the drop callback is
modelled by returning dropped elements instead. -/
structure SyncStream (α : Type) where
  queue : List α
  search_idx : Nat
  optimal_idx : Nat
  time_fcn : α → Int

/-- Whole synchronizer state: the per-stream `Impl`s plus the fields of the
base class `Synchronizer<>` (`m_delta_t`, `m_next_t`).  The mutex only
serialises searches and is irrelevant to the single-threaded semantics. -/
structure Synchronizer (α : Type) where
  streams : List (SyncStream α)
  m_delta_t : Int
  m_next_t : Int

/-- One queue's part of `keep_n_before_time`: the C++ loop
`while (queue.size() >= n + 1 && time_fcn(queue.at(n)) <= time) { drop front }`.
Returns `(dropped elements in drop order, remaining queue)`. -/
def trimFront {α : Type} (tf : α → Int) (n : Nat) (t : Int) : List α → List α × List α
  | [] => ([], [])
  | x :: xs =>
    match (x :: xs).get? n with
    | some y =>
      if tf y ≤ t then
        let p := trimFront tf n t xs
        (x :: p.1, p.2)
      else ([], x :: xs)
    | none => ([], x :: xs)

/-- `Synchronizer::keep_n_before_time` applied to every stream
(`mapApply` over the pack).  Returns the updated streams and, per stream,
the elements handed to that stream's nonsync callback. -/
def keep_n_before_time {α : Type} (n : Nat) (t : Int) (ss : List (SyncStream α)) :
    List (SyncStream α) × List (List α) :=
  (ss.map fun st => { st with queue := (trimFront st.time_fcn n t st.queue).2 },
   ss.map fun st => (trimFront st.time_fcn n t st.queue).1)

/-- The expression `impl.time_fcn(impl.queue.at(impl.search_idx))`;
`none` models the `std::out_of_range` throw of `at`. -/
def search_time {α : Type} (st : SyncStream α) : Option Int :=
  (st.queue.get? st.search_idx).map st.time_fcn

/-- `Synchronizer::min_first_time`: minimum of `search_time` over all streams. -/
def min_first_time {α : Type} : List (SyncStream α) → Option Int
  | [] => none
  | [st] => search_time st
  | st :: rest =>
    (search_time st).bind fun a => (min_first_time rest).map fun b => min a b

/-- `Synchronizer::max_first_time`: maximum of `search_time` over all streams. -/
def max_first_time {α : Type} : List (SyncStream α) → Option Int
  | [] => none
  | [st] => search_time st
  | st :: rest =>
    (search_time st).bind fun a => (max_first_time rest).map fun b => max a b

/-- `Synchronizer::increase_first_with_time`: increment `search_idx` of the
first stream (in pack order) whose current search time is at most `t`;
if the recursion exhausts the pack nothing changes (as in the C++ base case). -/
def increase_first_with_time {α : Type} (t : Int) : List (SyncStream α) → Option (List (SyncStream α))
  | [] => some []
  | st :: rest =>
    (search_time st).bind fun v =>
      if v ≤ t then some ({ st with search_idx := st.search_idx + 1 } :: rest)
      else (increase_first_with_time t rest).map fun r => st :: r

/-- The greedy `while (min_t < pivot_time)` loop of `Synchronizer::search`.
Arguments: fuel, `pivot_time`, `min_t_best`, `max_t_best`, `min_t`, streams.
Returns `(min_t_best, max_t_best, streams)` on exit or break. -/
def search_loop {α : Type} : Nat → Int → Int → Int → Int → List (SyncStream α) →
    Option (Int × Int × List (SyncStream α))
  | 0, _, _, _, _, _ => none
  | fuel + 1, pivot, mb, Mb, minT, ss =>
    if minT < pivot then
      (increase_first_with_time minT ss).bind fun ss1 =>
      (min_first_time ss1).bind fun minT1 =>
      (max_first_time ss1).bind fun maxT1 =>
      if Mb - mb ≤ maxT1 - pivot then
        -- "can not improve upon optimal since min_t <= pivot_time": break
        some (mb, Mb, ss1)
      else if maxT1 - minT1 < Mb - mb then
        search_loop fuel pivot minT1 maxT1 minT1
          (ss1.map fun st => { st with optimal_idx := st.search_idx })
      else
        search_loop fuel pivot mb Mb minT1 ss1
    else some (mb, Mb, ss)

/-- Commit phase: `for (i != optimal_idx) { callback_this(front); pop_front }`
on every stream.  `none` models popping more elements than the queue holds. -/
def drop_to_optimal {α : Type} : List (SyncStream α) → Option (List (SyncStream α) × List (List α))
  | [] => some ([], [])
  | st :: rest =>
    if st.optimal_idx ≤ st.queue.length then
      (drop_to_optimal rest).map fun p =>
        ({ st with queue := st.queue.drop st.optimal_idx } :: p.1,
         st.queue.take st.optimal_idx :: p.2)
    else none

/-- `call_callback`: move the front element of every queue out (the tuple
passed to `callback_`); `none` models `front()` on an empty deque. -/
def front_elems {α : Type} : List (SyncStream α) → Option (List α)
  | [] => some []
  | st :: rest =>
    st.queue.head?.bind fun x => (front_elems rest).map fun r => x :: r

/-- Final step of a successful search: `pop_front` every queue and reset
`search_idx = optimal_idx = 0`. -/
def pop_and_reset {α : Type} : List (SyncStream α) → Option (List (SyncStream α))
  | [] => some []
  | st :: rest =>
    match st.queue with
    | [] => none
    | _ :: q =>
      (pop_and_reset rest).map fun r =>
        ({ queue := q, search_idx := 0, optimal_idx := 0, time_fcn := st.time_fcn } : SyncStream α) :: r

/-- The `searchable` predicate of `search()`: the queue's front time is at
most the pivot and its back time at least the pivot (the queues are non-empty
at the call site, so modelling `front/back` by `head?/getLast?` is faithful). -/
def bracketsB {α : Type} (pivot : Int) (st : SyncStream α) : Bool :=
  match st.queue.head?, st.queue.getLast? with
  | some a, some b => decide (st.time_fcn a ≤ pivot) && decide (pivot ≤ st.time_fcn b)
  | _, _ => false

/-- Total number of queued elements: used as fuel bound for the loops. -/
def total_len {α : Type} (ss : List (SyncStream α)) : Nat :=
  (ss.map fun st => st.queue.length).sum

/-- Result of one `Synchronizer::search()` call.  `matched` is the tuple
passed to `callback_` (empty when `found = false`); `drops0 … drops3` are the
elements passed to the per-stream nonsync callbacks by, in order, the initial
`keep_n_before_time(0, m_next_t)` trim, the pivot trim
`keep_n_before_time(1, pivot_time)`, the eviction up to `optimal_idx`, and
the re-trim `keep_n_before_time(1, max_t_best)`. -/
structure SearchRes (α : Type) where
  found : Bool
  matched : List α
  min_t_best : Int
  max_t_best : Int
  drops0 : List (List α)
  drops1 : List (List α)
  drops2 : List (List α)
  drops3 : List (List α)
  streams : List (SyncStream α)
  next_t : Int

/-- Per-stream empty drop lists (phases that did not run). -/
def emptyDrops {α : Type} (ss : List (SyncStream α)) : List (List α) :=
  ss.map fun _ => []

/-- The pivot time as `search()` establishes it: maximum first time after the
initial `keep_n_before_time(0, m_next_t)` trim. -/
def pivotOf {α : Type} (s : Synchronizer α) : Option Int :=
  max_first_time (keep_n_before_time 0 s.m_next_t s.streams).1

/-- `Synchronizer::search()` from `synchronizer_impl.hxx`. -/
def search {α : Type} (s : Synchronizer α) : Option (SearchRes α) :=
  let p0 := keep_n_before_time 0 s.m_next_t s.streams
  let ss0 := p0.1
  if (ss0.all fun st => !st.queue.isEmpty) = false then
    some ⟨false, [], 0, 0, p0.2, emptyDrops ss0, emptyDrops ss0, emptyDrops ss0, ss0, s.m_next_t⟩
  else
    (max_first_time ss0).bind fun pivot =>
    let p1 := keep_n_before_time 1 pivot ss0
    let ss1 := p1.1
    if (ss1.all (bracketsB pivot)) = false then
      some ⟨false, [], 0, 0, p0.2, p1.2, emptyDrops ss1, emptyDrops ss1, ss1, s.m_next_t⟩
    else
      (min_first_time ss1).bind fun minT =>
      (search_loop (total_len ss1 + 1) pivot minT pivot minT ss1).bind fun lr =>
      (drop_to_optimal lr.2.2).bind fun p2 =>
      let p3 := keep_n_before_time 1 lr.2.1 p2.1
      (front_elems p3.1).bind fun tup =>
      (pop_and_reset p3.1).bind fun ssF =>
      some ⟨true, tup, lr.1, lr.2.1, p0.2, p1.2, p2.2, p3.2, ssF, lr.1 + s.m_delta_t⟩

/-- Per-stream part of `Synchronizer::add`: reject if the element's time is
below `m_next_t` or below the current back of the queue, else append. -/
def add_to_queue {α : Type} (nextT : Int) (a : α) (st : SyncStream α) : SyncStream α :=
  let t := st.time_fcn a
  if t < nextT then st
  else
    match st.queue.getLast? with
    | some b => if t < st.time_fcn b then st else { st with queue := st.queue ++ [a] }
    | none => { st with queue := st.queue ++ [a] }

/-- The compile-time index recursion of `add<k>`: apply `add_to_queue` to the
`k`-th stream (no stream is touched when `k` is out of range, mirroring that
such a call does not compile in C++). -/
def add_impl {α : Type} (nextT : Int) (a : α) : Nat → List (SyncStream α) → List (SyncStream α)
  | _, [] => []
  | 0, st :: rest => add_to_queue nextT a st :: rest
  | k + 1, st :: rest => st :: add_impl nextT a k rest

/-- `Synchronizer::add<k>(el)`. -/
def add {α : Type} (k : Nat) (a : α) (s : Synchronizer α) : Synchronizer α :=
  { s with streams := add_impl s.m_next_t a k s.streams }

/-- Observable events, in callback-firing order: `drop k a` is the nonsync
callback of stream `k` receiving `a`; `sync tup rep` is the match callback
receiving the tuple `tup` (`rep` records `min_t_best`, the representative
timestamp of the match). -/
inductive Ev (α : Type) where
  | drop (k : Nat) (a : α)
  | sync (tup : List α) (rep : Int)
deriving DecidableEq

/-- Flatten per-stream drop lists into drop events (stream order, then queue
order — the order in which `mapApply` fires the callbacks). -/
def dropEvs {α : Type} (k : Nat) : List (List α) → List (Ev α)
  | [] => []
  | d :: rest => (d.map (Ev.drop k)) ++ dropEvs (k + 1) rest

/-- All callback firings of one `search()` call, in order. -/
def evsOfRes {α : Type} (r : SearchRes α) : List (Ev α) :=
  dropEvs 0 r.drops0 ++ dropEvs 0 r.drops1 ++ dropEvs 0 r.drops2 ++ dropEvs 0 r.drops3 ++
    (if r.found then [Ev.sync r.matched r.min_t_best] else [])

/-- Rebuild the synchronizer state from a search result. -/
def resState {α : Type} (dt : Int) (r : SearchRes α) : Synchronizer α :=
  ⟨r.streams, dt, r.next_t⟩

/-- The `while (search_more) { search_more = search(); }` loop of
`add_and_search` (fuel-indexed). -/
def search_while {α : Type} : Nat → Synchronizer α → Option (Synchronizer α × List (Ev α))
  | 0, _ => none
  | fuel + 1, s =>
    (search s).bind fun r =>
      if r.found then
        (search_while fuel (resState s.m_delta_t r)).map fun p => (p.1, evsOfRes r ++ p.2)
      else some (resState s.m_delta_t r, evsOfRes r)

/-- `Synchronizer::add_and_search<k>(el)` (the try-lock always succeeds in the
single-threaded semantics). -/
def add_and_search {α : Type} (k : Nat) (a : α) (s : Synchronizer α) :
    Option (Synchronizer α × List (Ev α)) :=
  let s1 := add k a s
  search_while (total_len s1.streams + 1) s1

/-- API calls of the synchronizer, for whole-trace statements. -/
inductive Op (α : Type) where
  | add (k : Nat) (a : α)
  | search
  | addSearch (k : Nat) (a : α)

/-- Execute one API call. -/
def step {α : Type} : Op α → Synchronizer α → Option (Synchronizer α × List (Ev α))
  | .add k a, s => some (add k a s, [])
  | .search, s => (search s).map fun r => (resState s.m_delta_t r, evsOfRes r)
  | .addSearch k a, s => add_and_search k a s

/-- Run a list of API calls, collecting all events in order. -/
def run {α : Type} : Synchronizer α → List (Op α) → Option (Synchronizer α × List (Ev α))
  | s, [] => some (s, [])
  | s, op :: ops =>
    (step op s).bind fun p => (run p.1 ops).map fun q => (q.1, p.2 ++ q.2)

/-- A freshly constructed `Synchronizer` with `N` streams of `Int` elements,
identity time functions (`set_time_fcn<i>(identity)`), and the given
`delta_t`: `m_next_t` starts at the minimal `int64_t`. -/
def mkInit (N : Nat) (dt : Int) : Synchronizer Int :=
  ⟨List.replicate N ⟨[], 0, 0, fun x => x⟩, dt, int64Min⟩

/-- Maximum of a list of timestamps (0 for the empty list, never used there). -/
def imax : List Int → Int
  | [] => 0
  | x :: xs => xs.foldl max x

/-- Minimum of a list of timestamps. -/
def imin : List Int → Int
  | [] => 0
  | x :: xs => xs.foldl min x

/-- Spread (max minus min) of a list of timestamps. -/
def widthOf (l : List Int) : Int := imax l - imin l

/-- Timestamps of a candidate tuple: element `xs_j` read through stream `j`'s
time function. -/
def tupleTimes {α : Type} (ss : List (SyncStream α)) (xs : List α) : List Int :=
  (List.zip ss xs).map fun pr => pr.1.time_fcn pr.2

/-- The queue is sorted (non-decreasing) under the stream's time function. -/
def TimeSorted {α : Type} (st : SyncStream α) : Prop :=
  List.Pairwise (fun a b => st.time_fcn a ≤ st.time_fcn b) st.queue

/-- Well-formedness of a stream between searches: sorted queue and both
working indices reset to zero. -/
def StreamInv {α : Type} (st : SyncStream α) : Prop :=
  TimeSorted st ∧ st.search_idx = 0 ∧ st.optimal_idx = 0

/-- Well-formedness of the synchronizer between API calls: at least one
stream (the template pack is non-empty) and every stream well-formed. -/
def SyncInv {α : Type} (s : Synchronizer α) : Prop :=
  s.streams ≠ [] ∧ ∀ st ∈ s.streams, StreamInv st

/-- Representative timestamps (`min_t_best`) of the match events, in order. -/
def repsOf {α : Type} (evs : List (Ev α)) : List Int :=
  evs.filterMap fun e => match e with
    | .sync _ rep => some rep
    | .drop _ _ => none

/-- Queues of a stream list (view that drops the function fields). -/
def qView {α : Type} (ss : List (SyncStream α)) : List (List α) :=
  ss.map fun st => st.queue

/-- Queue plus time function of every stream: the part of the state the
greedy loop never modifies. -/
def qtView {α : Type} (ss : List (SyncStream α)) : List (List α × (α → Int)) :=
  ss.map fun st => (st.queue, st.time_fcn)

/-- Invariant of the greedy loop: sorted queues, `search_idx` in bounds, and
every queue's back timestamp at least the pivot. -/
def LoopInv {α : Type} (pivot : Int) (ss : List (SyncStream α)) : Prop :=
  ∀ st ∈ ss, TimeSorted st ∧ st.search_idx < st.queue.length ∧
    ∀ b, st.queue.getLast? = some b → pivot ≤ st.time_fcn b

/-- The element each `optimal_idx` points at exists and its timestamp lies in
the best window `[min_t_best, max_t_best]`. -/
def OptOk {α : Type} (mb Mb : Int) (ss : List (SyncStream α)) : Prop :=
  ∀ st ∈ ss, ∃ y, st.queue.get? st.optimal_idx = some y ∧
    mb ≤ st.time_fcn y ∧ st.time_fcn y ≤ Mb

/-- The best window so far is no wider than the current search window. -/
def WindowOk {α : Type} (mb Mb : Int) (ss : List (SyncStream α)) : Prop :=
  ∀ mT MT, min_first_time ss = some mT → max_first_time ss = some MT →
    Mb - mb ≤ MT - mT

/-- Termination measure of the greedy loop. -/
def loop_measure {α : Type} (ss : List (SyncStream α)) : Nat :=
  (ss.map fun st => st.queue.length - st.search_idx).sum

/-- All queued timestamps exceed `nt`. -/
def AllAbove {α : Type} (nt : Int) (ss : List (SyncStream α)) : Prop :=
  ∀ st ∈ ss, ∀ x ∈ st.queue, nt < st.time_fcn x

/-- A candidate combination: one in-bounds queue position per stream. -/
def ComboIdx {α : Type} (ss : List (SyncStream α)) (c : List Nat) : Prop :=
  List.Forall₂ (fun st i => i < st.queue.length) ss c

/-- Every element the combination picks has timestamp within `[m, M]`. -/
def ComboVals {α : Type} (m M : Int) (ss : List (SyncStream α)) (c : List Nat) : Prop :=
  List.Forall₂ (fun st i => ∀ y, st.queue.get? i = some y →
    m ≤ st.time_fcn y ∧ st.time_fcn y ≤ M) ss c

/-- The search pointers have not yet passed the combination. -/
def IdxLe {α : Type} (ss : List (SyncStream α)) (c : List Nat) : Prop :=
  List.Forall₂ (fun st i => st.search_idx ≤ i) ss c

/-- Bookkeeping of the match representatives produced by a run segment:
the representatives are chained `delta_t` apart, the first one exceeds the
`next_t` at entry, and the `next_t` at exit is determined by the last one. -/
def RunReps (dt nt : Int) (reps : List Int) (ntOut : Int) : Prop :=
  List.Chain' (fun a b => a + dt ≤ b) reps ∧
  (∀ r0, reps.head? = some r0 → nt < r0) ∧
  ntOut = (match reps.getLast? with
    | some l => l + dt
    | none => nt)

/-- All elements currently queued in any stream. -/
def allElems {α : Type} (s : Synchronizer α) : List α :=
  (s.streams.map fun st => st.queue).join

/-- Concrete stream over `Int` elements with the identity time function
(used for witnesses and counterexamples). -/
def exSt (q : List Int) : SyncStream Int := ⟨q, 0, 0, fun x => x⟩

/-- Concrete synchronizer state over `Int` elements, identity time functions. -/
def exSync (qs : List (List Int)) (dt nt : Int) : Synchronizer Int :=
  ⟨qs.map exSt, dt, nt⟩

/-! ## Lemmas about the queue trim `keep_n_before_time` -/

theorem trimFront_append {α : Type} (tf : α → Int) (n : Nat) (t : Int) (q : List α) :
    (trimFront tf n t q).1 ++ (trimFront tf n t q).2 = q := by
  induction q with
  | nil => rfl
  | cons x xs ih =>
    rw [trimFront]
    cases hg : (x :: xs).get? n with
    | none => rfl
    | some y =>
      by_cases hy : tf y ≤ t
      · simp only [hy, if_pos, List.cons_append]
        rw [ih]
      · simp [hy]

theorem trimFront_sorted {α : Type} (tf : α → Int) (n : Nat) (t : Int) (q : List α)
    (h : List.Pairwise (fun a b => tf a ≤ tf b) q) :
    List.Pairwise (fun a b => tf a ≤ tf b) (trimFront tf n t q).2 := by
  have h2 : List.Pairwise (fun a b => tf a ≤ tf b)
      ((trimFront tf n t q).1 ++ (trimFront tf n t q).2) := by
    rw [trimFront_append]; exact h
  exact (List.pairwise_append.mp h2).2.1

theorem trimFront_cross {α : Type} (tf : α → Int) (n : Nat) (t : Int) (q : List α)
    (h : List.Pairwise (fun a b => tf a ≤ tf b) q) :
    ∀ x ∈ (trimFront tf n t q).1, ∀ y ∈ (trimFront tf n t q).2, tf x ≤ tf y := by
  have h2 : List.Pairwise (fun a b => tf a ≤ tf b)
      ((trimFront tf n t q).1 ++ (trimFront tf n t q).2) := by
    rw [trimFront_append]; exact h
  exact (List.pairwise_append.mp h2).2.2

theorem trimFront_dropped_le {α : Type} (tf : α → Int) (n : Nat) (t : Int) (q : List α)
    (h : List.Pairwise (fun a b => tf a ≤ tf b) q) :
    ∀ x ∈ (trimFront tf n t q).1, tf x ≤ t := by
  induction q with
  | nil => intro x hx; simp [trimFront] at hx
  | cons z xs ih =>
    rw [trimFront]
    cases hg : (z :: xs).get? n with
    | none => intro x hx; simp at hx
    | some y =>
      by_cases hy : tf y ≤ t
      · simp only [hy, if_pos]
        intro x hx
        rcases List.mem_cons.mp hx with hxz | hxs
        · subst hxz
          have hyq : y ∈ x :: xs := List.get?_mem hg
          rcases List.mem_cons.mp hyq with heq | hyxs
          · rw [← heq]; exact hy
          · exact le_trans (List.rel_of_pairwise_cons h hyxs) hy
        · exact ih (List.Pairwise.of_cons h) x hxs
      · intro x hx; simp [hy] at hx

theorem trimFront_zero_kept_gt {α : Type} (tf : α → Int) (t : Int) (q : List α)
    (h : List.Pairwise (fun a b => tf a ≤ tf b) q) :
    ∀ x ∈ (trimFront tf 0 t q).2, t < tf x := by
  induction q with
  | nil => intro x hx; simp [trimFront] at hx
  | cons z xs ih =>
    rw [trimFront]
    have hg : (z :: xs).get? 0 = some z := rfl
    rw [hg]
    by_cases hy : tf z ≤ t
    · simp only [hy, if_pos]
      exact ih (List.Pairwise.of_cons h)
    · simp only [hy, if_neg, not_false_iff]
      intro x hx
      rcases List.mem_cons.mp hx with rfl | hxs
      · exact lt_of_not_le hy
      · exact lt_of_lt_of_le (lt_of_not_le hy) (List.rel_of_pairwise_cons h hxs)

theorem trimFront_one_tail_gt {α : Type} (tf : α → Int) (t : Int) (q : List α)
    (h : List.Pairwise (fun a b => tf a ≤ tf b) q) :
    ∀ x ∈ ((trimFront tf 1 t q).2).tail, t < tf x := by
  induction q with
  | nil => intro x hx; simp [trimFront] at hx
  | cons z xs ih =>
    rw [trimFront]
    cases hg : (z :: xs).get? 1 with
    | none =>
      have : xs = [] := by
        cases xs with
        | nil => rfl
        | cons a l => simp at hg
      subst this
      intro x hx; simp at hx
    | some y =>
      by_cases hy : tf y ≤ t
      · simp only [hy, if_pos]
        exact ih (List.Pairwise.of_cons h)
      · simp only [hy, if_neg, not_false_iff, List.tail_cons]
        have hyx : xs.get? 0 = some y := hg
        cases xs with
        | nil => intro x hx; simp at hx
        | cons w ws =>
          have hwy : w = y := by simpa using hyx
          subst hwy
          intro x hx
          rcases List.mem_cons.mp hx with rfl | hxs
          · exact lt_of_not_le hy
          · exact lt_of_lt_of_le (lt_of_not_le hy)
              (List.rel_of_pairwise_cons (List.Pairwise.of_cons h) hxs)

theorem trimFront_one_ne_nil {α : Type} (tf : α → Int) (t : Int) (q : List α)
    (h : q ≠ []) : (trimFront tf 1 t q).2 ≠ [] := by
  induction q with
  | nil => exact absurd rfl h
  | cons z xs ih =>
    rw [trimFront]
    cases hg : (z :: xs).get? 1 with
    | none => simp
    | some y =>
      by_cases hy : tf y ≤ t
      · simp only [hy, if_pos]
        apply ih
        intro hxs
        rw [hxs] at hg
        simp at hg
      · simp [hy]

theorem trimFront_one_head_le {α : Type} (tf : α → Int) (t : Int) (q : List α) (a : α)
    (hh : q.head? = some a) (ha : tf a ≤ t) :
    ∃ b, (trimFront tf 1 t q).2.head? = some b ∧ tf b ≤ t := by
  induction q generalizing a with
  | nil => simp at hh
  | cons z xs ih =>
    have hz : z = a := by simpa using hh
    subst hz
    rw [trimFront]
    cases hg : (z :: xs).get? 1 with
    | none => exact ⟨z, rfl, ha⟩
    | some y =>
      by_cases hy : tf y ≤ t
      · simp only [hy, if_pos]
        have hyx : xs.head? = some y := by
          cases xs with
          | nil => simp at hg
          | cons w ws =>
            have hwy : w = y := by simpa using hg
            simp [hwy]
        exact ih y hyx hy
      · exact ⟨z, by simp [hy], ha⟩

theorem trimFront_zero_mem {α : Type} (tf : α → Int) (t : Int) (q : List α) (x : α)
    (h : List.Pairwise (fun a b => tf a ≤ tf b) q)
    (hx : x ∈ q) (hgt : t < tf x) : x ∈ (trimFront tf 0 t q).2 := by
  have := trimFront_append tf 0 t q
  rw [← this] at hx
  rcases List.mem_append.mp hx with hd | hk
  · exact absurd (trimFront_dropped_le tf 0 t q h x hd) (not_le.mpr hgt)
  · exact hk

/-! ## Lemmas about `add` -/

theorem add_to_queue_reject {α : Type} (nextT : Int) (a : α) (st : SyncStream α)
    (h : st.time_fcn a < nextT ∨
      ∃ b, st.queue.getLast? = some b ∧ st.time_fcn a < st.time_fcn b) :
    add_to_queue nextT a st = st := by
  unfold add_to_queue
  rcases h with h | ⟨b, hb, hab⟩
  · simp [h]
  · by_cases ht : st.time_fcn a < nextT
    · simp [ht]
    · simp only [ht, if_neg, not_false_iff, hb]
      simp [hab]

theorem add_to_queue_accept {α : Type} (nextT : Int) (a : α) (st : SyncStream α)
    (h1 : ¬ st.time_fcn a < nextT)
    (h2 : ∀ b, st.queue.getLast? = some b → ¬ st.time_fcn a < st.time_fcn b) :
    add_to_queue nextT a st = { st with queue := st.queue ++ [a] } := by
  unfold add_to_queue
  simp only [h1, if_neg, not_false_iff]
  cases hb : st.queue.getLast? with
  | none => rfl
  | some b => simp [h2 b hb]

theorem add_impl_congr {α : Type} (nextT : Int) (a : α) (k : Nat) (ss : List (SyncStream α))
    (st : SyncStream α) (hk : ss.get? k = some st) :
    add_impl nextT a k ss = ss.set k (add_to_queue nextT a st) := by
  induction ss generalizing k with
  | nil => simp at hk
  | cons z rest ih =>
    cases k with
    | zero =>
      have : z = st := by simpa using hk
      subst this
      rfl
    | succ k =>
      have hk' : rest.get? k = some st := by simpa using hk
      simp [add_impl, List.set, ih k hk']

theorem add_impl_out_of_range {α : Type} (nextT : Int) (a : α) (k : Nat)
    (ss : List (SyncStream α)) (hk : ss.get? k = none) :
    add_impl nextT a k ss = ss := by
  induction ss generalizing k with
  | nil => cases k <;> rfl
  | cons z rest ih =>
    cases k with
    | zero => simp at hk
    | succ k =>
      have hk' : rest.get? k = none := by simpa using hk
      simp [add_impl, ih k hk']

theorem list_set_self {β : Type} (ss : List β) (k : Nat) (x : β)
    (h : ss.get? k = some x) : ss.set k x = ss := by
  induction ss generalizing k with
  | nil => simp at h
  | cons z rest ih =>
    cases k with
    | zero =>
      have : z = x := by simpa using h
      subst this
      rfl
    | succ k =>
      have h' : rest.get? k = some x := by simpa using h
      simp [List.set, ih k h']

theorem keep_sorted {α : Type} (n : Nat) (t : Int) (ss : List (SyncStream α))
    (h : ∀ st ∈ ss, TimeSorted st) :
    ∀ st ∈ (keep_n_before_time n t ss).1, TimeSorted st := by
  intro st hst
  rcases List.mem_map.mp hst with ⟨st0, hst0, rfl⟩
  exact trimFront_sorted st0.time_fcn n t st0.queue (h st0 hst0)

/-- C4: for every stream index `k` and element `el` with `t = time_fcn(el)`,
`add<k>(el)` discards the element, leaves every queue (and all other state)
unchanged, and fires no callback, exactly when `t < next_t` or the queue is
non-empty with `t` below its back's timestamp; otherwise it appends the
element to the back of queue `k` and modifies nothing else. -/
theorem claim4_add_contract {α : Type} (s : Synchronizer α) (k : Nat) (a : α)
    (st : SyncStream α) (hk : s.streams.get? k = some st) :
    ((st.time_fcn a < s.m_next_t ∨
        ∃ b, st.queue.getLast? = some b ∧ st.time_fcn a < st.time_fcn b) →
      add k a s = s)
    ∧ ((¬ st.time_fcn a < s.m_next_t) →
       (∀ b, st.queue.getLast? = some b → ¬ st.time_fcn a < st.time_fcn b) →
      add k a s =
        { s with streams := s.streams.set k { st with queue := st.queue ++ [a] } }) := by
  constructor
  · intro h
    show ({ s with streams := add_impl s.m_next_t a k s.streams } : Synchronizer α) = s
    rw [add_impl_congr s.m_next_t a k s.streams st hk, add_to_queue_reject s.m_next_t a st h,
      list_set_self s.streams k st hk]
  · intro h1 h2
    show ({ s with streams := add_impl s.m_next_t a k s.streams } : Synchronizer α) = _
    rw [add_impl_congr s.m_next_t a k s.streams st hk, add_to_queue_accept s.m_next_t a st h1 h2]

/-- Witness for C4 at a concrete input: one stream holding `[5]`, adding `3`
(rejected: violates monotonicity) and the contract instantiated. -/
theorem claim4_witness :
    ((exSt [5]).time_fcn 3 < (exSync [[5]] 0 int64Min).m_next_t ∨
      ∃ b, (exSt [5]).queue.getLast? = some b ∧ (exSt [5]).time_fcn 3 < (exSt [5]).time_fcn b) ∧
    (((exSt [5]).time_fcn 3 < (exSync [[5]] 0 int64Min).m_next_t ∨
        ∃ b, (exSt [5]).queue.getLast? = some b ∧ (exSt [5]).time_fcn 3 < (exSt [5]).time_fcn b) →
      add 0 3 (exSync [[5]] 0 int64Min) = exSync [[5]] 0 int64Min) := by
  have h := claim4_add_contract (exSync [[5]] 0 int64Min) 0 3 (exSt [5]) rfl
  exact ⟨Or.inr ⟨5, rfl, by norm_num [exSt]⟩, h.1⟩

/-- C8 (amended): when at least one queue is empty, `search()` returns
`false` and fires no match callback, and the entire effect is that of the
initial `keep_n_before_time(0, m_next_t)` trim, which may itself fire
per-stream drop callbacks (recorded in `drops0`) and shorten queues; the
empty-queue check happens only after that trim. -/
theorem claim8_empty_queue_search {α : Type} (s : Synchronizer α)
    (h : ∃ st ∈ s.streams, st.queue = []) :
    search s = some ⟨false, [], 0, 0, (keep_n_before_time 0 s.m_next_t s.streams).2,
      emptyDrops (keep_n_before_time 0 s.m_next_t s.streams).1,
      emptyDrops (keep_n_before_time 0 s.m_next_t s.streams).1,
      emptyDrops (keep_n_before_time 0 s.m_next_t s.streams).1,
      (keep_n_before_time 0 s.m_next_t s.streams).1, s.m_next_t⟩ := by
  rcases h with ⟨st, hmem, hq⟩
  have hmem' : ({ st with queue := (trimFront st.time_fcn 0 s.m_next_t st.queue).2 } : SyncStream α)
      ∈ (keep_n_before_time 0 s.m_next_t s.streams).1 := List.mem_map_of_mem _ hmem
  have hq' : (trimFront st.time_fcn 0 s.m_next_t st.queue).2 = [] := by rw [hq]; rfl
  have hall : ((keep_n_before_time 0 s.m_next_t s.streams).1.all
      fun st => !st.queue.isEmpty) = false := by
    rw [List.all_eq_false]
    exact ⟨_, hmem', by simp [hq']⟩
  unfold search
  simp only [hall, reduceIte]

/-- Counterexample to C8 as stated: from a fresh two-stream synchronizer with
`delta_t = 10`, feeding `0, 1` to stream 0 and `0` to stream 1 and searching
produces a match and leaves the reachable state with queues `[[1], []]` and
`next_t = 10`; calling `search()` there — queue 1 is empty — returns `false`
but nevertheless fires stream 0's drop callback on element `1` and empties
queue 0, contradicting "fires no callback and leaves all queues unchanged". -/
theorem claim8_counterexample :
    (run (mkInit 2 10) [Op.add 0 0, Op.add 0 1, Op.add 1 0, Op.search]).map
        (fun p => (qView p.1.streams, p.1.m_next_t, p.2)) =
      some ([[1], []], 10, [Ev.sync [0, 0] 0]) ∧
    (exSync [[1], []] 10 10).streams.get? 1 = some (exSt []) ∧
    (search (exSync [[1], []] 10 10)).map
        (fun r => (r.found, r.matched, r.drops0, qView r.streams)) =
      some (false, [], [[1], []], [[], []]) := by
  exact ⟨rfl, rfl, rfl⟩

/-- Witness for C8 (amended) at a concrete input: one queue empty, one stale
element dropped by the initial trim. -/
theorem claim8_witness :
    (∃ st ∈ (exSync [[1], []] 10 10).streams, st.queue = []) ∧
    search (exSync [[1], []] 10 10) = some ⟨false, [], 0, 0,
      (keep_n_before_time 0 (exSync [[1], []] 10 10).m_next_t (exSync [[1], []] 10 10).streams).2,
      emptyDrops (keep_n_before_time 0 (exSync [[1], []] 10 10).m_next_t (exSync [[1], []] 10 10).streams).1,
      emptyDrops (keep_n_before_time 0 (exSync [[1], []] 10 10).m_next_t (exSync [[1], []] 10 10).streams).1,
      emptyDrops (keep_n_before_time 0 (exSync [[1], []] 10 10).m_next_t (exSync [[1], []] 10 10).streams).1,
      (keep_n_before_time 0 (exSync [[1], []] 10 10).m_next_t (exSync [[1], []] 10 10).streams).1,
      (exSync [[1], []] 10 10).m_next_t⟩ := by
  have h : ∃ st ∈ (exSync [[1], []] 10 10).streams, st.queue = [] :=
    ⟨exSt [], by simp [exSync, exSt], rfl⟩
  exact ⟨h, claim8_empty_queue_search (exSync [[1], []] 10 10) h⟩

/-- C7 (amended): after the pivot time `p` is established, the pivot trim
(`keep_n_before_time(1, pivot)`, whose per-stream effect is
`trimFront time_fcn 1 p`) leaves in each queue at most one element with
timestamp not above the pivot — every retained element except the front is
strictly newer than the pivot, so in particular at most one retained element
is older than the pivot — and every element it removes (firing that stream's
drop callback) has timestamp at most the pivot.  Removal of an element whose
timestamp equals the pivot is possible, so the original "only elements older
than (not equal to) the pivot are removed" is too strong. -/
theorem claim7_pivot_trim {α : Type} (s : Synchronizer α) (p : Int)
    (hSorted : ∀ st ∈ s.streams, TimeSorted st)
    (hp : pivotOf s = some p) :
    ∀ st ∈ (keep_n_before_time 0 s.m_next_t s.streams).1,
      (∀ x ∈ (trimFront st.time_fcn 1 p st.queue).1, st.time_fcn x ≤ p) ∧
      (∀ x ∈ ((trimFront st.time_fcn 1 p st.queue).2).tail, p < st.time_fcn x) := by
  intro st hst
  have hs : TimeSorted st := keep_sorted 0 s.m_next_t s.streams hSorted st hst
  exact ⟨trimFront_dropped_le st.time_fcn 1 p st.queue hs,
         trimFront_one_tail_gt st.time_fcn p st.queue hs⟩

/-- Counterexample to C7 as stated: queues `[5, 5]` and `[5]` give pivot
`5`; the pivot trim drops stream 0's front element, whose timestamp `5`
equals the pivot — an element that is not older than the pivot is removed
(with the drop callback), contradicting the claim. -/
theorem claim7_counterexample :
    pivotOf (exSync [[5, 5], [5]] 0 int64Min) = some 5 ∧
    (search (exSync [[5, 5], [5]] 0 int64Min)).map (fun r => r.drops1) = some [[5], []] ∧
    ¬ (5 : Int) < 5 := ⟨rfl, rfl, by norm_num⟩

/-- Witness for C7 (amended) at the same concrete input. -/
theorem claim7_witness :
    (∀ st ∈ (exSync [[5, 5], [5]] 0 int64Min).streams, TimeSorted st) ∧
    pivotOf (exSync [[5, 5], [5]] 0 int64Min) = some 5 ∧
    (∀ st ∈ (keep_n_before_time 0 (exSync [[5, 5], [5]] 0 int64Min).m_next_t
        (exSync [[5, 5], [5]] 0 int64Min).streams).1,
      (∀ x ∈ (trimFront st.time_fcn 1 5 st.queue).1, st.time_fcn x ≤ 5) ∧
      (∀ x ∈ ((trimFront st.time_fcn 1 5 st.queue).2).tail, 5 < st.time_fcn x)) := by
  have hSorted : ∀ st ∈ (exSync [[5, 5], [5]] 0 int64Min).streams, TimeSorted st := by
    intro st hst
    have h2 : st = exSt [5, 5] ∨ st = exSt [5] := by
      simpa [exSync] using hst
    rcases h2 with rfl | rfl <;>
      simp [TimeSorted, exSt, List.pairwise_cons]
  exact ⟨hSorted, rfl, claim7_pivot_trim (exSync [[5, 5], [5]] 0 int64Min) 5 hSorted rfl⟩

/-! ## Lemmas about `min_first_time`, `max_first_time`, `increase_first_with_time` -/

theorem min_first_cons {α : Type} (st : SyncStream α) (rest : List (SyncStream α))
    (h : rest ≠ []) :
    min_first_time (st :: rest) =
      (search_time st).bind fun a => (min_first_time rest).map fun b => min a b := by
  cases rest with
  | nil => exact absurd rfl h
  | cons b l => rfl

theorem max_first_cons {α : Type} (st : SyncStream α) (rest : List (SyncStream α))
    (h : rest ≠ []) :
    max_first_time (st :: rest) =
      (search_time st).bind fun a => (max_first_time rest).map fun b => max a b := by
  cases rest with
  | nil => exact absurd rfl h
  | cons b l => rfl

theorem min_first_le {α : Type} (ss : List (SyncStream α)) (m : Int)
    (h : min_first_time ss = some m) :
    ∀ st ∈ ss, ∀ v, search_time st = some v → m ≤ v := by
  induction ss generalizing m with
  | nil => intro st hst; simp at hst
  | cons st rest ih =>
    cases rest with
    | nil =>
      intro st' hst' v hv
      have he : st' = st := by simpa using hst'
      subst he
      have hm : search_time st' = some m := h
      rw [hv] at hm
      have : v = m := by simpa using hm
      omega
    | cons b l =>
      rw [min_first_cons st (b :: l) (by simp)] at h
      cases hv0 : search_time st with
      | none => rw [hv0] at h; simp at h
      | some v0 =>
        rw [hv0] at h
        cases hm' : min_first_time (b :: l) with
        | none => rw [hm'] at h; simp at h
        | some m' =>
          rw [hm'] at h
          have hmin : min v0 m' = m := by simpa using h
          intro st' hst' v hv
          rcases List.mem_cons.mp hst' with he | hmem
          · subst he
            rw [hv0] at hv
            have hvv : v0 = v := by simpa using hv
            have := min_le_left v0 m'
            omega
          · have := ih m' hm' st' hmem v hv
            have := min_le_right v0 m'
            omega

theorem max_first_ge {α : Type} (ss : List (SyncStream α)) (m : Int)
    (h : max_first_time ss = some m) :
    ∀ st ∈ ss, ∀ v, search_time st = some v → v ≤ m := by
  induction ss generalizing m with
  | nil => intro st hst; simp at hst
  | cons st rest ih =>
    cases rest with
    | nil =>
      intro st' hst' v hv
      have he : st' = st := by simpa using hst'
      subst he
      have hm : search_time st' = some m := h
      rw [hv] at hm
      have : v = m := by simpa using hm
      omega
    | cons b l =>
      rw [max_first_cons st (b :: l) (by simp)] at h
      cases hv0 : search_time st with
      | none => rw [hv0] at h; simp at h
      | some v0 =>
        rw [hv0] at h
        cases hm' : max_first_time (b :: l) with
        | none => rw [hm'] at h; simp at h
        | some m' =>
          rw [hm'] at h
          have hmax : max v0 m' = m := by simpa using h
          intro st' hst' v hv
          rcases List.mem_cons.mp hst' with he | hmem
          · subst he
            rw [hv0] at hv
            have hvv : v0 = v := by simpa using hv
            have := le_max_left v0 m'
            omega
          · have := ih m' hm' st' hmem v hv
            have := le_max_right v0 m'
            omega

theorem min_first_mem {α : Type} (ss : List (SyncStream α)) (m : Int)
    (h : min_first_time ss = some m) :
    ∃ st ∈ ss, search_time st = some m := by
  induction ss generalizing m with
  | nil => simp [min_first_time] at h
  | cons st rest ih =>
    cases rest with
    | nil => exact ⟨st, by simp, h⟩
    | cons b l =>
      rw [min_first_cons st (b :: l) (by simp)] at h
      cases hv0 : search_time st with
      | none => rw [hv0] at h; simp at h
      | some v0 =>
        rw [hv0] at h
        cases hm' : min_first_time (b :: l) with
        | none => rw [hm'] at h; simp at h
        | some m' =>
          rw [hm'] at h
          have hmin : min v0 m' = m := by simpa using h
          rcases le_total v0 m' with hle | hle
          · refine ⟨st, by simp, ?_⟩
            rw [hv0]
            congr 1
            rw [← hmin]
            omega
          · rcases ih m' hm' with ⟨st', hst', hv'⟩
            refine ⟨st', by simp [hst'], ?_⟩
            rw [hv']
            congr 1
            rw [← hmin]
            omega

theorem max_first_mem {α : Type} (ss : List (SyncStream α)) (m : Int)
    (h : max_first_time ss = some m) :
    ∃ st ∈ ss, search_time st = some m := by
  induction ss generalizing m with
  | nil => simp [max_first_time] at h
  | cons st rest ih =>
    cases rest with
    | nil => exact ⟨st, by simp, h⟩
    | cons b l =>
      rw [max_first_cons st (b :: l) (by simp)] at h
      cases hv0 : search_time st with
      | none => rw [hv0] at h; simp at h
      | some v0 =>
        rw [hv0] at h
        cases hm' : max_first_time (b :: l) with
        | none => rw [hm'] at h; simp at h
        | some m' =>
          rw [hm'] at h
          have hmax : max v0 m' = m := by simpa using h
          rcases le_total v0 m' with hle | hle
          · rcases ih m' hm' with ⟨st', hst', hv'⟩
            refine ⟨st', by simp [hst'], ?_⟩
            rw [hv']
            congr 1
            rw [← hmax]
            omega
          · refine ⟨st, by simp, ?_⟩
            rw [hv0]
            congr 1
            rw [← hmax]
            omega

theorem min_first_all_some {α : Type} (ss : List (SyncStream α)) (m : Int)
    (h : min_first_time ss = some m) :
    ∀ st ∈ ss, ∃ v, search_time st = some v := by
  induction ss generalizing m with
  | nil => intro st hst; simp at hst
  | cons st rest ih =>
    cases rest with
    | nil =>
      intro st' hst'
      have he : st' = st := by simpa using hst'
      subst he
      exact ⟨m, h⟩
    | cons b l =>
      rw [min_first_cons st (b :: l) (by simp)] at h
      cases hv0 : search_time st with
      | none => rw [hv0] at h; simp at h
      | some v0 =>
        rw [hv0] at h
        cases hm' : min_first_time (b :: l) with
        | none => rw [hm'] at h; simp at h
        | some m' =>
          intro st' hst'
          rcases List.mem_cons.mp hst' with he | hmem
          · subst he; exact ⟨v0, hv0⟩
          · exact ih m' hm' st' hmem

theorem min_first_some_of {α : Type} (ss : List (SyncStream α))
    (hne : ss ≠ []) (h : ∀ st ∈ ss, ∃ v, search_time st = some v) :
    ∃ m, min_first_time ss = some m := by
  induction ss with
  | nil => exact absurd rfl hne
  | cons st rest ih =>
    rcases h st (by simp) with ⟨v0, hv0⟩
    cases rest with
    | nil => exact ⟨v0, hv0⟩
    | cons b l =>
      rcases ih (by simp) (fun st' hst' => h st' (by simp [hst'])) with ⟨m', hm'⟩
      refine ⟨min v0 m', ?_⟩
      rw [min_first_cons st (b :: l) (by simp), hv0, hm']
      rfl

theorem max_first_some_of {α : Type} (ss : List (SyncStream α))
    (hne : ss ≠ []) (h : ∀ st ∈ ss, ∃ v, search_time st = some v) :
    ∃ m, max_first_time ss = some m := by
  induction ss with
  | nil => exact absurd rfl hne
  | cons st rest ih =>
    rcases h st (by simp) with ⟨v0, hv0⟩
    cases rest with
    | nil => exact ⟨v0, hv0⟩
    | cons b l =>
      rcases ih (by simp) (fun st' hst' => h st' (by simp [hst'])) with ⟨m', hm'⟩
      refine ⟨max v0 m', ?_⟩
      rw [max_first_cons st (b :: l) (by simp), hv0, hm']
      rfl

theorem search_time_some {α : Type} (st : SyncStream α)
    (h : st.search_idx < st.queue.length) : ∃ v, search_time st = some v := by
  rcases List.get?_eq_get h ▸ (⟨_, rfl⟩ : ∃ y, st.queue.get? st.search_idx = st.queue.get? st.search_idx) with _
  refine ⟨st.time_fcn (st.queue.get ⟨st.search_idx, h⟩), ?_⟩
  unfold search_time
  rw [List.get?_eq_get h]
  rfl

theorem increase_spec {α : Type} (ss : List (SyncStream α)) (m : Int)
    (h : min_first_time ss = some m) :
    ∃ l1 st l2, ss = l1 ++ st :: l2 ∧ search_time st = some m ∧
      increase_first_with_time m ss =
        some (l1 ++ { st with search_idx := st.search_idx + 1 } :: l2) := by
  induction ss generalizing m with
  | nil => simp [min_first_time] at h
  | cons st rest ih =>
    rcases min_first_all_some _ _ h st (by simp) with ⟨v, hv⟩
    by_cases hvm : v ≤ m
    · have hmv : m ≤ v := min_first_le _ _ h st (by simp) v hv
      have hveq : v = m := le_antisymm hvm hmv
      subst hveq
      refine ⟨[], st, rest, rfl, hv, ?_⟩
      unfold increase_first_with_time
      rw [hv]
      simp
    · have hrest : rest ≠ [] := by
        intro hr
        subst hr
        have : search_time st = some m := h
        rw [hv] at this
        have : v = m := by simpa using this
        omega
      have hm' : min_first_time rest = some m := by
        rw [min_first_cons st rest hrest, hv] at h
        cases hmr : min_first_time rest with
        | none => rw [hmr] at h; simp at h
        | some m' =>
          rw [hmr] at h
          have hmin : min v m' = m := by simpa using h
          rcases le_total v m' with hle | hle
          · have heq : min v m' = v := min_eq_left hle
            omega
          · have heq : min v m' = m' := min_eq_right hle
            rw [heq] at hmin
            rw [hmin]
      rcases ih m hm' with ⟨l1, stj, l2, heq, hstj, hinc⟩
      refine ⟨st :: l1, stj, l2, by simp [heq], hstj, ?_⟩
      unfold increase_first_with_time
      rw [hv]
      simp [hvm, hinc]

theorem idx_bound_of_lt_back {α : Type} (st : SyncStream α) (y : α) (pivot : Int)
    (hs : TimeSorted st)
    (hy : st.queue.get? st.search_idx = some y)
    (hlt : st.time_fcn y < pivot)
    (hback : ∀ b, st.queue.getLast? = some b → pivot ≤ st.time_fcn b) :
    st.search_idx + 1 < st.queue.length := by
  have hidx : st.search_idx < st.queue.length := by
    rcases List.get?_eq_some.mp hy with ⟨h, _⟩
    exact h
  by_contra hcon
  have hEq : st.search_idx = st.queue.length - 1 := by omega
  have hlast : st.queue.getLast? = some y := by
    rw [List.getLast?_eq_get?, ← hEq]
    exact hy
  have := hback y hlast
  omega

theorem loop_measure_split {α : Type} (l1 l2 : List (SyncStream α)) (st : SyncStream α) :
    loop_measure (l1 ++ st :: l2) =
      loop_measure l1 + (st.queue.length - st.search_idx) + loop_measure l2 := by
  simp [loop_measure]
  omega

theorem qtView_split_idx {α : Type} (l1 l2 : List (SyncStream α)) (st : SyncStream α) (k : Nat) :
    qtView (l1 ++ { st with search_idx := k } :: l2) = qtView (l1 ++ st :: l2) := by
  simp [qtView]

theorem min_first_map_opt {α : Type} (ss : List (SyncStream α)) :
    min_first_time (ss.map fun st => { st with optimal_idx := st.search_idx }) =
      min_first_time ss := by
  induction ss with
  | nil => rfl
  | cons st rest ih =>
    cases rest with
    | nil => rfl
    | cons b l =>
      rw [List.map_cons, min_first_cons _ _ (by simp), min_first_cons _ _ (by simp), ih]
      rfl

theorem loop_measure_map_opt {α : Type} (ss : List (SyncStream α)) :
    loop_measure (ss.map fun st => { st with optimal_idx := st.search_idx }) =
      loop_measure ss := by
  simp only [loop_measure, List.map_map]
  rfl

theorem qtView_map_opt {α : Type} (ss : List (SyncStream α)) :
    qtView (ss.map fun st => { st with optimal_idx := st.search_idx }) = qtView ss := by
  simp only [qtView, List.map_map]
  rfl

theorem loopInv_map_opt {α : Type} (pivot : Int) (ss : List (SyncStream α))
    (h : LoopInv pivot ss) :
    LoopInv pivot (ss.map fun st => { st with optimal_idx := st.search_idx }) := by
  intro st hst
  rcases List.mem_map.mp hst with ⟨st0, hst0, rfl⟩
  exact h st0 hst0

theorem allAbove_congr {α : Type} (nt : Int) (ss1 ss2 : List (SyncStream α))
    (hq : qtView ss2 = qtView ss1) (h : AllAbove nt ss1) : AllAbove nt ss2 := by
  intro st hst x hx
  have hmem : (st.queue, st.time_fcn) ∈ qtView ss2 := List.mem_map_of_mem _ hst
  rw [hq] at hmem
  rcases List.mem_map.mp hmem with ⟨st1, hst1, hpr⟩
  have hqe : st1.queue = st.queue := congrArg Prod.fst hpr
  have hte : st1.time_fcn = st.time_fcn := congrArg Prod.snd hpr
  rw [← hqe] at hx
  rw [← hte]
  exact h st1 hst1 x hx

theorem search_loop_spec {α : Type} (fuel : Nat) (pivot : Int) :
    ∀ (mb Mb minT : Int) (ss : List (SyncStream α)),
      LoopInv pivot ss → min_first_time ss = some minT → loop_measure ss < fuel →
      ∃ mb' Mb' ss', search_loop fuel pivot mb Mb minT ss = some (mb', Mb', ss') ∧
        LoopInv pivot ss' ∧ qtView ss' = qtView ss ∧
        (OptOk mb Mb ss → OptOk mb' Mb' ss') ∧
        (mb ≤ Mb → mb' ≤ Mb') ∧
        (∀ nt, AllAbove nt ss → nt < mb → nt < mb') := by
  induction fuel with
  | zero =>
    intro mb Mb minT ss hInv hMin hFuel
    omega
  | succ fuel ih =>
    intro mb Mb minT ss hInv hMin hFuel
    by_cases hlt : minT < pivot
    case neg =>
      refine ⟨mb, Mb, ss, ?_, hInv, rfl, fun h => h, fun h => h, fun nt _ h => h⟩
      rw [search_loop, if_neg hlt]
    case pos =>
      rcases increase_spec ss minT hMin with ⟨l1, stj, l2, hss, hstj, hinc⟩
      rcases Option.map_eq_some'.mp hstj with ⟨y, hy, hty⟩
      have hstjmem : stj ∈ ss := by
        rw [hss]; exact List.mem_append_right _ (List.mem_cons_self _ _)
      rcases hInv stj hstjmem with ⟨hsort_j, hidx_j, hback_j⟩
      have hbound : stj.search_idx + 1 < stj.queue.length :=
        idx_bound_of_lt_back stj y pivot hsort_j hy (by rw [hty]; exact hlt) hback_j
      have hInv1 : LoopInv pivot (l1 ++ { stj with search_idx := stj.search_idx + 1 } :: l2) := by
        intro st hst
        rcases List.mem_append.mp hst with h1 | h2
        · exact hInv st (by rw [hss]; exact List.mem_append_left _ h1)
        · rcases List.mem_cons.mp h2 with he | h3
          · subst he
            exact ⟨hsort_j, hbound, hback_j⟩
          · exact hInv st (by rw [hss]; exact List.mem_append_right _ (List.mem_cons_of_mem _ h3))
      have hqt1 : qtView (l1 ++ { stj with search_idx := stj.search_idx + 1 } :: l2) = qtView ss := by
        rw [qtView_split_idx, ← hss]
      have hne1 : (l1 ++ { stj with search_idx := stj.search_idx + 1 } :: l2) ≠ [] := by simp
      have hallsome1 : ∀ st ∈ l1 ++ { stj with search_idx := stj.search_idx + 1 } :: l2,
          ∃ v, search_time st = some v := by
        intro st hst
        exact search_time_some st (hInv1 st hst).2.1
      rcases min_first_some_of _ hne1 hallsome1 with ⟨minT1, hmin1⟩
      rcases max_first_some_of _ hne1 hallsome1 with ⟨maxT1, hmax1⟩
      have hm1M1 : minT1 ≤ maxT1 := by
        rcases min_first_mem _ _ hmin1 with ⟨st1, hst1, hv1⟩
        exact max_first_ge _ _ hmax1 st1 hst1 minT1 hv1
      have hmeas1 : loop_measure (l1 ++ { stj with search_idx := stj.search_idx + 1 } :: l2) + 1 =
          loop_measure ss := by
        rw [hss, loop_measure_split, loop_measure_split]
        simp only
        omega
      have hOpt1 : OptOk mb Mb ss →
          OptOk mb Mb (l1 ++ { stj with search_idx := stj.search_idx + 1 } :: l2) := by
        intro hO st hst
        rcases List.mem_append.mp hst with h1 | h2
        · exact hO st (by rw [hss]; exact List.mem_append_left _ h1)
        · rcases List.mem_cons.mp h2 with he | h3
          · subst he
            exact hO stj hstjmem
          · exact hO st (by rw [hss]; exact List.mem_append_right _ (List.mem_cons_of_mem _ h3))
      have hAbove1 : ∀ nt, AllAbove nt ss →
          AllAbove nt (l1 ++ { stj with search_idx := stj.search_idx + 1 } :: l2) :=
        fun nt h => allAbove_congr nt ss _ hqt1 h
      have hntm1 : ∀ nt, AllAbove nt ss → nt < minT1 := by
        intro nt hA
        rcases min_first_mem _ _ hmin1 with ⟨st1, hst1, hv1⟩
        rcases Option.map_eq_some'.mp hv1 with ⟨y1, hy1, hty1⟩
        have hy1mem : y1 ∈ st1.queue := List.get?_mem hy1
        have := hAbove1 nt hA st1 hst1 y1 hy1mem
        omega
      by_cases hbr : Mb - mb ≤ maxT1 - pivot
      · refine ⟨mb, Mb, _, ?_, hInv1, hqt1, hOpt1, fun h => h, fun nt _ h => h⟩
        rw [search_loop, if_pos hlt, hinc, Option.some_bind, hmin1, Option.some_bind, hmax1,
          Option.some_bind, if_pos hbr]
      · by_cases hupd : maxT1 - minT1 < Mb - mb
        · have hInv2 := loopInv_map_opt pivot _ hInv1
          have hmin2 : min_first_time
              ((l1 ++ { stj with search_idx := stj.search_idx + 1 } :: l2).map
                fun st => { st with optimal_idx := st.search_idx }) = some minT1 := by
            rw [min_first_map_opt]; exact hmin1
          have hmeas2 : loop_measure
              ((l1 ++ { stj with search_idx := stj.search_idx + 1 } :: l2).map
                fun st => { st with optimal_idx := st.search_idx }) < fuel := by
            rw [loop_measure_map_opt]
            omega
          rcases ih minT1 maxT1 minT1 _ hInv2 hmin2 hmeas2 with
            ⟨mb', Mb', ss', heq', hInv', hqt', hOpt', hle', hnt'⟩
          refine ⟨mb', Mb', ss', ?_, hInv', ?_, ?_, ?_, ?_⟩
          · rw [search_loop, if_pos hlt, hinc, Option.some_bind, hmin1, Option.some_bind, hmax1,
              Option.some_bind, if_neg hbr, if_pos hupd]
            exact heq'
          · rw [hqt', qtView_map_opt, hqt1]
          · intro _
            apply hOpt'
            intro st hst
            rcases List.mem_map.mp hst with ⟨st0, hst0, rfl⟩
            rcases hallsome1 st0 hst0 with ⟨v0, hv0⟩
            rcases Option.map_eq_some'.mp hv0 with ⟨y0, hy0, hty0⟩
            refine ⟨y0, hy0, ?_, ?_⟩
            · show minT1 ≤ st0.time_fcn y0
              have := min_first_le _ _ hmin1 st0 hst0 v0 hv0
              omega
            · show st0.time_fcn y0 ≤ maxT1
              have := max_first_ge _ _ hmax1 st0 hst0 v0 hv0
              omega
          · intro _
            exact hle' hm1M1
          · intro nt hA _
            exact hnt' nt
              (allAbove_congr nt _ _ (by rw [qtView_map_opt]; exact hqt1) hA) (hntm1 nt hA)
        · rcases ih mb Mb minT1 _ hInv1 hmin1 (by omega) with
            ⟨mb', Mb', ss', heq', hInv', hqt', hOpt', hle', hnt'⟩
          refine ⟨mb', Mb', ss', ?_, hInv', by rw [hqt', hqt1],
            fun hO => hOpt' (hOpt1 hO), hle', ?_⟩
          · rw [search_loop, if_pos hlt, hinc, Option.some_bind, hmin1, Option.some_bind, hmax1,
              Option.some_bind, if_neg hbr, if_neg hupd]
            exact heq'
          · intro nt hA hmb
            exact hnt' nt (hAbove1 nt hA) hmb

theorem max_first_map_opt {α : Type} (ss : List (SyncStream α)) :
    max_first_time (ss.map fun st => { st with optimal_idx := st.search_idx }) =
      max_first_time ss := by
  induction ss with
  | nil => rfl
  | cons st rest ih =>
    cases rest with
    | nil => rfl
    | cons b l =>
      rw [List.map_cons, max_first_cons _ _ (by simp), max_first_cons _ _ (by simp), ih]
      rfl

theorem increase_step {α : Type} (pivot minT : Int) (ss : List (SyncStream α))
    (hInv : LoopInv pivot ss) (hMin : min_first_time ss = some minT) (hlt : minT < pivot) :
    ∃ l1 stj l2, ss = l1 ++ stj :: l2 ∧ search_time stj = some minT ∧
      increase_first_with_time minT ss =
        some (l1 ++ { stj with search_idx := stj.search_idx + 1 } :: l2) ∧
      LoopInv pivot (l1 ++ { stj with search_idx := stj.search_idx + 1 } :: l2) ∧
      stj.search_idx + 1 < stj.queue.length := by
  rcases increase_spec ss minT hMin with ⟨l1, stj, l2, hss, hstj, hinc⟩
  rcases Option.map_eq_some'.mp hstj with ⟨y, hy, hty⟩
  have hstjmem : stj ∈ ss := by
    rw [hss]; exact List.mem_append_right _ (List.mem_cons_self _ _)
  rcases hInv stj hstjmem with ⟨hsort_j, hidx_j, hback_j⟩
  have hbound : stj.search_idx + 1 < stj.queue.length :=
    idx_bound_of_lt_back stj y pivot hsort_j hy (by rw [hty]; exact hlt) hback_j
  refine ⟨l1, stj, l2, hss, hstj, hinc, ?_, hbound⟩
  intro st hst
  rcases List.mem_append.mp hst with h1 | h2
  · exact hInv st (by rw [hss]; exact List.mem_append_left _ h1)
  · rcases List.mem_cons.mp h2 with he | h3
    · subst he
      exact ⟨hsort_j, hbound, hback_j⟩
    · exact hInv st (by rw [hss]; exact List.mem_append_right _ (List.mem_cons_of_mem _ h3))

theorem forall2_split_left {α β : Type} {R : α → β → Prop} (l1 l2 : List α) (st : α)
    (c : List β) (h : List.Forall₂ R (l1 ++ st :: l2) c) :
    ∃ c1 j c2, c = c1 ++ j :: c2 ∧ c1.length = l1.length ∧
      List.Forall₂ R l1 c1 ∧ R st j ∧ List.Forall₂ R l2 c2 := by
  induction l1 generalizing c with
  | nil =>
    rcases List.forall₂_cons_left_iff.mp h with ⟨j, c2, hR, h2, rfl⟩
    exact ⟨[], j, c2, rfl, rfl, List.Forall₂.nil, hR, h2⟩
  | cons a l1 ih =>
    rcases List.forall₂_cons_left_iff.mp h with ⟨b, c', hR, h2, rfl⟩
    rcases ih c' h2 with ⟨c1, j, c2, rfl, hlen, hf1, hRj, hf2⟩
    exact ⟨b :: c1, j, c2, rfl, by simp [hlen], List.Forall₂.cons hR hf1, hRj, hf2⟩

theorem forall2_join {α β : Type} {R : α → β → Prop} (l1 l2 : List α) (st : α)
    (c1 c2 : List β) (j : β)
    (h1 : List.Forall₂ R l1 c1) (hj : R st j) (h2 : List.Forall₂ R l2 c2) :
    List.Forall₂ R (l1 ++ st :: l2) (c1 ++ j :: c2) := by
  induction h1 with
  | nil => exact List.Forall₂.cons hj h2
  | cons hR hf ih => exact List.Forall₂.cons hR ih

theorem forall2_split_both {α β : Type} {R : α → β → Prop} (l1 l2 : List α) (st : α)
    (c1 c2 : List β) (j : β) (hlen : c1.length = l1.length)
    (h : List.Forall₂ R (l1 ++ st :: l2) (c1 ++ j :: c2)) :
    List.Forall₂ R l1 c1 ∧ R st j ∧ List.Forall₂ R l2 c2 := by
  induction l1 generalizing c1 with
  | nil =>
    cases c1 with
    | nil =>
      rcases List.forall₂_cons_left_iff.mp h with ⟨b, c', hR, h2, heq⟩
      have hbj : j = b ∧ c2 = c' := by simpa using heq
      refine ⟨List.Forall₂.nil, ?_, ?_⟩
      · rw [hbj.1]; exact hR
      · rw [hbj.2]; exact h2
    | cons b c1 => simp at hlen
  | cons a l1 ih =>
    cases c1 with
    | nil => simp at hlen
    | cons b c1 =>
      rcases List.forall₂_cons_left_iff.mp h with ⟨b', c', hR, h2, heq⟩
      have hb : b' = b ∧ c' = c1 ++ j :: c2 := by
        have := heq
        simp at this
        exact ⟨this.1.symm, this.2.symm⟩
      rcases ih c1 (by simpa using hlen) (hb.2 ▸ h2) with ⟨hf1, hRj, hf2⟩
      exact ⟨List.Forall₂.cons (hb.1 ▸ hR) hf1, hRj, hf2⟩

theorem maxT_le_combo {α : Type} (pivot m M MT : Int) (ss : List (SyncStream α)) (c : List Nat)
    (hInv : LoopInv pivot ss)
    (hle : IdxLe ss c)
    (hcomb : List.Forall₂ (fun st i => i < st.queue.length ∧
      ∀ y, st.queue.get? i = some y → m ≤ st.time_fcn y ∧ st.time_fcn y ≤ M) ss c)
    (hmax : max_first_time ss = some MT) :
    MT ≤ M := by
  rcases max_first_mem _ _ hmax with ⟨st, hst, hv⟩
  rcases Option.map_eq_some'.mp hv with ⟨y, hy, hty⟩
  rcases List.mem_iff_get.mp hst with ⟨n, hgn⟩
  have hic : n.1 < c.length := by rw [← hcomb.length_eq]; exact n.2
  have hcomb_i := hcomb.get n.2 hic
  have hle_i := hle.get n.2 hic
  have hgn' : ss.get ⟨n.1, n.2⟩ = st := hgn
  rw [hgn'] at hcomb_i hle_i
  rcases hcomb_i with ⟨hlen_i, hbound_i⟩
  have hq : st.queue.get? (c.get ⟨n.1, hic⟩) =
      some (st.queue.get ⟨c.get ⟨n.1, hic⟩, hlen_i⟩) := List.get?_eq_get hlen_i
  rcases hbound_i _ hq with ⟨hm1, hM1⟩
  rcases hInv st hst with ⟨hsort, hidx, _⟩
  rcases List.get?_eq_some.mp hy with ⟨hidx2, hyget⟩
  have hmono : st.time_fcn y ≤ st.time_fcn (st.queue.get ⟨c.get ⟨n.1, hic⟩, hlen_i⟩) := by
    rcases Nat.lt_or_ge st.search_idx (c.get ⟨n.1, hic⟩) with hlt2 | hge2
    · have hpw := (List.pairwise_iff_get.mp hsort) ⟨st.search_idx, hidx2⟩
        ⟨c.get ⟨n.1, hic⟩, hlen_i⟩ hlt2
      rw [hyget] at hpw
      exact hpw
    · have heq2 : st.search_idx = c.get ⟨n.1, hic⟩ := le_antisymm hle_i hge2
      have : st.queue.get ⟨c.get ⟨n.1, hic⟩, hlen_i⟩ = y := by
        rw [← hyget]
        congr 1
        exact (Fin.mk_eq_mk.mpr heq2.symm)
      rw [this]
  omega

theorem search_loop_bound {α : Type} (fuel : Nat) (pivot m M : Int) :
    ∀ (mb Mb minT : Int) (ss : List (SyncStream α)) (c : List Nat)
      (out : Int × Int × List (SyncStream α)),
      search_loop fuel pivot mb Mb minT ss = some out →
      LoopInv pivot ss →
      min_first_time ss = some minT →
      List.Forall₂ (fun st i => i < st.queue.length ∧
        ∀ y, st.queue.get? i = some y → m ≤ st.time_fcn y ∧ st.time_fcn y ≤ M) ss c →
      m ≤ pivot →
      (Mb - mb ≤ M - m ∨ (IdxLe ss c ∧ WindowOk mb Mb ss)) →
      out.2.1 - out.1 ≤ M - m := by
  induction fuel with
  | zero =>
    intro mb Mb minT ss c out hout hInv hMin hcomb hmp hDisj
    simp [search_loop] at hout
  | succ fuel ih =>
    intro mb Mb minT ss c out hout hInv hMin hcomb hmp hDisj
    by_cases hlt : minT < pivot
    case neg =>
      rw [search_loop, if_neg hlt] at hout
      have hout' : (mb, Mb, ss) = out := Option.some.inj hout
      rcases hDisj with h1 | ⟨hle, hwin⟩
      · rw [← hout']
        exact h1
      · have hallsome : ∀ st ∈ ss, ∃ v, search_time st = some v :=
          fun st hst => search_time_some st (hInv st hst).2.1
        have hne : ss ≠ [] := by
          intro h0
          rw [h0] at hMin
          simp [min_first_time] at hMin
        rcases max_first_some_of ss hne hallsome with ⟨MT, hMT⟩
        have h1 := hwin minT MT hMin hMT
        have h2 := maxT_le_combo pivot m M MT ss c hInv hle hcomb hMT
        rw [← hout']
        show Mb - mb ≤ M - m
        omega
    case pos =>
      rcases increase_step pivot minT ss hInv hMin hlt with
        ⟨l1, stj, l2, hss, hstj, hinc, hInv1, hbound⟩
      rw [search_loop, if_pos hlt, hinc, Option.some_bind] at hout
      subst hss
      cases hm1 : min_first_time (l1 ++ { stj with search_idx := stj.search_idx + 1 } :: l2) with
      | none => rw [hm1] at hout; simp at hout
      | some minT1 =>
      rw [hm1, Option.some_bind] at hout
      cases hM1 : max_first_time (l1 ++ { stj with search_idx := stj.search_idx + 1 } :: l2) with
      | none => rw [hM1] at hout; simp at hout
      | some maxT1 =>
      rw [hM1, Option.some_bind] at hout
      rcases forall2_split_left l1 l2 stj c hcomb with ⟨c1, cj, c2, hc, hclen, hf1, hfj, hf2⟩
      subst hc
      have hcomb1 : List.Forall₂ (fun st i => i < st.queue.length ∧
          ∀ y, st.queue.get? i = some y → m ≤ st.time_fcn y ∧ st.time_fcn y ≤ M)
          (l1 ++ { stj with search_idx := stj.search_idx + 1 } :: l2) (c1 ++ cj :: c2) :=
        forall2_join l1 l2 _ c1 c2 cj hf1 hfj hf2
      -- the "first crossing" bound: if the advanced stream sat exactly at its
      -- combination position, the pre-step window already witnesses the bound
      have hcross_bound : stj.search_idx = cj →
          IdxLe (l1 ++ stj :: l2) (c1 ++ cj :: c2) →
          WindowOk mb Mb (l1 ++ stj :: l2) → Mb - mb ≤ M - m := by
        intro hjeq hle hwin
        rcases Option.map_eq_some'.mp hstj with ⟨y, hy, hty⟩
        have hmy : m ≤ stj.time_fcn y := by
          have hy' : stj.queue.get? cj = some y := by rw [← hjeq]; exact hy
          exact (hfj.2 y hy').1
        have hallsome : ∀ st ∈ l1 ++ stj :: l2, ∃ v, search_time st = some v :=
          fun st hst => search_time_some st (hInv st hst).2.1
        rcases max_first_some_of _ (by simp) hallsome with ⟨MT0, hMT0⟩
        have h1 := hwin minT MT0 hMin hMT0
        have h2 := maxT_le_combo pivot m M MT0 _ _ hInv hle hcomb hMT0
        omega
      by_cases hbr : Mb - mb ≤ maxT1 - pivot
      · rw [if_pos hbr] at hout
        have hout' : (mb, Mb, l1 ++ { stj with search_idx := stj.search_idx + 1 } :: l2) = out :=
          Option.some.inj hout
        rw [← hout']
        show Mb - mb ≤ M - m
        rcases hDisj with h1 | ⟨hle, hwin⟩
        · exact h1
        · rcases forall2_split_both l1 l2 stj c1 c2 cj hclen hle with ⟨hle1, hlej, hle2⟩
          rcases Nat.lt_or_ge stj.search_idx cj with hcr | hcr
          · have hle1' : IdxLe (l1 ++ { stj with search_idx := stj.search_idx + 1 } :: l2)
                (c1 ++ cj :: c2) := forall2_join l1 l2 _ c1 c2 cj hle1 hcr hle2
            have hmax_le := maxT_le_combo pivot m M maxT1 _ _ hInv1 hle1' hcomb1 hM1
            omega
          · exact hcross_bound (le_antisymm hlej hcr) hle hwin
      · rw [if_neg hbr] at hout
        by_cases hupd : maxT1 - minT1 < Mb - mb
        · rw [if_pos hupd] at hout
          have hcomb2 : List.Forall₂ (fun st i => i < st.queue.length ∧
              ∀ y, st.queue.get? i = some y → m ≤ st.time_fcn y ∧ st.time_fcn y ≤ M)
              ((l1 ++ { stj with search_idx := stj.search_idx + 1 } :: l2).map
                fun st => { st with optimal_idx := st.search_idx }) (c1 ++ cj :: c2) :=
            List.forall₂_map_left_iff.mpr (hcomb1.imp fun a b h => h)
          refine ih minT1 maxT1 minT1 _ (c1 ++ cj :: c2) out hout
            (loopInv_map_opt _ _ hInv1) (by rw [min_first_map_opt]; exact hm1) hcomb2 hmp ?_
          rcases hDisj with h1 | ⟨hle, hwin⟩
          · left
            omega
          · rcases forall2_split_both l1 l2 stj c1 c2 cj hclen hle with ⟨hle1, hlej, hle2⟩
            rcases Nat.lt_or_ge stj.search_idx cj with hcr | hcr
            · right
              constructor
              · exact List.forall₂_map_left_iff.mpr
                  ((forall2_join l1 l2 { stj with search_idx := stj.search_idx + 1 } c1 c2 cj hle1 hcr hle2).imp fun a b h => h)
              · intro mT MT hmT hMT
                rw [min_first_map_opt, hm1] at hmT
                rw [max_first_map_opt, hM1] at hMT
                have e1 : minT1 = mT := Option.some.inj hmT
                have e2 : maxT1 = MT := Option.some.inj hMT
                omega
            · left
              have := hcross_bound (le_antisymm hlej hcr) hle hwin
              omega
        · rw [if_neg hupd] at hout
          refine ih mb Mb minT1 _ (c1 ++ cj :: c2) out hout hInv1 hm1 hcomb1 hmp ?_
          rcases hDisj with h1 | ⟨hle, hwin⟩
          · left
            exact h1
          · rcases forall2_split_both l1 l2 stj c1 c2 cj hclen hle with ⟨hle1, hlej, hle2⟩
            rcases Nat.lt_or_ge stj.search_idx cj with hcr | hcr
            · right
              constructor
              · exact forall2_join l1 l2 _ c1 c2 cj hle1 hcr hle2
              · intro mT MT hmT hMT
                have e1 : minT1 = mT := by rw [hm1] at hmT; exact Option.some.inj hmT
                have e2 : maxT1 = MT := by rw [hM1] at hMT; exact Option.some.inj hMT
                omega
            · left
              exact hcross_bound (le_antisymm hlej hcr) hle hwin

/-! ## Search-level lemmas -/

theorem search_found_inversion {α : Type} (s : Synchronizer α) (r : SearchRes α)
    (hr : search s = some r) (hf : r.found = true) :
    ∃ pivot minT mb Mb ssL ssE d2,
      ((keep_n_before_time 0 s.m_next_t s.streams).1.all fun st => !st.queue.isEmpty) = true ∧
      max_first_time (keep_n_before_time 0 s.m_next_t s.streams).1 = some pivot ∧
      ((keep_n_before_time 1 pivot (keep_n_before_time 0 s.m_next_t s.streams).1).1.all
        (bracketsB pivot)) = true ∧
      min_first_time
        (keep_n_before_time 1 pivot (keep_n_before_time 0 s.m_next_t s.streams).1).1 = some minT ∧
      search_loop
        (total_len (keep_n_before_time 1 pivot (keep_n_before_time 0 s.m_next_t s.streams).1).1 + 1)
        pivot minT pivot minT
        (keep_n_before_time 1 pivot (keep_n_before_time 0 s.m_next_t s.streams).1).1
        = some (mb, Mb, ssL) ∧
      drop_to_optimal ssL = some (ssE, d2) ∧
      front_elems (keep_n_before_time 1 Mb ssE).1 = some r.matched ∧
      pop_and_reset (keep_n_before_time 1 Mb ssE).1 = some r.streams ∧
      r.min_t_best = mb ∧ r.max_t_best = Mb ∧
      r.drops0 = (keep_n_before_time 0 s.m_next_t s.streams).2 ∧
      r.drops1 = (keep_n_before_time 1 pivot (keep_n_before_time 0 s.m_next_t s.streams).1).2 ∧
      r.drops2 = d2 ∧
      r.drops3 = (keep_n_before_time 1 Mb ssE).2 ∧
      r.next_t = mb + s.m_delta_t := by
  simp only [search] at hr
  by_cases h1 : ((keep_n_before_time 0 s.m_next_t s.streams).1.all
      fun st => !st.queue.isEmpty) = false
  · rw [if_pos h1] at hr
    have := Option.some.inj hr
    rw [← this] at hf
    simp at hf
  · rw [if_neg h1] at hr
    have h1' : ((keep_n_before_time 0 s.m_next_t s.streams).1.all
        fun st => !st.queue.isEmpty) = true := by
      revert h1
      cases ((keep_n_before_time 0 s.m_next_t s.streams).1.all fun st => !st.queue.isEmpty) <;>
        simp
    cases hpv : max_first_time (keep_n_before_time 0 s.m_next_t s.streams).1 with
    | none => rw [hpv] at hr; simp at hr
    | some pivot =>
    rw [hpv, Option.some_bind] at hr
    by_cases h2 : ((keep_n_before_time 1 pivot
        (keep_n_before_time 0 s.m_next_t s.streams).1).1.all (bracketsB pivot)) = false
    · rw [if_pos h2] at hr
      have := Option.some.inj hr
      rw [← this] at hf
      simp at hf
    · rw [if_neg h2] at hr
      have h2' : ((keep_n_before_time 1 pivot
          (keep_n_before_time 0 s.m_next_t s.streams).1).1.all (bracketsB pivot)) = true := by
        revert h2
        cases ((keep_n_before_time 1 pivot
          (keep_n_before_time 0 s.m_next_t s.streams).1).1.all (bracketsB pivot)) <;> simp
      cases hmt : min_first_time
          (keep_n_before_time 1 pivot (keep_n_before_time 0 s.m_next_t s.streams).1).1 with
      | none => rw [hmt] at hr; simp at hr
      | some minT =>
      rw [hmt, Option.some_bind] at hr
      cases hlp : search_loop
          (total_len (keep_n_before_time 1 pivot
            (keep_n_before_time 0 s.m_next_t s.streams).1).1 + 1)
          pivot minT pivot minT
          (keep_n_before_time 1 pivot (keep_n_before_time 0 s.m_next_t s.streams).1).1 with
      | none => rw [hlp] at hr; simp at hr
      | some lr =>
      rw [hlp, Option.some_bind] at hr
      cases hdt : drop_to_optimal lr.2.2 with
      | none => rw [hdt] at hr; simp at hr
      | some p2 =>
      rw [hdt, Option.some_bind] at hr
      cases hfe : front_elems (keep_n_before_time 1 lr.2.1 p2.1).1 with
      | none => rw [hfe] at hr; simp at hr
      | some tup =>
      rw [hfe, Option.some_bind] at hr
      cases hpr : pop_and_reset (keep_n_before_time 1 lr.2.1 p2.1).1 with
      | none => rw [hpr] at hr; simp at hr
      | some ssF =>
      rw [hpr, Option.some_bind] at hr
      have hreq := Option.some.inj hr
      refine ⟨pivot, minT, lr.1, lr.2.1, lr.2.2, p2.1, p2.2, h1', rfl, h2', hmt, ?_, ?_, ?_, ?_,
        ?_, ?_, ?_, ?_, ?_, ?_, ?_⟩
      · rw [hlp]
      · rw [hdt]
      · rw [hfe, ← hreq]
      · rw [hpr, ← hreq]
      · rw [← hreq]
      · rw [← hreq]
      · rw [← hreq]
      · rw [← hreq]
      · rw [← hreq]
      · rw [← hreq]
      · rw [← hreq]

theorem get?_zero_eq_head {α : Type} (l : List α) : l.get? 0 = l.head? := by
  cases l <;> rfl

theorem brackets_spec {α : Type} (pivot : Int) (st : SyncStream α)
    (h : bracketsB pivot st = true) :
    ∃ a b, st.queue.head? = some a ∧ st.queue.getLast? = some b ∧
      st.time_fcn a ≤ pivot ∧ pivot ≤ st.time_fcn b := by
  unfold bracketsB at h
  cases ha : st.queue.head? with
  | none => rw [ha] at h; simp at h
  | some a =>
    cases hb : st.queue.getLast? with
    | none => rw [ha, hb] at h; simp at h
    | some b =>
      rw [ha, hb] at h
      simp at h
      exact ⟨a, b, rfl, rfl, h.1, h.2⟩

theorem max_first_eq_some {α : Type} (ss : List (SyncStream α)) (m : Int)
    (hne : ss ≠ [])
    (hall : ∀ st ∈ ss, ∃ v, search_time st = some v ∧ v ≤ m)
    (hmem : ∃ st ∈ ss, search_time st = some m) :
    max_first_time ss = some m := by
  rcases max_first_some_of ss hne (fun st hst => (hall st hst).imp fun v hv => hv.1) with ⟨MT, hMT⟩
  rcases max_first_mem ss MT hMT with ⟨st, hst, hv⟩
  rcases hall st hst with ⟨v, hv2, hvle⟩
  rw [hv2] at hv
  have h1 : v = MT := Option.some.inj hv
  rcases hmem with ⟨st2, hst2, hv3⟩
  have h2 : m ≤ MT := max_first_ge ss MT hMT st2 hst2 m hv3
  have : MT = m := by omega
  rw [← this]
  exact hMT

theorem drop_to_optimal_eq {α : Type} (ss : List (SyncStream α))
    (h : ∀ st ∈ ss, st.optimal_idx ≤ st.queue.length) :
    drop_to_optimal ss =
      some (ss.map fun st => { st with queue := st.queue.drop st.optimal_idx },
        ss.map fun st => st.queue.take st.optimal_idx) := by
  induction ss with
  | nil => rfl
  | cons st rest ih =>
    unfold drop_to_optimal
    rw [if_pos (h st (by simp)), ih (fun st' hst' => h st' (by simp [hst']))]
    rfl

theorem front_elems_inv {α : Type} (ss : List (SyncStream α)) (tup : List α)
    (h : front_elems ss = some tup) :
    List.Forall₂ (fun st x => st.queue.head? = some x) ss tup := by
  induction ss generalizing tup with
  | nil =>
    have : tup = [] := by
      have := Option.some.inj h
      rw [← this]
    rw [this]
    exact List.Forall₂.nil
  | cons st rest ih =>
    unfold front_elems at h
    cases hh : st.queue.head? with
    | none => rw [hh] at h; simp at h
    | some x =>
      rw [hh, Option.some_bind] at h
      cases hr : front_elems rest with
      | none => rw [hr] at h; simp at h
      | some r =>
        rw [hr] at h
        have : x :: r = tup := by
          have h2 := h
          simp at h2
          exact h2
        rw [← this]
        exact List.Forall₂.cons hh (ih r hr)

theorem front_elems_some {α : Type} (ss : List (SyncStream α))
    (h : ∀ st ∈ ss, st.queue ≠ []) : ∃ tup, front_elems ss = some tup := by
  induction ss with
  | nil => exact ⟨[], rfl⟩
  | cons st rest ih =>
    rcases ih (fun st' hst' => h st' (by simp [hst'])) with ⟨r, hr⟩
    cases hh : st.queue with
    | nil => exact absurd rfl (hh ▸ h st (by simp))
    | cons x q =>
      refine ⟨x :: r, ?_⟩
      unfold front_elems
      rw [hh]
      simp only [List.head?_cons, Option.some_bind]
      rw [hr]
      rfl

theorem pop_and_reset_inv {α : Type} (ss out : List (SyncStream α))
    (h : pop_and_reset ss = some out) :
    List.Forall₂ (fun st st' => st.queue.tail = st'.queue ∧ st'.search_idx = 0 ∧
      st'.optimal_idx = 0 ∧ st'.time_fcn = st.time_fcn) ss out := by
  induction ss generalizing out with
  | nil =>
    have : out = [] := by
      have := Option.some.inj h
      rw [← this]
    rw [this]
    exact List.Forall₂.nil
  | cons st rest ih =>
    unfold pop_and_reset at h
    cases hq : st.queue with
    | nil => rw [hq] at h; simp at h
    | cons x q =>
      rw [hq] at h
      cases hr : pop_and_reset rest with
      | none => rw [hr] at h; simp at h
      | some r =>
        rw [hr] at h
        have h2 : SyncStream.mk q 0 0 st.time_fcn :: r = out := by
          simpa using h
        rw [← h2]
        exact List.Forall₂.cons (by simp [hq]) (ih r hr)

theorem pop_and_reset_some {α : Type} (ss : List (SyncStream α))
    (h : ∀ st ∈ ss, st.queue ≠ []) : ∃ out, pop_and_reset ss = some out := by
  induction ss with
  | nil => exact ⟨[], rfl⟩
  | cons st rest ih =>
    rcases ih (fun st' hst' => h st' (by simp [hst'])) with ⟨r, hr⟩
    cases hq : st.queue with
    | nil => exact absurd rfl (hq ▸ h st (by simp))
    | cons x q =>
      refine ⟨SyncStream.mk q 0 0 st.time_fcn :: r, ?_⟩
      unfold pop_and_reset
      rw [hq, hr]
      rfl

theorem loop_measure_le_total {α : Type} (ss : List (SyncStream α)) :
    loop_measure ss ≤ total_len ss := by
  induction ss with
  | nil => simp [loop_measure, total_len]
  | cons st rest ih =>
    simp only [loop_measure, total_len, List.map_cons, List.sum_cons] at ih ⊢
    omega

theorem keep_streamInv {α : Type} (n : Nat) (t : Int) (ss : List (SyncStream α))
    (h : ∀ st ∈ ss, StreamInv st) :
    ∀ st ∈ (keep_n_before_time n t ss).1, StreamInv st := by
  intro st hst
  rcases List.mem_map.mp hst with ⟨st0, hst0, rfl⟩
  rcases h st0 hst0 with ⟨hs, hi, ho⟩
  exact ⟨trimFront_sorted st0.time_fcn n t st0.queue hs, hi, ho⟩

theorem keep0_above {α : Type} (t : Int) (ss : List (SyncStream α))
    (h : ∀ st ∈ ss, TimeSorted st) :
    AllAbove t (keep_n_before_time 0 t ss).1 := by
  intro st hst x hx
  rcases List.mem_map.mp hst with ⟨st0, hst0, rfl⟩
  exact trimFront_zero_kept_gt st0.time_fcn t st0.queue (h st0 hst0) x hx

theorem above_keep {α : Type} (nt : Int) (n : Nat) (t : Int) (ss : List (SyncStream α))
    (h : AllAbove nt ss) : AllAbove nt (keep_n_before_time n t ss).1 := by
  intro st hst x hx
  rcases List.mem_map.mp hst with ⟨st0, hst0, rfl⟩
  have hxq : x ∈ st0.queue := by
    rw [← trimFront_append st0.time_fcn n t st0.queue]
    exact List.mem_append_right _ hx
  exact h st0 hst0 x hxq

theorem search_time_head {α : Type} (st : SyncStream α) (h : st.search_idx = 0) :
    search_time st = st.queue.head?.map st.time_fcn := by
  unfold search_time
  rw [h, get?_zero_eq_head]

theorem head_le_pivot_of_max {α : Type} (ss : List (SyncStream α)) (pivot : Int)
    (hpv : max_first_time ss = some pivot)
    (hidx : ∀ st ∈ ss, st.search_idx = 0) :
    ∀ st ∈ ss, ∀ a, st.queue.head? = some a → st.time_fcn a ≤ pivot := by
  intro st hst a ha
  have hv : search_time st = some (st.time_fcn a) := by
    rw [search_time_head st (hidx st hst), ha]
    rfl
  exact max_first_ge ss pivot hpv st hst _ hv

theorem max_first_keep1 {α : Type} (ss : List (SyncStream α)) (pivot : Int)
    (hsorted : ∀ st ∈ ss, TimeSorted st)
    (hidx : ∀ st ∈ ss, st.search_idx = 0)
    (hne : ∀ st ∈ ss, st.queue ≠ [])
    (hpv : max_first_time ss = some pivot) :
    max_first_time (keep_n_before_time 1 pivot ss).1 = some pivot := by
  apply max_first_eq_some
  · intro h0
    have : ss = [] := by
      rcases ss with _ | ⟨a, l⟩
      · rfl
      · simp [keep_n_before_time] at h0
    rw [this] at hpv
    simp [max_first_time] at hpv
  · intro st hst
    rcases List.mem_map.mp hst with ⟨st0, hst0, rfl⟩
    have hq0 : st0.queue ≠ [] := hne st0 hst0
    have hh0 : ∃ a, st0.queue.head? = some a := by
      cases hq : st0.queue with
      | nil => exact absurd hq hq0
      | cons x q => exact ⟨x, rfl⟩
    rcases hh0 with ⟨a, ha⟩
    have hale : st0.time_fcn a ≤ pivot := head_le_pivot_of_max ss pivot hpv hidx st0 hst0 a ha
    rcases trimFront_one_head_le st0.time_fcn pivot st0.queue a ha hale with ⟨b, hb, hble⟩
    refine ⟨st0.time_fcn b, ?_, hble⟩
    rw [search_time_head { st0 with queue := (trimFront st0.time_fcn 1 pivot st0.queue).2 }
      (hidx st0 hst0), hb]
    rfl
  · rcases max_first_mem ss pivot hpv with ⟨st0, hst0, hv⟩
    refine ⟨{ st0 with queue := (trimFront st0.time_fcn 1 pivot st0.queue).2 },
      List.mem_map_of_mem _ hst0, ?_⟩
    rw [search_time_head st0 (hidx st0 hst0)] at hv
    cases ha : st0.queue.head? with
    | none => rw [ha] at hv; simp at hv
    | some a =>
      rw [ha] at hv
      have hta : st0.time_fcn a = pivot := by simpa using hv
      rcases trimFront_one_head_le st0.time_fcn pivot st0.queue a ha (le_of_eq hta) with
        ⟨b, hb, hble⟩
      have hbmem : b ∈ (trimFront st0.time_fcn 1 pivot st0.queue).2 :=
        List.mem_of_mem_head? hb
      have hbq : b ∈ st0.queue := by
        rw [← trimFront_append st0.time_fcn 1 pivot st0.queue]
        exact List.mem_append_right _ hbmem
      have hage : st0.time_fcn a ≤ st0.time_fcn b := by
        have hs := hsorted st0 hst0
        cases hq : st0.queue with
        | nil => rw [hq] at ha; simp at ha
        | cons x q =>
          rw [hq] at ha hbq
          have hax : x = a := by simpa using ha
          rcases List.mem_cons.mp hbq with he | hmem
          · rw [he, hax]
          · have hs2 : List.Pairwise (fun u v => st0.time_fcn u ≤ st0.time_fcn v) (x :: q) := by
              rw [← hq]
              exact hs
            rw [← hax]
            exact List.rel_of_pairwise_cons hs2 hmem
      have htb : st0.time_fcn b = pivot := le_antisymm hble (by omega)
      rw [search_time_head { st0 with queue := (trimFront st0.time_fcn 1 pivot st0.queue).2 }
        (hidx st0 hst0), hb]
      simp [htb]

theorem loopInv_stage1 {α : Type} (ss : List (SyncStream α)) (pivot : Int)
    (hsorted : ∀ st ∈ ss, TimeSorted st)
    (hidx : ∀ st ∈ ss, st.search_idx = 0)
    (hbrk : ss.all (bracketsB pivot) = true) :
    LoopInv pivot ss := by
  intro st hst
  have hb := List.all_eq_true.mp hbrk st hst
  rcases brackets_spec pivot st hb with ⟨a, b, ha, hb2, hale, hbge⟩
  refine ⟨hsorted st hst, ?_, ?_⟩
  · rw [hidx st hst]
    cases hq : st.queue with
    | nil => rw [hq] at ha; simp at ha
    | cons x q => simp
  · intro b' hb'
    rw [hb2] at hb'
    have : b = b' := Option.some.inj hb'
    rw [← this]
    exact hbge

theorem optOk_init {α : Type} (ss : List (SyncStream α)) (pivot minT : Int)
    (hidx : ∀ st ∈ ss, st.search_idx = 0)
    (hopt : ∀ st ∈ ss, st.optimal_idx = 0)
    (hbrk : ss.all (bracketsB pivot) = true)
    (hmt : min_first_time ss = some minT) :
    OptOk minT pivot ss := by
  intro st hst
  have hb := List.all_eq_true.mp hbrk st hst
  rcases brackets_spec pivot st hb with ⟨a, b, ha, hb2, hale, hbge⟩
  refine ⟨a, ?_, ?_, hale⟩
  · rw [hopt st hst, get?_zero_eq_head, ha]
  · have hv : search_time st = some (st.time_fcn a) := by
      rw [search_time_head st (hidx st hst), ha]
      rfl
    exact min_first_le ss minT hmt st hst _ hv

theorem next_lt_min {α : Type} (ss : List (SyncStream α)) (nt minT : Int)
    (hA : AllAbove nt ss) (hmt : min_first_time ss = some minT) : nt < minT := by
  rcases min_first_mem ss minT hmt with ⟨st, hst, hv⟩
  rcases Option.map_eq_some'.mp hv with ⟨y, hy, hty⟩
  have := hA st hst y (List.get?_mem hy)
  omega

theorem search_false1_eq {α : Type} (s : Synchronizer α)
    (h1 : ((keep_n_before_time 0 s.m_next_t s.streams).1.all
      fun st => !st.queue.isEmpty) = false) :
    search s = some ⟨false, [], 0, 0, (keep_n_before_time 0 s.m_next_t s.streams).2,
      emptyDrops (keep_n_before_time 0 s.m_next_t s.streams).1,
      emptyDrops (keep_n_before_time 0 s.m_next_t s.streams).1,
      emptyDrops (keep_n_before_time 0 s.m_next_t s.streams).1,
      (keep_n_before_time 0 s.m_next_t s.streams).1, s.m_next_t⟩ := by
  simp only [search]
  rw [if_pos h1]

theorem search_false2_eq {α : Type} (s : Synchronizer α) (pivot : Int)
    (h1 : ¬ ((keep_n_before_time 0 s.m_next_t s.streams).1.all
      fun st => !st.queue.isEmpty) = false)
    (hpv : max_first_time (keep_n_before_time 0 s.m_next_t s.streams).1 = some pivot)
    (h2 : ((keep_n_before_time 1 pivot
      (keep_n_before_time 0 s.m_next_t s.streams).1).1.all (bracketsB pivot)) = false) :
    search s = some ⟨false, [], 0, 0, (keep_n_before_time 0 s.m_next_t s.streams).2,
      (keep_n_before_time 1 pivot (keep_n_before_time 0 s.m_next_t s.streams).1).2,
      emptyDrops (keep_n_before_time 1 pivot (keep_n_before_time 0 s.m_next_t s.streams).1).1,
      emptyDrops (keep_n_before_time 1 pivot (keep_n_before_time 0 s.m_next_t s.streams).1).1,
      (keep_n_before_time 1 pivot (keep_n_before_time 0 s.m_next_t s.streams).1).1,
      s.m_next_t⟩ := by
  simp only [search]
  rw [if_neg h1]
  simp only [hpv, Option.some_bind]
  rw [if_pos h2]

theorem search_total {α : Type} (s : Synchronizer α) (hInv : SyncInv s) :
    ∃ r, search s = some r := by
  rcases hInv with ⟨hne, hSI⟩
  by_cases h1 : ((keep_n_before_time 0 s.m_next_t s.streams).1.all
      fun st => !st.queue.isEmpty) = false
  · exact ⟨_, search_false1_eq s h1⟩
  · have hSI0 := keep_streamInv 0 s.m_next_t s.streams hSI
    have h1' : ((keep_n_before_time 0 s.m_next_t s.streams).1.all
        fun st => !st.queue.isEmpty) = true := by
      revert h1
      cases ((keep_n_before_time 0 s.m_next_t s.streams).1.all fun st => !st.queue.isEmpty) <;>
        simp
    have hne0 : ∀ st ∈ (keep_n_before_time 0 s.m_next_t s.streams).1, st.queue ≠ [] := by
      intro st hst
      have := List.all_eq_true.mp h1' st hst
      simpa using this
    have hne0' : (keep_n_before_time 0 s.m_next_t s.streams).1 ≠ [] := by
      intro h0
      exact hne (List.map_eq_nil.mp h0)
    have hallsome0 : ∀ st ∈ (keep_n_before_time 0 s.m_next_t s.streams).1,
        ∃ v, search_time st = some v := by
      intro st hst
      rw [search_time_head st (hSI0 st hst).2.1]
      cases hq : st.queue with
      | nil => exact absurd hq (hne0 st hst)
      | cons x q => exact ⟨st.time_fcn x, rfl⟩
    rcases max_first_some_of _ hne0' hallsome0 with ⟨pivot, hpv⟩
    by_cases h2 : ((keep_n_before_time 1 pivot
        (keep_n_before_time 0 s.m_next_t s.streams).1).1.all (bracketsB pivot)) = false
    · exact ⟨_, search_false2_eq s pivot h1 hpv h2⟩
    · have h2' : ((keep_n_before_time 1 pivot
          (keep_n_before_time 0 s.m_next_t s.streams).1).1.all (bracketsB pivot)) = true := by
        revert h2
        cases ((keep_n_before_time 1 pivot
          (keep_n_before_time 0 s.m_next_t s.streams).1).1.all (bracketsB pivot)) <;> simp
      have hSI1 := keep_streamInv 1 pivot _ hSI0
      have hne1' : (keep_n_before_time 1 pivot
          (keep_n_before_time 0 s.m_next_t s.streams).1).1 ≠ [] := by
        intro h0
        exact hne0' (List.map_eq_nil.mp h0)
      have hInvL := loopInv_stage1 _ pivot (fun st hst => (hSI1 st hst).1)
        (fun st hst => (hSI1 st hst).2.1) h2'
      have hallsome1 : ∀ st ∈ (keep_n_before_time 1 pivot
          (keep_n_before_time 0 s.m_next_t s.streams).1).1, ∃ v, search_time st = some v :=
        fun st hst => search_time_some st (hInvL st hst).2.1
      rcases min_first_some_of _ hne1' hallsome1 with ⟨minT, hmt⟩
      have hOpt0 := optOk_init _ pivot minT (fun st hst => (hSI1 st hst).2.1)
        (fun st hst => (hSI1 st hst).2.2) h2' hmt
      have hfuel := Nat.lt_succ_of_le (loop_measure_le_total (keep_n_before_time 1 pivot
        (keep_n_before_time 0 s.m_next_t s.streams).1).1)
      rcases search_loop_spec (total_len (keep_n_before_time 1 pivot
          (keep_n_before_time 0 s.m_next_t s.streams).1).1 + 1) pivot minT pivot minT _
          hInvL hmt hfuel with ⟨mb, Mb, ssL, hloop, hInvL2, hqtL, hOptT, hleT, hntT⟩
      have hOptL := hOptT hOpt0
      have hoptle : ∀ st ∈ ssL, st.optimal_idx ≤ st.queue.length := by
        intro st hst
        rcases hOptL st hst with ⟨y, hy, _, _⟩
        rcases List.get?_eq_some.mp hy with ⟨hlt, _⟩
        omega
      have hdto := drop_to_optimal_eq ssL hoptle
      have hneE : ∀ st ∈ ssL.map fun st => { st with queue := st.queue.drop st.optimal_idx },
          st.queue ≠ [] := by
        intro st hst
        rcases List.mem_map.mp hst with ⟨st0, hst0, rfl⟩
        rcases hOptL st0 hst0 with ⟨y, hy, _, _⟩
        rcases List.get?_eq_some.mp hy with ⟨hlt, _⟩
        apply List.ne_nil_of_length_pos
        rw [List.length_drop]
        omega
      have hneK : ∀ st ∈ (keep_n_before_time 1 Mb (ssL.map fun st =>
          { st with queue := st.queue.drop st.optimal_idx })).1, st.queue ≠ [] := by
        intro st hst
        rcases List.mem_map.mp hst with ⟨st0, hst0, rfl⟩
        exact trimFront_one_ne_nil st0.time_fcn Mb st0.queue (hneE st0 hst0)
      rcases front_elems_some _ hneK with ⟨tup, hfe⟩
      rcases pop_and_reset_some _ hneK with ⟨ssF, hpr⟩
      refine ⟨⟨true, tup, mb, Mb, (keep_n_before_time 0 s.m_next_t s.streams).2,
        (keep_n_before_time 1 pivot (keep_n_before_time 0 s.m_next_t s.streams).1).2,
        ssL.map fun st => st.queue.take st.optimal_idx,
        (keep_n_before_time 1 Mb (ssL.map fun st =>
          { st with queue := st.queue.drop st.optimal_idx })).2,
        ssF, mb + s.m_delta_t⟩, ?_⟩
      simp only [search]
      rw [if_neg h1]
      simp only [hpv, Option.some_bind]
      rw [if_neg h2]
      simp only [hmt, Option.some_bind, hloop, hdto, hfe, hpr]

theorem search_false_inversion {α : Type} (s : Synchronizer α) (r : SearchRes α)
    (hr : search s = some r) (hf : r.found = false) :
    r.matched = [] ∧ r.next_t = s.m_next_t ∧
    (r.streams = (keep_n_before_time 0 s.m_next_t s.streams).1 ∨
      ∃ pivot, r.streams =
        (keep_n_before_time 1 pivot (keep_n_before_time 0 s.m_next_t s.streams).1).1) := by
  simp only [search] at hr
  by_cases h1 : ((keep_n_before_time 0 s.m_next_t s.streams).1.all
      fun st => !st.queue.isEmpty) = false
  · rw [if_pos h1] at hr
    have := Option.some.inj hr
    rw [← this]
    exact ⟨rfl, rfl, Or.inl rfl⟩
  · rw [if_neg h1] at hr
    cases hpv : max_first_time (keep_n_before_time 0 s.m_next_t s.streams).1 with
    | none => rw [hpv] at hr; simp at hr
    | some pivot =>
    rw [hpv, Option.some_bind] at hr
    by_cases h2 : ((keep_n_before_time 1 pivot
        (keep_n_before_time 0 s.m_next_t s.streams).1).1.all (bracketsB pivot)) = false
    · rw [if_pos h2] at hr
      have := Option.some.inj hr
      rw [← this]
      exact ⟨rfl, rfl, Or.inr ⟨pivot, rfl⟩⟩
    · rw [if_neg h2] at hr
      cases hmt : min_first_time
          (keep_n_before_time 1 pivot (keep_n_before_time 0 s.m_next_t s.streams).1).1 with
      | none => rw [hmt] at hr; simp at hr
      | some minT =>
      rw [hmt, Option.some_bind] at hr
      cases hlp : search_loop
          (total_len (keep_n_before_time 1 pivot
            (keep_n_before_time 0 s.m_next_t s.streams).1).1 + 1)
          pivot minT pivot minT
          (keep_n_before_time 1 pivot (keep_n_before_time 0 s.m_next_t s.streams).1).1 with
      | none => rw [hlp] at hr; simp at hr
      | some lr =>
      rw [hlp, Option.some_bind] at hr
      cases hdt : drop_to_optimal lr.2.2 with
      | none => rw [hdt] at hr; simp at hr
      | some p2 =>
      rw [hdt, Option.some_bind] at hr
      cases hfe : front_elems (keep_n_before_time 1 lr.2.1 p2.1).1 with
      | none => rw [hfe] at hr; simp at hr
      | some tup =>
      rw [hfe, Option.some_bind] at hr
      cases hpr : pop_and_reset (keep_n_before_time 1 lr.2.1 p2.1).1 with
      | none => rw [hpr] at hr; simp at hr
      | some ssF =>
      rw [hpr, Option.some_bind] at hr
      have := Option.some.inj hr
      rw [← this] at hf
      simp at hf

theorem search_found_master {α : Type} (s : Synchronizer α) (r : SearchRes α)
    (hInv : SyncInv s) (hr : search s = some r) (hf : r.found = true) :
    ∃ pivot minT ssL,
      max_first_time (keep_n_before_time 0 s.m_next_t s.streams).1 = some pivot ∧
      ((keep_n_before_time 1 pivot (keep_n_before_time 0 s.m_next_t s.streams).1).1.all
        (bracketsB pivot)) = true ∧
      min_first_time
        (keep_n_before_time 1 pivot (keep_n_before_time 0 s.m_next_t s.streams).1).1
        = some minT ∧
      search_loop
        (total_len (keep_n_before_time 1 pivot
          (keep_n_before_time 0 s.m_next_t s.streams).1).1 + 1)
        pivot minT pivot minT
        (keep_n_before_time 1 pivot (keep_n_before_time 0 s.m_next_t s.streams).1).1
        = some (r.min_t_best, r.max_t_best, ssL) ∧
      LoopInv pivot ssL ∧
      qtView ssL =
        qtView (keep_n_before_time 1 pivot (keep_n_before_time 0 s.m_next_t s.streams).1).1 ∧
      OptOk r.min_t_best r.max_t_best ssL ∧
      r.min_t_best ≤ r.max_t_best ∧
      s.m_next_t < r.min_t_best ∧
      r.drops2 = ssL.map (fun st => st.queue.take st.optimal_idx) ∧
      front_elems (keep_n_before_time 1 r.max_t_best (ssL.map fun st =>
        { st with queue := st.queue.drop st.optimal_idx })).1 = some r.matched ∧
      pop_and_reset (keep_n_before_time 1 r.max_t_best (ssL.map fun st =>
        { st with queue := st.queue.drop st.optimal_idx })).1 = some r.streams ∧
      r.drops0 = (keep_n_before_time 0 s.m_next_t s.streams).2 ∧
      r.drops1 = (keep_n_before_time 1 pivot (keep_n_before_time 0 s.m_next_t s.streams).1).2 ∧
      r.drops3 = (keep_n_before_time 1 r.max_t_best (ssL.map fun st =>
        { st with queue := st.queue.drop st.optimal_idx })).2 ∧
      r.next_t = r.min_t_best + s.m_delta_t := by
  rcases search_found_inversion s r hr hf with
    ⟨pivot, minT, mb, Mb, ssL, ssE, d2, h1', hpv, h2', hmt, hloop, hdto, hfe, hpr,
      hmb, hMb, hd0, hd1, hd2, hd3, hnt⟩
  rcases hInv with ⟨hne, hSI⟩
  have hSI0 := keep_streamInv 0 s.m_next_t s.streams hSI
  have hne0 : ∀ st ∈ (keep_n_before_time 0 s.m_next_t s.streams).1, st.queue ≠ [] := by
    intro st hst
    have := List.all_eq_true.mp h1' st hst
    simpa using this
  have hSI1 := keep_streamInv 1 pivot _ hSI0
  have hInvL := loopInv_stage1 _ pivot (fun st hst => (hSI1 st hst).1)
    (fun st hst => (hSI1 st hst).2.1) h2'
  have hOpt0 := optOk_init _ pivot minT (fun st hst => (hSI1 st hst).2.1)
    (fun st hst => (hSI1 st hst).2.2) h2' hmt
  have hfuel := Nat.lt_succ_of_le (loop_measure_le_total (keep_n_before_time 1 pivot
    (keep_n_before_time 0 s.m_next_t s.streams).1).1)
  rcases search_loop_spec (total_len (keep_n_before_time 1 pivot
      (keep_n_before_time 0 s.m_next_t s.streams).1).1 + 1) pivot minT pivot minT _
      hInvL hmt hfuel with ⟨mb2, Mb2, ssL2, hloop2, hInvL2, hqtL2, hOptT2, hleT2, hntT2⟩
  rw [hloop] at hloop2
  have hinj := Option.some.inj hloop2
  have hmbe : mb = mb2 := congrArg Prod.fst hinj
  have hMbe : Mb = Mb2 := congrArg Prod.fst (congrArg Prod.snd hinj)
  have hssLe : ssL = ssL2 := congrArg Prod.snd (congrArg Prod.snd hinj)
  -- AllAbove m_next_t on the post-trim streams
  have hA0 : AllAbove s.m_next_t (keep_n_before_time 0 s.m_next_t s.streams).1 :=
    keep0_above s.m_next_t s.streams (fun st hst => (hSI st hst).1)
  have hA1 : AllAbove s.m_next_t (keep_n_before_time 1 pivot
      (keep_n_before_time 0 s.m_next_t s.streams).1).1 :=
    above_keep s.m_next_t 1 pivot _ hA0
  have hntmb : s.m_next_t < mb := by
    rw [hmbe]
    exact hntT2 s.m_next_t hA1 (next_lt_min _ s.m_next_t minT hA1 hmt)
  -- determinism of drop_to_optimal
  have hoptle : ∀ st ∈ ssL, st.optimal_idx ≤ st.queue.length := by
    intro st hst
    rcases (hssLe ▸ hOptT2 hOpt0) st hst with ⟨y, hy, _, _⟩
    rcases List.get?_eq_some.mp hy with ⟨hlt, _⟩
    omega
  have hdto2 := drop_to_optimal_eq ssL hoptle
  rw [hdto] at hdto2
  have hinj2 := Option.some.inj hdto2
  have hssEe : ssE = ssL.map fun st => { st with queue := st.queue.drop st.optimal_idx } :=
    congrArg Prod.fst hinj2
  have hd2e : d2 = ssL.map fun st => st.queue.take st.optimal_idx :=
    congrArg Prod.snd hinj2
  have hps := max_first_keep1 _ pivot (fun st hst => (hSI0 st hst).1)
    (fun st hst => (hSI0 st hst).2.1) hne0 hpv
  rcases max_first_mem _ _ hps with ⟨stp, hstp, hvp⟩
  have hminle : minT ≤ pivot := min_first_le _ _ hmt stp hstp pivot hvp
  refine ⟨pivot, minT, ssL, hpv, h2', hmt, ?_, ?_, ?_, ?_, ?_, ?_, ?_, ?_, ?_, hd0, hd1, ?_, ?_⟩
  · rw [hmb, hMb]
    exact hloop
  · rw [hssLe]
    exact hInvL2
  · rw [hssLe]
    exact hqtL2
  · rw [hmb, hMb, hmbe, hMbe, hssLe]
    exact hOptT2 hOpt0
  · rw [hmb, hMb, hmbe, hMbe]
    exact hleT2 hminle
  · rw [hmb]
    exact hntmb
  · rw [hd2, hd2e]
  · rw [hMb, ← hssEe]
    exact hfe
  · rw [hMb, ← hssEe]
    exact hpr
  · rw [hd3, hMb, ← hssEe]
  · rw [hmb]
    exact hnt

theorem forall2_mem_right {α β : Type} {R : α → β → Prop} {as : List α} {bs : List β}
    (h : List.Forall₂ R as bs) (b : β) (hb : b ∈ bs) : ∃ a ∈ as, R a b := by
  induction h with
  | nil => simp at hb
  | @cons a0 b0 as' bs' hR hf ih =>
    rcases List.mem_cons.mp hb with he | hmem
    · subst he
      exact ⟨a0, by simp, hR⟩
    · rcases ih hmem with ⟨a, ha, hRa⟩
      exact ⟨a, by simp [ha], hRa⟩

theorem forall2_get_some {α β : Type} {R : α → β → Prop} {as : List α} {bs : List β}
    (h : List.Forall₂ R as bs) (j : Nat) (a : α) (ha : as.get? j = some a) :
    ∃ b, bs.get? j = some b ∧ R a b := by
  induction h generalizing j with
  | nil => simp at ha
  | @cons a0 b0 as' bs' hR hf ih =>
    cases j with
    | zero =>
      have he : a0 = a := by simpa using ha
      exact ⟨b0, rfl, he ▸ hR⟩
    | succ j =>
      exact ih j (by simpa using ha)

theorem length_eq_of_qtView {α : Type} (ss1 ss2 : List (SyncStream α))
    (h : qtView ss1 = qtView ss2) : ss1.length = ss2.length := by
  have := congrArg List.length h
  simpa [qtView] using this

theorem search_inv {α : Type} (s : Synchronizer α) (r : SearchRes α)
    (hInv : SyncInv s) (hr : search s = some r) :
    SyncInv (resState s.m_delta_t r) ∧ r.streams.length = s.streams.length ∧
    (r.found = false → r.next_t = s.m_next_t) ∧
    (r.found = true → r.next_t = r.min_t_best + s.m_delta_t ∧ s.m_next_t < r.min_t_best) := by
  have hInv' := hInv
  rcases hInv' with ⟨hne, hSI⟩
  cases hfnd : r.found with
  | false =>
    rcases search_false_inversion s r hr hfnd with ⟨hm, hnt, hcase⟩
    have hstr : ∀ st ∈ r.streams, StreamInv st := by
      rcases hcase with hc | ⟨pivot, hc⟩
      · rw [hc]
        exact keep_streamInv 0 s.m_next_t s.streams hSI
      · rw [hc]
        exact keep_streamInv 1 pivot _ (keep_streamInv 0 s.m_next_t s.streams hSI)
    have hlen : r.streams.length = s.streams.length := by
      rcases hcase with hc | ⟨pivot, hc⟩
      · rw [hc]
        simp [keep_n_before_time]
      · rw [hc]
        simp [keep_n_before_time]
    refine ⟨⟨?_, hstr⟩, hlen, fun _ => hnt, fun h => absurd h (by simp)⟩
    intro h0
    apply hne
    have h0' : r.streams = [] := h0
    rw [h0'] at hlen
    simp at hlen
    exact List.length_eq_zero.mp hlen.symm
  | true =>
    rcases search_found_master s r hInv hr hfnd with
      ⟨pivot, minT, ssL, hpv, hbrk, hmt, hloop, hInvL, hqtL, hOptL, hmbMb, hntmb, hd2,
        hfe, hpr, hd0, hd1, hd3, hnt⟩
    have hFa := pop_and_reset_inv _ _ hpr
    have hstr : ∀ st ∈ r.streams, StreamInv st := by
      intro st hst
      rcases forall2_mem_right hFa st hst with ⟨st2, hst2, hq, hi, ho, ht⟩
      rcases List.mem_map.mp hst2 with ⟨stE, hstE, rfl⟩
      rcases List.mem_map.mp hstE with ⟨stL, hstL, rfl⟩
      have hsortL : TimeSorted stL := (hInvL stL hstL).1
      have hsortE : List.Pairwise (fun a b => stL.time_fcn a ≤ stL.time_fcn b)
          (stL.queue.drop stL.optimal_idx) :=
        List.Pairwise.sublist (List.drop_sublist _ _) hsortL
      have hsortK : List.Pairwise (fun a b => stL.time_fcn a ≤ stL.time_fcn b)
          (trimFront stL.time_fcn 1 r.max_t_best (stL.queue.drop stL.optimal_idx)).2 :=
        trimFront_sorted _ 1 r.max_t_best _ hsortE
      refine ⟨?_, hi, ho⟩
      show List.Pairwise (fun a b => st.time_fcn a ≤ st.time_fcn b) st.queue
      rw [← hq, ht]
      exact List.Pairwise.sublist (List.tail_sublist _) hsortK
    have hlen : r.streams.length = s.streams.length := by
      have h1 := hFa.length_eq
      have h2 := length_eq_of_qtView _ _ hqtL
      simp only [keep_n_before_time, List.length_map] at h1 h2 ⊢
      omega
    refine ⟨⟨?_, hstr⟩, hlen, fun h => absurd h (by simp), fun _ => ⟨hnt, hntmb⟩⟩
    intro h0
    apply hne
    have h0' : r.streams = [] := h0
    rw [h0'] at hlen
    simp at hlen
    exact List.length_eq_zero.mp hlen.symm

theorem sorted_le_getLast {α : Type} (tf : α → Int) (q : List α) (b : α)
    (hs : List.Pairwise (fun u v => tf u ≤ tf v) q) (hb : q.getLast? = some b) :
    ∀ y ∈ q, tf y ≤ tf b := by
  intro y hy
  rcases List.mem_iff_get.mp hy with ⟨n, hgn⟩
  have hb' : q.get? (q.length - 1) = some b := by
    rw [← List.getLast?_eq_get?]
    exact hb
  rcases List.get?_eq_some.mp hb' with ⟨hlast, hbg⟩
  rcases Nat.lt_or_ge n.1 (q.length - 1) with hlt | hge
  · have := (List.pairwise_iff_get.mp hs) n ⟨q.length - 1, hlast⟩ hlt
    rw [hgn, hbg] at this
    exact this
  · have hn : n.1 = q.length - 1 := by
      have := n.2
      omega
    have : q.get n = b := by
      rw [← hbg]
      congr 1
      exact Fin.mk_eq_mk.mpr hn |>.symm ▸ rfl
    rw [← hgn, this]

theorem add_to_queue_streamInv {α : Type} (nt : Int) (a : α) (st : SyncStream α)
    (h : StreamInv st) : StreamInv (add_to_queue nt a st) := by
  rcases h with ⟨hs, hi, ho⟩
  by_cases h1 : st.time_fcn a < nt
  · rw [add_to_queue_reject nt a st (Or.inl h1)]
    exact ⟨hs, hi, ho⟩
  · cases hb : st.queue.getLast? with
    | none =>
      have hq : st.queue = [] := List.getLast?_eq_none_iff.mp hb
      rw [add_to_queue_accept nt a st h1 (fun b hb2 => by rw [hb] at hb2; simp at hb2)]
      refine ⟨?_, hi, ho⟩
      show List.Pairwise (fun u v => st.time_fcn u ≤ st.time_fcn v) (st.queue ++ [a])
      rw [hq]
      simp
    | some b =>
      by_cases h2 : st.time_fcn a < st.time_fcn b
      · rw [add_to_queue_reject nt a st (Or.inr ⟨b, hb, h2⟩)]
        exact ⟨hs, hi, ho⟩
      · rw [add_to_queue_accept nt a st h1
          (fun b2 hb2 => by rw [hb] at hb2; rw [← Option.some.inj hb2]; exact h2)]
        refine ⟨?_, hi, ho⟩
        show List.Pairwise (fun u v => st.time_fcn u ≤ st.time_fcn v) (st.queue ++ [a])
        rw [List.pairwise_append]
        refine ⟨hs, by simp, ?_⟩
        intro y hy z hz
        have hza : z = a := by simpa using hz
        rw [hza]
        have := sorted_le_getLast st.time_fcn st.queue b hs hb y hy
        omega

theorem add_inv {α : Type} (k : Nat) (a : α) (s : Synchronizer α) (hInv : SyncInv s) :
    SyncInv (add k a s) := by
  rcases hInv with ⟨hne, hSI⟩
  cases hk : s.streams.get? k with
  | none =>
    have : add k a s = s := by
      show ({ s with streams := add_impl s.m_next_t a k s.streams } : Synchronizer α) = s
      rw [add_impl_out_of_range s.m_next_t a k s.streams hk]
    rw [this]
    exact ⟨hne, hSI⟩
  | some st =>
    constructor
    · show add_impl s.m_next_t a k s.streams ≠ []
      rw [add_impl_congr s.m_next_t a k s.streams st hk]
      intro h0
      apply hne
      have := congrArg List.length h0
      simp at this
      exact this
    · show ∀ st' ∈ add_impl s.m_next_t a k s.streams, StreamInv st'
      rw [add_impl_congr s.m_next_t a k s.streams st hk]
      intro st' hst'
      rcases List.mem_or_eq_of_mem_set hst' with hmem | he
      · exact hSI st' hmem
      · rw [he]
        exact add_to_queue_streamInv s.m_next_t a st (hSI st (List.get?_mem hk))

/-! ## Run-level lemmas -/

theorem repsOf_append {α : Type} (e1 e2 : List (Ev α)) :
    repsOf (e1 ++ e2) = repsOf e1 ++ repsOf e2 := by
  simp [repsOf, List.filterMap_append]

theorem repsOf_drop_map {α : Type} (k : Nat) (x : List α) :
    repsOf (x.map (Ev.drop k)) = [] := by
  induction x with
  | nil => rfl
  | cons a l ih => simpa [repsOf] using ih

theorem repsOf_dropEvs {α : Type} (k : Nat) (d : List (List α)) :
    repsOf (dropEvs k d) = [] := by
  induction d generalizing k with
  | nil => rfl
  | cons x rest ih =>
    show repsOf (x.map (Ev.drop k) ++ dropEvs (k + 1) rest) = []
    rw [repsOf_append, repsOf_drop_map, ih (k + 1)]
    rfl

theorem repsOf_evsOfRes {α : Type} (r : SearchRes α) :
    repsOf (evsOfRes r) = if r.found then [r.min_t_best] else [] := by
  unfold evsOfRes
  rw [repsOf_append, repsOf_append, repsOf_append, repsOf_append]
  rw [repsOf_dropEvs, repsOf_dropEvs, repsOf_dropEvs, repsOf_dropEvs]
  cases hf : r.found <;> simp [repsOf]

theorem runReps_comp (dt nt nt1 nt2 : Int) (r1 r2 : List Int)
    (h1 : RunReps dt nt r1 nt1) (h2 : RunReps dt nt1 r2 nt2) :
    RunReps dt nt (r1 ++ r2) nt2 := by
  rcases h1 with ⟨hc1, hh1, he1⟩
  rcases h2 with ⟨hc2, hh2, he2⟩
  refine ⟨?_, ?_, ?_⟩
  · apply List.Chain'.append hc1 hc2
    intro x hx y hy
    have hx' : r1.getLast? = some x := hx
    have hy' : r2.head? = some y := hy
    have h3 := hh2 y hy'
    have h4 : nt1 = x + dt := by rw [hx'] at he1; exact he1
    omega
  · intro r0 hr0
    cases hr1 : r1 with
    | nil =>
      rw [hr1] at hr0
      simp only [List.nil_append] at hr0
      have h3 := hh2 r0 hr0
      have h4 : nt1 = nt := by rw [hr1] at he1; exact he1
      omega
    | cons a l =>
      rw [hr1] at hr0
      simp only [List.cons_append, List.head?_cons] at hr0
      apply hh1
      rw [hr1, ← hr0]
      rfl
  · rw [List.getLast?_append]
    cases hl2 : r2.getLast? with
    | none =>
      have hr2nil : r2 = [] := List.getLast?_eq_none_iff.mp hl2
      have he2n : nt2 = nt1 := by rw [hl2] at he2; exact he2
      rw [he2n, he1]
      simp
    | some lv =>
      have he2s : nt2 = lv + dt := by rw [hl2] at he2; exact he2
      rw [he2s]
      simp

theorem trimFront_kept_len {α : Type} (tf : α → Int) (n : Nat) (t : Int) (q : List α) :
    (trimFront tf n t q).2.length ≤ q.length := by
  have := congrArg List.length (trimFront_append tf n t q)
  simp at this
  omega

theorem total_len_keep_le {α : Type} (n : Nat) (t : Int) (ss : List (SyncStream α)) :
    total_len (keep_n_before_time n t ss).1 ≤ total_len ss := by
  induction ss with
  | nil => simp [total_len, keep_n_before_time]
  | cons st rest ih =>
    simp only [keep_n_before_time, total_len, List.map_cons, List.sum_cons] at ih ⊢
    have := trimFront_kept_len st.time_fcn n t st.queue
    omega

theorem total_len_map_drop_le {α : Type} (ss : List (SyncStream α)) :
    total_len (ss.map fun st => { st with queue := st.queue.drop st.optimal_idx }) ≤
      total_len ss := by
  induction ss with
  | nil => simp [total_len]
  | cons st rest ih =>
    simp only [total_len, List.map_cons, List.sum_cons, List.map_map] at ih ⊢
    have : (st.queue.drop st.optimal_idx).length ≤ st.queue.length := by
      rw [List.length_drop]
      omega
    omega

theorem total_len_eq_of_qtView {α : Type} (ss1 ss2 : List (SyncStream α))
    (h : qtView ss1 = qtView ss2) : total_len ss1 = total_len ss2 := by
  have h2 : ss1.map (fun st => st.queue) = ss2.map (fun st => st.queue) := by
    have := congrArg (List.map Prod.fst) h
    simpa [qtView, List.map_map, Function.comp] using this
  unfold total_len
  rw [show (ss1.map fun st => st.queue.length) = (ss1.map fun st => st.queue).map List.length by
    simp [List.map_map]]
  rw [show (ss2.map fun st => st.queue.length) = (ss2.map fun st => st.queue).map List.length by
    simp [List.map_map]]
  rw [h2]

theorem pop_total_len {α : Type} (ss out : List (SyncStream α))
    (h : pop_and_reset ss = some out) :
    total_len out + ss.length = total_len ss := by
  induction ss generalizing out with
  | nil =>
    have : out = [] := by
      have := Option.some.inj h
      rw [← this]
    rw [this]
    simp [total_len]
  | cons st rest ih =>
    unfold pop_and_reset at h
    cases hq : st.queue with
    | nil => rw [hq] at h; simp at h
    | cons x q =>
      rw [hq] at h
      cases hr : pop_and_reset rest with
      | none => rw [hr] at h; simp at h
      | some r =>
        rw [hr] at h
        have h2 : SyncStream.mk q 0 0 st.time_fcn :: r = out := by simpa using h
        rw [← h2]
        have := ih r hr
        simp only [total_len, List.map_cons, List.sum_cons, List.length_cons, hq] at this ⊢
        omega

theorem search_found_decrease {α : Type} (s : Synchronizer α) (r : SearchRes α)
    (hInv : SyncInv s) (hr : search s = some r) (hf : r.found = true) :
    total_len r.streams < total_len s.streams := by
  rcases search_found_master s r hInv hr hf with
    ⟨pivot, minT, ssL, hpv, hbrk, hmt, hloop, hInvL, hqtL, hOptL, hmbMb, hntmb, hd2,
      hfe, hpr, hd0, hd1, hd3, hnt⟩
  have h1 := pop_total_len _ _ hpr
  have h2 : total_len (keep_n_before_time 1 r.max_t_best (ssL.map fun st =>
      { st with queue := st.queue.drop st.optimal_idx })).1 ≤
      total_len (ssL.map fun st => { st with queue := st.queue.drop st.optimal_idx }) :=
    total_len_keep_le 1 r.max_t_best _
  have h3 := total_len_map_drop_le ssL
  have h4 := total_len_eq_of_qtView ssL _ hqtL
  have h5 := total_len_keep_le 1 pivot (keep_n_before_time 0 s.m_next_t s.streams).1
  have h6 := total_len_keep_le 0 s.m_next_t s.streams
  have h7 : 0 < (keep_n_before_time 1 r.max_t_best (ssL.map fun st =>
      { st with queue := st.queue.drop st.optimal_idx })).1.length := by
    rcases hInv with ⟨hne, _⟩
    simp only [keep_n_before_time, List.length_map]
    have hL : ssL.length = (keep_n_before_time 1 pivot
        (keep_n_before_time 0 s.m_next_t s.streams).1).1.length :=
      length_eq_of_qtView _ _ hqtL
    simp only [keep_n_before_time, List.length_map] at hL
    rw [hL]
    cases hq : s.streams with
    | nil => exact absurd hq hne
    | cons a l => simp
  omega

theorem search_while_spec {α : Type} (fuel : Nat) :
    ∀ (s : Synchronizer α), SyncInv s → total_len s.streams < fuel →
    ∃ out, search_while fuel s = some out ∧ SyncInv out.1 ∧
      out.1.m_delta_t = s.m_delta_t ∧
      RunReps s.m_delta_t s.m_next_t (repsOf out.2) out.1.m_next_t := by
  induction fuel with
  | zero => intro s hInv hFuel; omega
  | succ fuel ih =>
    intro s hInv hFuel
    rcases search_total s hInv with ⟨r, hr⟩
    rcases search_inv s r hInv hr with ⟨hInvR, hlen, hfalse, htrue⟩
    cases hfnd : r.found with
    | false =>
      refine ⟨(resState s.m_delta_t r, evsOfRes r), ?_, hInvR, rfl, ?_⟩
      · unfold search_while
        rw [hr, Option.some_bind, hfnd]
        simp
      · rw [repsOf_evsOfRes, hfnd]
        refine ⟨by simp, by simp, ?_⟩
        simp only [if_neg]
        show r.next_t = _
        rw [hfalse hfnd]
        rfl
    | true =>
      have hdec := search_found_decrease s r hInv hr hfnd
      rcases ih (resState s.m_delta_t r) hInvR (by
        show total_len r.streams < fuel
        omega) with ⟨out2, hout2, hInv2, hdt2, hreps2⟩
      refine ⟨(out2.1, evsOfRes r ++ out2.2), ?_, hInv2, hdt2, ?_⟩
      · unfold search_while
        rw [hr, Option.some_bind, hfnd]
        simp only [if_pos]
        rw [hout2]
        rfl
      · rw [repsOf_append, repsOf_evsOfRes, hfnd]
        simp only [if_pos]
        rcases htrue hfnd with ⟨hnt, hntlt⟩
        apply runReps_comp s.m_delta_t s.m_next_t (resState s.m_delta_t r).m_next_t
        · refine ⟨by simp, ?_, ?_⟩
          · intro r0 hr0
            have : r.min_t_best = r0 := by simpa using hr0
            omega
          · show (resState s.m_delta_t r).m_next_t = _
            simp only [List.getLast?_singleton]
            show r.next_t = r.min_t_best + s.m_delta_t
            exact hnt
        · exact hdt2 ▸ hreps2

theorem step_spec {α : Type} (op : Op α) (s : Synchronizer α) (hInv : SyncInv s) :
    ∃ p, step op s = some p ∧ SyncInv p.1 ∧ p.1.m_delta_t = s.m_delta_t ∧
      RunReps s.m_delta_t s.m_next_t (repsOf p.2) p.1.m_next_t := by
  cases op with
  | add k a =>
    refine ⟨(add k a s, []), rfl, add_inv k a s hInv, rfl, by simp [repsOf], by simp [repsOf], ?_⟩
    rfl
  | search =>
    rcases search_total s hInv with ⟨r, hr⟩
    rcases search_inv s r hInv hr with ⟨hInvR, hlen, hfalse, htrue⟩
    refine ⟨(resState s.m_delta_t r, evsOfRes r), ?_, hInvR, rfl, ?_⟩
    · show (search s).map _ = _
      rw [hr]
      rfl
    · rw [repsOf_evsOfRes]
      cases hfnd : r.found with
      | false =>
        refine ⟨by simp, by simp, ?_⟩
        show r.next_t = _
        rw [hfalse hfnd]
        rfl
      | true =>
        rcases htrue hfnd with ⟨hnt, hntlt⟩
        refine ⟨by simp, ?_, ?_⟩
        · intro r0 hr0
          have : r.min_t_best = r0 := by simpa using hr0
          omega
        · show r.next_t = _
          simp only [List.getLast?_singleton]
          exact hnt
  | addSearch k a =>
    have hInv1 := add_inv k a s hInv
    rcases search_while_spec (total_len (add k a s).streams + 1) (add k a s) hInv1
      (Nat.lt_succ_self _) with ⟨out, hout, hInv2, hdt2, hreps2⟩
    refine ⟨out, hout, hInv2, ?_, ?_⟩
    · exact hdt2
    · exact hreps2

theorem run_spec {α : Type} (ops : List (Op α)) :
    ∀ (s : Synchronizer α), SyncInv s →
    ∃ out, run s ops = some out ∧ SyncInv out.1 ∧ out.1.m_delta_t = s.m_delta_t ∧
      RunReps s.m_delta_t s.m_next_t (repsOf out.2) out.1.m_next_t := by
  induction ops with
  | nil =>
    intro s hInv
    exact ⟨(s, []), rfl, hInv, rfl, by simp [repsOf], by simp [repsOf], rfl⟩
  | cons op ops ih =>
    intro s hInv
    rcases step_spec op s hInv with ⟨p, hp, hInvP, hdtP, hrepsP⟩
    rcases ih p.1 hInvP with ⟨out2, hout2, hInv2, hdt2, hreps2⟩
    refine ⟨(out2.1, p.2 ++ out2.2), ?_, hInv2, by rw [hdt2, hdtP], ?_⟩
    · unfold run
      rw [hp, Option.some_bind, hout2]
      rfl
    · rw [repsOf_append]
      apply runReps_comp s.m_delta_t s.m_next_t p.1.m_next_t
      · exact hrepsP
      · rw [hdtP] at hreps2
        exact hreps2

theorem search_found_decomp {α : Type} (s : Synchronizer α) (r : SearchRes α)
    (hInv : SyncInv s) (hr : search s = some r) (hf : r.found = true) :
    r.matched.length = s.streams.length ∧
    ∀ j st x, s.streams.get? j = some st → r.matched.get? j = some x →
      ∃ d0 d1 d2 d3 rest,
        r.drops0.get? j = some d0 ∧ r.drops1.get? j = some d1 ∧
        r.drops2.get? j = some d2 ∧ r.drops3.get? j = some d3 ∧
        st.queue = d0 ++ (d1 ++ (d2 ++ (d3 ++ x :: rest))) ∧
        (∃ stF, r.streams.get? j = some stF ∧ stF.queue = rest ∧
          stF.time_fcn = st.time_fcn) ∧
        r.min_t_best ≤ st.time_fcn x ∧ st.time_fcn x ≤ r.max_t_best ∧
        (∀ y0, (d3 ++ x :: rest).head? = some y0 →
          r.min_t_best ≤ st.time_fcn y0 ∧ st.time_fcn y0 ≤ r.max_t_best) ∧
        (∀ y ∈ d3, st.time_fcn y ≤ r.max_t_best) ∧
        (∀ y ∈ d0, st.time_fcn y ≤ s.m_next_t) ∧
        s.m_next_t < st.time_fcn x := by
  rcases search_found_master s r hInv hr hf with
    ⟨pivot, minT, ssL, hpv, hbrk, hmt, hloop, hInvL, hqtL, hOptL, hmbMb, hntmb, hd2,
      hfe, hpr, hd0, hd1, hd3, hnt⟩
  rcases hInv with ⟨hne, hSI⟩
  have hFfe := front_elems_inv _ _ hfe
  have hFpr := pop_and_reset_inv _ _ hpr
  constructor
  · have l1 := hFfe.length_eq
    have l2 := length_eq_of_qtView _ _ hqtL
    simp only [keep_n_before_time, List.length_map] at l1 l2
    omega
  · intro j st x hstj hxj
    have hst0 : (keep_n_before_time 0 s.m_next_t s.streams).1.get? j =
        some { st with queue := (trimFront st.time_fcn 0 s.m_next_t st.queue).2 } := by
      show (s.streams.map _).get? j = _
      rw [List.get?_map, hstj]
      rfl
    have hst1 : (keep_n_before_time 1 pivot
        (keep_n_before_time 0 s.m_next_t s.streams).1).1.get? j =
        some { st with queue := (trimFront st.time_fcn 1 pivot
          (trimFront st.time_fcn 0 s.m_next_t st.queue).2).2 } := by
      show ((keep_n_before_time 0 s.m_next_t s.streams).1.map _).get? j = _
      rw [List.get?_map, hst0]
      rfl
    have hview : (ssL.get? j).map (fun st => (st.queue, st.time_fcn)) =
        some ((trimFront st.time_fcn 1 pivot
          (trimFront st.time_fcn 0 s.m_next_t st.queue).2).2, st.time_fcn) := by
      have hcg := congrArg (fun l => l.get? j) hqtL
      simp only [qtView, List.get?_map] at hcg
      rw [hcg, hst1]
      rfl
    cases hL : ssL.get? j with
    | none => rw [hL] at hview; simp at hview
    | some stL =>
      rw [hL] at hview
      have hview' := Option.some.inj hview
      have hqL : stL.queue = (trimFront st.time_fcn 1 pivot
          (trimFront st.time_fcn 0 s.m_next_t st.queue).2).2 := congrArg Prod.fst hview'
      have htL : stL.time_fcn = st.time_fcn := congrArg Prod.snd hview'
      have hstLmem : stL ∈ ssL := List.get?_mem hL
      rcases hOptL stL hstLmem with ⟨y, hy, hmby, hyMb⟩
      have hsortL : TimeSorted stL := (hInvL stL hstLmem).1
      have hE : (ssL.map fun st => { st with queue := st.queue.drop st.optimal_idx }).get? j =
          some { stL with queue := stL.queue.drop stL.optimal_idx } := by
        rw [List.get?_map, hL]
        rfl
      have hKE : (keep_n_before_time 1 r.max_t_best (ssL.map fun st =>
          { st with queue := st.queue.drop st.optimal_idx })).1.get? j =
          some { stL with queue := (trimFront stL.time_fcn 1 r.max_t_best
            (stL.queue.drop stL.optimal_idx)).2 } := by
        show ((ssL.map _).map _).get? j = _
        rw [List.get?_map, hE]
        rfl
      rcases forall2_get_some hFfe j _ hKE with ⟨x2, hx2, hhead⟩
      rw [hxj] at hx2
      have hxx : x = x2 := Option.some.inj hx2
      rw [← hxx] at hhead
      rcases forall2_get_some hFpr j _ hKE with ⟨stF, hstF, hqtail, hFidx, hFopt, hFtf⟩
      have hd0j : r.drops0.get? j =
          some (trimFront st.time_fcn 0 s.m_next_t st.queue).1 := by
        rw [hd0]
        show (s.streams.map _).get? j = _
        rw [List.get?_map, hstj]
        rfl
      have hd1j : r.drops1.get? j = some (trimFront st.time_fcn 1 pivot
          (trimFront st.time_fcn 0 s.m_next_t st.queue).2).1 := by
        rw [hd1]
        show ((keep_n_before_time 0 s.m_next_t s.streams).1.map _).get? j = _
        rw [List.get?_map, hst0]
        rfl
      have hd2j : r.drops2.get? j = some (stL.queue.take stL.optimal_idx) := by
        rw [hd2, List.get?_map, hL]
        rfl
      have hd3j : r.drops3.get? j = some (trimFront stL.time_fcn 1 r.max_t_best
          (stL.queue.drop stL.optimal_idx)).1 := by
        rw [hd3]
        show ((ssL.map _).map _).get? j = _
        rw [List.get?_map, hE]
        rfl
      -- head structure of the final queue
      have hkqcons : (trimFront stL.time_fcn 1 r.max_t_best
          (stL.queue.drop stL.optimal_idx)).2 = x :: stF.queue := by
        cases hkq : (trimFront stL.time_fcn 1 r.max_t_best
            (stL.queue.drop stL.optimal_idx)).2 with
        | nil => rw [hkq] at hhead; simp at hhead
        | cons a t =>
          rw [hkq] at hhead hqtail
          have hax : a = x := by simpa using hhead
          have htt : t = stF.queue := by simpa using hqtail
          rw [hax, htt]
      -- the evicted-front element y heads the dropped queue
      have hoptlt : stL.optimal_idx < stL.queue.length := by
        rcases List.get?_eq_some.mp hy with ⟨hl, _⟩
        exact hl
      have hydrop : stL.queue.drop stL.optimal_idx =
          y :: stL.queue.drop (stL.optimal_idx + 1) := by
        rw [List.drop_eq_get_cons hoptlt]
        rcases List.get?_eq_some.mp hy with ⟨hl, hgy⟩
        rw [hgy]
      have hsortE : List.Pairwise (fun u v => stL.time_fcn u ≤ stL.time_fcn v)
          (stL.queue.drop stL.optimal_idx) :=
        List.Pairwise.sublist (List.drop_sublist _ _) hsortL
      -- bounds on x
      have hxMb : stL.time_fcn x ≤ r.max_t_best := by
        rcases trimFront_one_head_le stL.time_fcn r.max_t_best
            (stL.queue.drop stL.optimal_idx) y (by rw [hydrop]; rfl) hyMb with ⟨b, hb, hble⟩
        rw [hkqcons] at hb
        have hbx : x = b := by simpa using hb
        rw [hbx]
        exact hble
      have hxqE : x ∈ stL.queue.drop stL.optimal_idx := by
        rw [← trimFront_append stL.time_fcn 1 r.max_t_best (stL.queue.drop stL.optimal_idx)]
        apply List.mem_append_right
        rw [hkqcons]
        simp
      have hmbx : r.min_t_best ≤ stL.time_fcn x := by
        rw [hydrop] at hxqE
        rcases List.mem_cons.mp hxqE with he | hmem
        · rw [he]
          exact hmby
        · have hyx : stL.time_fcn y ≤ stL.time_fcn x := by
            rw [hydrop] at hsortE
            exact List.rel_of_pairwise_cons hsortE hmem
          omega
      -- membership of x in the original queue (for the next_t bound)
      have hxk1 : x ∈ stL.queue := List.mem_of_mem_drop hxqE
      have hxk0 : x ∈ (trimFront st.time_fcn 0 s.m_next_t st.queue).2 := by
        rw [hqL] at hxk1
        rw [← trimFront_append st.time_fcn 1 pivot
          (trimFront st.time_fcn 0 s.m_next_t st.queue).2]
        exact List.mem_append_right _ hxk1
      have hsort : TimeSorted st := (hSI st (List.get?_mem hstj)).1
      have hntx : s.m_next_t < st.time_fcn x :=
        trimFront_zero_kept_gt st.time_fcn s.m_next_t st.queue hsort x hxk0
      refine ⟨(trimFront st.time_fcn 0 s.m_next_t st.queue).1,
        (trimFront st.time_fcn 1 pivot (trimFront st.time_fcn 0 s.m_next_t st.queue).2).1,
        stL.queue.take stL.optimal_idx,
        (trimFront stL.time_fcn 1 r.max_t_best (stL.queue.drop stL.optimal_idx)).1,
        stF.queue, hd0j, hd1j, hd2j, hd3j, ?_, ⟨stF, hstF, rfl, by rw [hFtf]; exact htL⟩,
        ?_, ?_, ?_, ?_, ?_, hntx⟩
      · -- the queue decomposition
        conv_lhs => rw [← trimFront_append st.time_fcn 0 s.m_next_t st.queue]
        congr 1
        conv_lhs => rw [← trimFront_append st.time_fcn 1 pivot
          (trimFront st.time_fcn 0 s.m_next_t st.queue).2]
        congr 1
        rw [← hqL]
        conv_lhs => rw [← List.take_append_drop stL.optimal_idx stL.queue]
        congr 1
        rw [← hkqcons]
        exact (trimFront_append stL.time_fcn 1 r.max_t_best _).symm
      · rw [← htL]
        exact hmbx
      · rw [← htL]
        exact hxMb
      · intro y0 hy0
        have hqEeq : (trimFront stL.time_fcn 1 r.max_t_best
            (stL.queue.drop stL.optimal_idx)).1 ++ x :: stF.queue =
            stL.queue.drop stL.optimal_idx := by
          rw [← hkqcons]
          exact trimFront_append stL.time_fcn 1 r.max_t_best _
        rw [hqEeq, hydrop] at hy0
        have : y = y0 := by simpa using hy0
        rw [← this, ← htL]
        exact ⟨hmby, hyMb⟩
      · intro y2 hy2
        rw [← htL]
        exact trimFront_dropped_le stL.time_fcn 1 r.max_t_best _ hsortE y2 hy2
      · exact trimFront_dropped_le st.time_fcn 0 s.m_next_t st.queue hsort

theorem mkInit_inv (N : Nat) (dt : Int) (hN : 1 ≤ N) : SyncInv (mkInit N dt) := by
  constructor
  · simp only [mkInit, ne_eq, List.replicate_eq_nil]
    omega
  · intro st hst
    have hx := List.eq_of_mem_replicate (by simpa [mkInit] using hst)
    rw [hx]
    exact ⟨List.Pairwise.nil, rfl, rfl⟩

theorem exSync_inv (qs : List (List Int)) (dt nt : Int) (hne : qs ≠ [])
    (hs : ∀ q ∈ qs, List.Pairwise (fun a b : Int => a ≤ b) q) :
    SyncInv (exSync qs dt nt) := by
  constructor
  · simp [exSync, hne]
  · intro st hst
    simp only [exSync, List.mem_map] at hst
    rcases hst with ⟨q, hq, hst⟩
    rw [← hst]
    exact ⟨hs q hq, rfl, rfl⟩

/-- C6: minimum-gap invariant.  Over any run of API calls from a well-formed
state, the representative timestamps (`min_t_best`) of the successful matches,
in firing order, are pairwise at least `delta_t` apart (each match is at least
`delta_t` after the previous one, i.e. no match's representative is below the
`next_t = min_t_best + delta_t` established by the previous match), and the
first match's representative exceeds the initial `next_t`. -/
theorem claim6_min_gap {α : Type} (s : Synchronizer α) (ops : List (Op α))
    (hInv : SyncInv s) :
    ∃ out, run s ops = some out ∧
      List.Chain' (fun m1 m2 => m1 + s.m_delta_t ≤ m2) (repsOf out.2) ∧
      ∀ m0, (repsOf out.2).head? = some m0 → s.m_next_t < m0 := by
  rcases run_spec ops s hInv with ⟨out, hrun, _, _, hRR⟩
  exact ⟨out, hrun, hRR.1, hRR.2.1⟩

theorem claim6_witness :
    ∃ out, run (mkInit 2 2) [Op.addSearch 0 0, Op.addSearch 1 0, Op.addSearch 0 5,
        Op.addSearch 1 5] = some out ∧
      List.Chain' (fun m1 m2 => m1 + (mkInit 2 2).m_delta_t ≤ m2) (repsOf out.2) ∧
      ∀ m0, (repsOf out.2).head? = some m0 → (mkInit 2 2).m_next_t < m0 :=
  claim6_min_gap (mkInit 2 2) _ (mkInit_inv 2 2 (by decide))

/-- C9: in-bounds safety of the greedy loop.  From the state established at
loop entry — every queue sorted, every `search_idx` equal to zero, and every
queue bracketing the pivot (front time ≤ pivot ≤ back time, hence non-empty) —
the loop runs to completion without ever taking an out-of-range
`queue.at(search_idx)` branch (which the embedding models as `none`), and every
stream's `search_idx` stays strictly below its queue length. -/
theorem claim9_loop_in_bounds {α : Type} (pivot minT : Int) (ss : List (SyncStream α))
    (hsorted : ∀ st ∈ ss, TimeSorted st)
    (hidx : ∀ st ∈ ss, st.search_idx = 0)
    (hbrk : ss.all (bracketsB pivot) = true)
    (hmt : min_first_time ss = some minT) :
    ∃ mb Mb ssOut, search_loop (total_len ss + 1) pivot minT pivot minT ss =
        some (mb, Mb, ssOut) ∧
      ∀ st ∈ ssOut, st.search_idx < st.queue.length := by
  have hLI : LoopInv pivot ss := loopInv_stage1 ss pivot hsorted hidx hbrk
  have hfuel : loop_measure ss < total_len ss + 1 :=
    Nat.lt_succ_of_le (loop_measure_le_total ss)
  rcases search_loop_spec (total_len ss + 1) pivot minT pivot minT ss hLI hmt hfuel with
    ⟨mb, Mb, ssOut, heq, hInvOut, _⟩
  exact ⟨mb, Mb, ssOut, heq, fun st hst => (hInvOut st hst).2.1⟩

theorem claim9_witness :
    ∃ mb Mb ssOut, search_loop (total_len [exSt [0, 10], exSt [10]] + 1) 10 0 10 0
        [exSt [0, 10], exSt [10]] = some (mb, Mb, ssOut) ∧
      ∀ st ∈ ssOut, st.search_idx < st.queue.length :=
  claim9_loop_in_bounds 10 0 [exSt [0, 10], exSt [10]]
    (by intro st hst
        fin_cases hst <;> norm_num [TimeSorted, exSt, List.pairwise_cons])
    (by intro st hst
        fin_cases hst <;> rfl)
    (by decide) (by decide)

/-- C5: monotonicity invariant.  Over any sequence of `add`, `search` and
`add_and_search` calls from a well-formed state, every intermediate state (the
state after any prefix of the calls) has every queue sorted by its time
function in non-decreasing order; and an `add` whose element is rejected for
violating order relative to the current back of its queue (or for being older
than `next_t`) is a complete no-op — the remaining run, including every later
matched tuple, is identical to the run without that `add`, so the rejected
element never appears in a later match. -/
theorem claim5_monotonic {α : Type} (s : Synchronizer α) (ops : List (Op α))
    (hInv : SyncInv s) :
    (∀ pre, pre <+: ops → ∃ out, run s pre = some out ∧
        ∀ st ∈ out.1.streams, TimeSorted st) ∧
    (∀ (k : Nat) (a : α) (st : SyncStream α) (rest : List (Op α)),
      s.streams.get? k = some st →
      (st.time_fcn a < s.m_next_t ∨
        ∃ b, st.queue.getLast? = some b ∧ st.time_fcn a < st.time_fcn b) →
      run s (Op.add k a :: rest) = run s rest) := by
  constructor
  · intro pre _
    rcases run_spec pre s hInv with ⟨out, hrun, hOut, _⟩
    exact ⟨out, hrun, fun st hst => (hOut.2 st hst).1⟩
  · intro k a st rest hk hrej
    have hadd : add k a s = s := by
      show ({ s with streams := add_impl s.m_next_t a k s.streams } : Synchronizer α) = s
      rw [add_impl_congr s.m_next_t a k s.streams st hk,
        add_to_queue_reject s.m_next_t a st hrej, list_set_self s.streams k st hk]
    rcases run_spec rest s hInv with ⟨out, hrun, _⟩
    simp only [run, step, Option.some_bind, hadd, hrun, Option.map_some]
    rfl

theorem claim5_witness :
    (∀ pre, pre <+: [Op.addSearch 0 (5 : Int), Op.add 0 3] → ∃ out,
        run (exSync [[0]] 1 0) pre = some out ∧
        ∀ st ∈ out.1.streams, TimeSorted st) ∧
    (∀ (k : Nat) (a : Int) (st : SyncStream Int) (rest : List (Op Int)),
      (exSync [[0]] 1 0).streams.get? k = some st →
      (st.time_fcn a < (exSync [[0]] 1 0).m_next_t ∨
        ∃ b, st.queue.getLast? = some b ∧ st.time_fcn a < st.time_fcn b) →
      run (exSync [[0]] 1 0) (Op.add k a :: rest) = run (exSync [[0]] 1 0) rest) :=
  claim5_monotonic (exSync [[0]] 1 0) _
    (exSync_inv [[0]] 1 0 (by decide) (by decide))

/-- C2 (amended): in every invocation of `search()` that reaches the commit
phase, each stream's queue splits into the four dropped segments followed by
the matched element `x` and the final retained queue; the matched tuple is
exactly the front-of-queue elements after the eviction up to `optimal_idx`
and the re-trim before `max_t_best`; every matched element's timestamp lies
in the best window `[min_t_best, max_t_best]`, as does the timestamp of the
snapshotted representative (the front after eviction, before the re-trim);
and the matched element is that snapshotted representative whenever the
re-trim evicted nothing from the stream.  The original claim is too strong:
the re-trim `keep_n_before_time(1, max_t_best)` may evict the snapshotted
representative itself, in which case a newer in-window element is passed to
the match callback instead. -/
theorem claim2_commit_front {α : Type} (s : Synchronizer α) (r : SearchRes α)
    (hInv : SyncInv s) (hr : search s = some r) (hf : r.found = true) :
    r.matched.length = s.streams.length ∧
    ∀ j st x, s.streams.get? j = some st → r.matched.get? j = some x →
      ∃ d0 d1 d2 d3 rest,
        r.drops0.get? j = some d0 ∧ r.drops1.get? j = some d1 ∧
        r.drops2.get? j = some d2 ∧ r.drops3.get? j = some d3 ∧
        st.queue = d0 ++ (d1 ++ (d2 ++ (d3 ++ x :: rest))) ∧
        (∃ stF, r.streams.get? j = some stF ∧ stF.queue = rest ∧
          stF.time_fcn = st.time_fcn) ∧
        r.min_t_best ≤ st.time_fcn x ∧ st.time_fcn x ≤ r.max_t_best ∧
        (∀ y0, (d3 ++ x :: rest).head? = some y0 →
          r.min_t_best ≤ st.time_fcn y0 ∧ st.time_fcn y0 ≤ r.max_t_best) ∧
        (d3 = [] → (d3 ++ x :: rest).head? = some x) := by
  have h := search_found_decomp s r hInv hr hf
  refine ⟨h.1, ?_⟩
  intro j st x hj hx
  rcases h.2 j st x hj hx with
    ⟨d0, d1, d2, d3, rest, h0, h1, h2, h3, hq, hF, hmb, hMb, hrep, _, _, _⟩
  exact ⟨d0, d1, d2, d3, rest, h0, h1, h2, h3, hq, hF, hmb, hMb, hrep,
    fun hd3 => by rw [hd3]; rfl⟩

/-- Counterexample to C2 as stated: queues `[0, 11]` and `[10, 11]` with
`delta_t = 0`.  The best window is `[10, 11]`, snapshotted at representatives
with timestamps `11` (stream 0) and `10` (stream 1) — were the snapshotted
representatives the elements passed to the match callback, one of them would
carry the window's minimum timestamp `min_t_best = 10`.  But the re-trim
before `max_t_best = 11` evicts stream 1's representative `10` (see
`drops3 = [[], [10]]`), and the tuple actually passed is `[11, 11]`, which
contains no element with timestamp `min_t_best`. -/
theorem claim2_counterexample :
    (search (exSync [[0, 11], [10, 11]] 0 int64Min)).map
        (fun r => (r.found, r.min_t_best, r.max_t_best, r.matched, r.drops3)) =
      some (true, 10, 11, [11, 11], [[], [10]]) ∧
    ¬ ∃ x ∈ [(11 : Int), 11], x = 10 := ⟨rfl, by decide⟩

theorem claim2_witness :
    ∃ r, search (exSync [[0, 11], [10, 11]] 0 int64Min) = some r ∧ r.found = true ∧
      r.matched.length = (exSync [[0, 11], [10, 11]] 0 int64Min).streams.length ∧
      (∀ j st x, (exSync [[0, 11], [10, 11]] 0 int64Min).streams.get? j = some st →
        r.matched.get? j = some x →
        ∃ d0 d1 d2 d3 rest,
          r.drops0.get? j = some d0 ∧ r.drops1.get? j = some d1 ∧
          r.drops2.get? j = some d2 ∧ r.drops3.get? j = some d3 ∧
          st.queue = d0 ++ (d1 ++ (d2 ++ (d3 ++ x :: rest))) ∧
          (∃ stF, r.streams.get? j = some stF ∧ stF.queue = rest ∧
            stF.time_fcn = st.time_fcn) ∧
          r.min_t_best ≤ st.time_fcn x ∧ st.time_fcn x ≤ r.max_t_best ∧
          (∀ y0, (d3 ++ x :: rest).head? = some y0 →
            r.min_t_best ≤ st.time_fcn y0 ∧ st.time_fcn y0 ≤ r.max_t_best) ∧
          (d3 = [] → (d3 ++ x :: rest).head? = some x)) := by
  cases hsearch : search (exSync [[0, 11], [10, 11]] 0 int64Min) with
  | none =>
    have hs : (search (exSync [[0, 11], [10, 11]] 0 int64Min)).isSome = true := rfl
    rw [hsearch] at hs
    exact absurd hs (by decide)
  | some r =>
    have hf : r.found = true := by
      have hm : (search (exSync [[0, 11], [10, 11]] 0 int64Min)).map
          (fun r => r.found) = some true := rfl
      rw [hsearch] at hm
      simpa using hm
    have hInvC : SyncInv (exSync [[0, 11], [10, 11]] 0 int64Min) :=
      exSync_inv _ _ _ (by decide) (by decide)
    have h := claim2_commit_front (exSync [[0, 11], [10, 11]] 0 int64Min) r hInvC hsearch hf
    exact ⟨r, rfl, hf, h.1, h.2⟩

theorem search_drops0 {α : Type} (s : Synchronizer α) (r : SearchRes α)
    (hr : search s = some r) :
    r.drops0 = (keep_n_before_time 0 s.m_next_t s.streams).2 := by
  simp only [search] at hr
  by_cases h1 : ((keep_n_before_time 0 s.m_next_t s.streams).1.all
      fun st => !st.queue.isEmpty) = false
  · rw [if_pos h1] at hr
    rw [← Option.some.inj hr]
  · rw [if_neg h1] at hr
    cases hpv : max_first_time (keep_n_before_time 0 s.m_next_t s.streams).1 with
    | none => rw [hpv] at hr; simp at hr
    | some pivot =>
      rw [hpv, Option.some_bind] at hr
      by_cases h2 : ((keep_n_before_time 1 pivot
          (keep_n_before_time 0 s.m_next_t s.streams).1).1.all (bracketsB pivot)) = false
      · rw [if_pos h2] at hr
        rw [← Option.some.inj hr]
      · rw [if_neg h2] at hr
        cases hmt : min_first_time (keep_n_before_time 1 pivot
            (keep_n_before_time 0 s.m_next_t s.streams).1).1 with
        | none => rw [hmt] at hr; simp at hr
        | some minT =>
          rw [hmt, Option.some_bind] at hr
          cases hlp : search_loop (total_len (keep_n_before_time 1 pivot
              (keep_n_before_time 0 s.m_next_t s.streams).1).1 + 1) pivot minT pivot minT
              (keep_n_before_time 1 pivot (keep_n_before_time 0 s.m_next_t s.streams).1).1 with
          | none => rw [hlp] at hr; simp at hr
          | some lr =>
            rw [hlp, Option.some_bind] at hr
            cases hdo : drop_to_optimal lr.2.2 with
            | none => rw [hdo] at hr; simp at hr
            | some p2 =>
              rw [hdo, Option.some_bind] at hr
              cases hfe : front_elems (keep_n_before_time 1 lr.2.1 p2.1).1 with
              | none => rw [hfe] at hr; simp at hr
              | some tup =>
                rw [hfe, Option.some_bind] at hr
                cases hpr : pop_and_reset (keep_n_before_time 1 lr.2.1 p2.1).1 with
                | none => rw [hpr] at hr; simp at hr
                | some ssF =>
                  rw [hpr, Option.some_bind] at hr
                  rw [← Option.some.inj hr]

/-- C10 (amended): an element whose timestamp equals `next_t` passes the
strict `t < next_t` rejection test of `add`, and is appended provided it also
does not precede the current back of its queue — acceptance is not
unconditional: if the back of the queue is newer, the element is rejected and
the state is unchanged.  Once queued, any element with timestamp at most
`next_t` is evicted by the `keep_n_before_time(0, next_t)` trim at the start
of the next `search()` call, landing in that stream's nonsync drop list; and
no element of a matched tuple ever has timestamp at or below the `next_t` in
force when the search began, so such a boundary element can never appear in a
matched tuple. -/
theorem claim10_boundary_element {α : Type} (s : Synchronizer α) (hInv : SyncInv s) :
    (∀ (k : Nat) (a : α) (st : SyncStream α), s.streams.get? k = some st →
      st.time_fcn a = s.m_next_t →
      ((∀ b, st.queue.getLast? = some b → st.time_fcn b ≤ st.time_fcn a) →
        (add k a s).streams = s.streams.set k { st with queue := st.queue ++ [a] }) ∧
      (∀ b, st.queue.getLast? = some b → st.time_fcn a < st.time_fcn b →
        add k a s = s)) ∧
    (∃ r, search s = some r ∧
      (∀ j st, s.streams.get? j = some st → ∀ x ∈ st.queue,
        st.time_fcn x ≤ s.m_next_t →
        ∃ d0, r.drops0.get? j = some d0 ∧ x ∈ d0) ∧
      (r.found = true →
        ∀ j st x, s.streams.get? j = some st → r.matched.get? j = some x →
          s.m_next_t < st.time_fcn x)) := by
  refine ⟨?_, ?_⟩
  · intro k a st hk hta
    constructor
    · intro hback
      show add_impl s.m_next_t a k s.streams = _
      rw [add_impl_congr s.m_next_t a k s.streams st hk,
        add_to_queue_accept s.m_next_t a st (by omega) ?back]
      intro b hb
      exact not_lt.mpr (hback b hb)
    · intro b hb hab
      have hadd : add_to_queue s.m_next_t a st = st :=
        add_to_queue_reject s.m_next_t a st (Or.inr ⟨b, hb, hab⟩)
      show ({ s with streams := add_impl s.m_next_t a k s.streams } : Synchronizer α) = s
      rw [add_impl_congr s.m_next_t a k s.streams st hk, hadd,
        list_set_self s.streams k st hk]
  · rcases search_total s hInv with ⟨r, hr⟩
    refine ⟨r, hr, ?_, ?_⟩
    · intro j st hj x hx hle
      refine ⟨(trimFront st.time_fcn 0 s.m_next_t st.queue).1, ?_, ?_⟩
      · rw [search_drops0 s r hr]
        show (s.streams.map _).get? j = _
        rw [List.get?_map, hj]
        rfl
      · have hsort : TimeSorted st := (hInv.2 st (List.get?_mem hj)).1
        have hsplit := trimFront_append st.time_fcn 0 s.m_next_t st.queue
        rw [← hsplit] at hx
        rcases List.mem_append.mp hx with hd | hk2
        · exact hd
        · exact absurd (trimFront_zero_kept_gt st.time_fcn s.m_next_t st.queue hsort x hk2)
            (not_lt.mpr hle)
    · intro hf j st x hj hx
      rcases (search_found_decomp s r hInv hr hf).2 j st x hj hx with
        ⟨_, _, _, _, _, _, _, _, _, _, _, _, _, _, _, _, hntx⟩
      exact hntx

/-- Counterexample to C10 as stated: a reachable state (two identity-time
streams, `delta_t = 0`, after one successful match) has `next_t = 0` and
stream 0's queue `[5]`.  Adding an element with timestamp `0 = next_t` passes
the strict `t < next_t` test (`¬ 0 < 0`) but is nonetheless rejected — the
queue is unchanged — because it precedes the queue's back element `5`.
Acceptance of a boundary element is therefore conditional, contradicting the
claim that such an element "is accepted by add". -/
theorem claim10_counterexample :
    (run (mkInit 2 0) [Op.add 0 0, Op.add 0 5, Op.add 1 0, Op.search]).map
        (fun p => (qView p.1.streams, p.1.m_delta_t, p.1.m_next_t)) =
      some ([[5], []], 0, 0) ∧
    qView (add 0 0 (exSync [[5], []] 0 0)).streams = [[5], []] ∧
    ¬ (0 : Int) < (0 : Int) := ⟨rfl, rfl, by norm_num⟩

theorem claim10_witness :
    (∀ (k : Nat) (a : Int) (st : SyncStream Int),
      (exSync [[5], []] 0 0).streams.get? k = some st →
      st.time_fcn a = (exSync [[5], []] 0 0).m_next_t →
      ((∀ b, st.queue.getLast? = some b → st.time_fcn b ≤ st.time_fcn a) →
        (add k a (exSync [[5], []] 0 0)).streams =
          (exSync [[5], []] 0 0).streams.set k { st with queue := st.queue ++ [a] }) ∧
      (∀ b, st.queue.getLast? = some b → st.time_fcn a < st.time_fcn b →
        add k a (exSync [[5], []] 0 0) = exSync [[5], []] 0 0)) ∧
    (∃ r, search (exSync [[5], []] 0 0) = some r ∧
      (∀ j st, (exSync [[5], []] 0 0).streams.get? j = some st → ∀ x ∈ st.queue,
        st.time_fcn x ≤ (exSync [[5], []] 0 0).m_next_t →
        ∃ d0, r.drops0.get? j = some d0 ∧ x ∈ d0) ∧
      (r.found = true →
        ∀ j st x, (exSync [[5], []] 0 0).streams.get? j = some st →
          r.matched.get? j = some x →
          (exSync [[5], []] 0 0).m_next_t < st.time_fcn x)) :=
  claim10_boundary_element (exSync [[5], []] 0 0)
    (exSync_inv _ _ _ (by decide) (by decide))

theorem foldl_max_init (xs : List Int) : ∀ a, a ≤ xs.foldl max a := by
  induction xs with
  | nil => intro a; exact le_refl a
  | cons x xs ih =>
    intro a
    exact le_trans (le_max_left a x) (ih (max a x))

theorem foldl_max_mem (xs : List Int) : ∀ a x, x ∈ xs → x ≤ xs.foldl max a := by
  induction xs with
  | nil => intro a x hx; simp at hx
  | cons z xs ih =>
    intro a x hx
    rcases List.mem_cons.mp hx with h | h
    · rw [h]
      exact le_trans (le_max_right a z) (foldl_max_init xs (max a z))
    · exact ih (max a z) x h

theorem foldl_max_le (xs : List Int) :
    ∀ a b, a ≤ b → (∀ x ∈ xs, x ≤ b) → xs.foldl max a ≤ b := by
  induction xs with
  | nil => intro a b hab _; exact hab
  | cons z xs ih =>
    intro a b hab h
    exact ih (max a z) b (max_le hab (h z (List.mem_cons_self z xs)))
      (fun x hx => h x (List.mem_cons_of_mem z hx))

theorem foldl_min_init (xs : List Int) : ∀ a, xs.foldl min a ≤ a := by
  induction xs with
  | nil => intro a; exact le_refl a
  | cons x xs ih =>
    intro a
    exact le_trans (ih (min a x)) (min_le_left a x)

theorem foldl_min_mem (xs : List Int) : ∀ a x, x ∈ xs → xs.foldl min a ≤ x := by
  induction xs with
  | nil => intro a x hx; simp at hx
  | cons z xs ih =>
    intro a x hx
    rcases List.mem_cons.mp hx with h | h
    · rw [h]
      exact le_trans (foldl_min_init xs (min a z)) (min_le_right a z)
    · exact ih (min a z) x h

theorem le_foldl_min (xs : List Int) :
    ∀ a b, b ≤ a → (∀ x ∈ xs, b ≤ x) → b ≤ xs.foldl min a := by
  induction xs with
  | nil => intro a b hab _; exact hab
  | cons z xs ih =>
    intro a b hab h
    exact ih (min a z) b (le_min hab (h z (List.mem_cons_self z xs)))
      (fun x hx => h x (List.mem_cons_of_mem z hx))

theorem le_imax_mem (l : List Int) (x : Int) (hx : x ∈ l) : x ≤ imax l := by
  cases l with
  | nil => simp at hx
  | cons z xs =>
    rcases List.mem_cons.mp hx with h | h
    · rw [h]
      exact foldl_max_init xs z
    · exact foldl_max_mem xs z x h

theorem imin_le_mem (l : List Int) (x : Int) (hx : x ∈ l) : imin l ≤ x := by
  cases l with
  | nil => simp at hx
  | cons z xs =>
    rcases List.mem_cons.mp hx with h | h
    · rw [h]
      exact foldl_min_init xs z
    · exact foldl_min_mem xs z x h

theorem imax_le_of (l : List Int) (b : Int) (hne : l ≠ []) (h : ∀ x ∈ l, x ≤ b) :
    imax l ≤ b := by
  cases l with
  | nil => exact absurd rfl hne
  | cons z xs =>
    exact foldl_max_le xs z b (h z (List.mem_cons_self z xs))
      (fun x hx => h x (List.mem_cons_of_mem z hx))

theorem le_imin_of (l : List Int) (b : Int) (hne : l ≠ []) (h : ∀ x ∈ l, b ≤ x) :
    b ≤ imin l := by
  cases l with
  | nil => exact absurd rfl hne
  | cons z xs =>
    exact le_foldl_min xs z b (h z (List.mem_cons_self z xs))
      (fun x hx => h x (List.mem_cons_of_mem z hx))

theorem forall2_of_get {α β : Type} {R : α → β → Prop} :
    ∀ (as : List α) (bs : List β), as.length = bs.length →
    (∀ j a b, as.get? j = some a → bs.get? j = some b → R a b) →
    List.Forall₂ R as bs := by
  intro as
  induction as with
  | nil =>
    intro bs hl _
    cases bs with
    | nil => exact List.Forall₂.nil
    | cons b bs => simp at hl
  | cons a as ih =>
    intro bs hl h
    cases bs with
    | nil => simp at hl
    | cons b bs =>
      refine List.Forall₂.cons (h 0 a b rfl rfl) (ih bs (by simpa using hl) ?_)
      intro j x y hx hy
      exact h (j + 1) x y (by simpa using hx) (by simpa using hy)

theorem forall2_imp_mem {α β : Type} {R S : α → β → Prop} :
    ∀ {as : List α} {bs : List β}, List.Forall₂ R as bs →
    (∀ a ∈ as, ∀ b, R a b → S a b) → List.Forall₂ S as bs := by
  intro as bs h
  induction h with
  | nil => intro _; exact List.Forall₂.nil
  | @cons a b as' bs' hab _ ih =>
    intro himp
    exact List.Forall₂.cons (himp a (List.mem_cons_self a as') b hab)
      (ih fun a2 ha2 b2 hb2 => himp a2 (List.mem_cons_of_mem a ha2) b2 hb2)

theorem mem_tupleTimes {α : Type} (ss : List (SyncStream α)) (xs : List α)
    (j : Nat) (st : SyncStream α) (x : α)
    (hs : ss.get? j = some st) (hx : xs.get? j = some x) :
    st.time_fcn x ∈ tupleTimes ss xs := by
  have hz : (ss.zip xs).get? j = some (st, x) := by
    rcases List.get?_eq_some.mp hs with ⟨hjs, hgs⟩
    rcases List.get?_eq_some.mp hx with ⟨hjx, hgx⟩
    have hjz : j < (ss.zip xs).length := by
      rw [List.length_zip]
      exact lt_min hjs hjx
    rw [List.get?_eq_get hjz]
    have hzg : (ss.zip xs).get ⟨j, hjz⟩ = (ss.get ⟨j, hjs⟩, xs.get ⟨j, hjx⟩) := by
      simp [List.get_eq_getElem, List.getElem_zip]
    rw [hzg, hgs, hgx]
  have : (tupleTimes ss xs).get? j = some (st.time_fcn x) := by
    show ((ss.zip xs).map _).get? j = _
    rw [List.get?_map, hz]
    rfl
  exact List.get?_mem this

theorem tupleTimes_mem_inv {α : Type} (ss : List (SyncStream α)) (xs : List α) (v : Int)
    (hv : v ∈ tupleTimes ss xs) :
    ∃ j st x, ss.get? j = some st ∧ xs.get? j = some x ∧ v = st.time_fcn x := by
  rcases List.mem_iff_get.mp hv with ⟨⟨j, hj⟩, hget⟩
  have hjz : j < (ss.zip xs).length := by
    simpa [tupleTimes] using hj
  have hjs : j < ss.length := lt_of_lt_of_le hjz
    (by rw [List.length_zip]; exact min_le_left _ _)
  have hjx : j < xs.length := lt_of_lt_of_le hjz
    (by rw [List.length_zip]; exact min_le_right _ _)
  refine ⟨j, ss.get ⟨j, hjs⟩, xs.get ⟨j, hjx⟩, List.get?_eq_get hjs, List.get?_eq_get hjx, ?_⟩
  have hzg : (ss.zip xs).get ⟨j, hjz⟩ = (ss.get ⟨j, hjs⟩, xs.get ⟨j, hjx⟩) := by
    simp [List.get_eq_getElem, List.getElem_zip]
  have : (tupleTimes ss xs).get ⟨j, hj⟩ =
      (ss.get ⟨j, hjs⟩).time_fcn (xs.get ⟨j, hjx⟩) := by
    show ((ss.zip xs).map _).get ⟨j, hj⟩ = _
    rw [List.get_map]
    rw [show ((ss.zip xs).get _) = (ss.get ⟨j, hjs⟩, xs.get ⟨j, hjx⟩) from hzg]
  rw [← hget, this]

theorem sorted_head_le {α : Type} (tf : α → Int) (q : List α) (a x : α)
    (h : List.Pairwise (fun u v => tf u ≤ tf v) q)
    (ha : q.head? = some a) (hx : x ∈ q) : tf a ≤ tf x := by
  cases q with
  | nil => simp at ha
  | cons z rest =>
    have hz : z = a := by simpa using ha
    rcases List.mem_cons.mp hx with he | hm
    · rw [he, ← hz]
    · rw [← hz]
      exact List.rel_of_pairwise_cons h hm

theorem max_first_all_some {α : Type} (ss : List (SyncStream α)) (m : Int)
    (h : max_first_time ss = some m) :
    ∀ st ∈ ss, ∃ v, search_time st = some v := by
  induction ss generalizing m with
  | nil => intro st hst; simp at hst
  | cons st rest ih =>
    cases rest with
    | nil =>
      intro s2 hs2
      rcases List.mem_singleton.mp hs2 with rfl
      exact ⟨m, h⟩
    | cons st2 rest2 =>
      rw [max_first_cons st (st2 :: rest2) (by simp)] at h
      cases hv : search_time st with
      | none => rw [hv] at h; simp at h
      | some v =>
        rw [hv, Option.some_bind] at h
        cases hm2 : max_first_time (st2 :: rest2) with
        | none => rw [hm2] at h; simp at h
        | some m2 =>
          intro s2 hs2
          rcases List.mem_cons.mp hs2 with rfl | hmem
          · exact ⟨v, hv⟩
          · exact ih m2 hm2 s2 hmem

theorem combo_into_keep1 {α : Type} (pivot m M : Int) (hpM : pivot ≤ M) :
    ∀ (ss : List (SyncStream α)) (xs : List α),
    (∀ st ∈ ss, TimeSorted st) →
    (∀ st ∈ ss, ∀ a, st.queue.head? = some a → st.time_fcn a ≤ pivot) →
    List.Forall₂ (fun st x => x ∈ st.queue ∧ m ≤ st.time_fcn x ∧ st.time_fcn x ≤ M)
      ss xs →
    ∃ c, List.Forall₂ (fun st i => i < st.queue.length ∧
        ∀ y, st.queue.get? i = some y → m ≤ st.time_fcn y ∧ st.time_fcn y ≤ M)
      (keep_n_before_time 1 pivot ss).1 c := by
  intro ss
  induction ss with
  | nil =>
    intro xs _ _ hf
    cases hf
    exact ⟨[], List.Forall₂.nil⟩
  | cons st rest ih =>
    intro xs hsorted hhead hf
    rcases List.forall₂_cons_left_iff.mp hf with ⟨x, xs', hx, hf', hxs⟩
    rcases ih xs' (fun s2 hs2 => hsorted s2 (List.mem_cons_of_mem st hs2))
      (fun s2 hs2 => hhead s2 (List.mem_cons_of_mem st hs2)) hf' with ⟨c', hc'⟩
    rcases hx with ⟨hmem, hm, hM⟩
    have hsort : TimeSorted st := hsorted st (List.mem_cons_self st rest)
    have hqne : st.queue ≠ [] := List.ne_nil_of_mem hmem
    by_cases hk : x ∈ (trimFront st.time_fcn 1 pivot st.queue).2
    · rcases List.mem_iff_get.mp hk with ⟨⟨i, hi⟩, hgi⟩
      refine ⟨i :: c', List.Forall₂.cons ⟨hi, ?_⟩ hc'⟩
      intro y hy
      rw [List.get?_eq_get hi, hgi] at hy
      have hyx : y = x := (Option.some.inj hy).symm
      rw [hyx]
      exact ⟨hm, hM⟩
    · cases hh : st.queue.head? with
      | none => exact absurd (List.head?_eq_none_iff.mp hh) hqne
      | some a =>
        have ha : st.time_fcn a ≤ pivot := hhead st (List.mem_cons_self st rest) a hh
        rcases trimFront_one_head_le st.time_fcn pivot st.queue a hh ha with ⟨b, hb, hble⟩
        have hbk : b ∈ (trimFront st.time_fcn 1 pivot st.queue).2 :=
          List.mem_of_mem_head? hb
        have hxd : x ∈ (trimFront st.time_fcn 1 pivot st.queue).1 := by
          have hsplit := trimFront_append st.time_fcn 1 pivot st.queue
          rw [← hsplit] at hmem
          rcases List.mem_append.mp hmem with hd | hkk
          · exact hd
          · exact absurd hkk hk
        have hxb : st.time_fcn x ≤ st.time_fcn b :=
          trimFront_cross st.time_fcn 1 pivot st.queue hsort x hxd b hbk
        refine ⟨0 :: c', List.Forall₂.cons ⟨?_, ?_⟩ hc'⟩
        · exact List.length_pos.mpr (trimFront_one_ne_nil st.time_fcn pivot st.queue hqne)
        · intro y hy
          rw [get?_zero_eq_head, hb] at hy
          have hyb : y = b := (Option.some.inj hy).symm
          rw [hyb]
          exact ⟨le_trans hm hxb, le_trans hble hpM⟩

/-- C1 (amended): restricted greedy optimality.  For every well-formed state
in which `search()` succeeds, the matched tuple minimizes max-minus-min of the
per-element timestamps over all combinations of one queued element per stream
whose timestamps all exceed the current `next_t` and that contain at least one
element with timestamp at most the pivot time.  The original claim — that the
matched tuple minimizes the spread over ALL combinations of queued elements —
is too strong: the greedy loop stops as soon as the window minimum reaches the
pivot, so combinations lying entirely after the pivot (and combinations with
elements at or below `next_t`, which the initial trim discards before the
search) are never explored and can be strictly better. -/
theorem claim1_greedy_optimal {α : Type} (s : Synchronizer α) (r : SearchRes α)
    (p : Int) (xs : List α)
    (hInv : SyncInv s) (hr : search s = some r) (hf : r.found = true)
    (hp : pivotOf s = some p)
    (hxs : List.Forall₂ (fun st x => x ∈ st.queue) s.streams xs)
    (habove : List.Forall₂ (fun st x => s.m_next_t < st.time_fcn x) s.streams xs)
    (hbelow : ∃ j st x, s.streams.get? j = some st ∧ xs.get? j = some x ∧
      st.time_fcn x ≤ p) :
    widthOf (tupleTimes s.streams r.matched) ≤ widthOf (tupleTimes s.streams xs) := by
  rcases search_found_master s r hInv hr hf with
    ⟨pivot, minT, ssL, hpv, hbrk, hmt, hloop, hInvL, hqtL, hOptL, hmbMb, hntmb, hd2,
      hfe, hpr, hd0, hd1, hd3, hnt⟩
  have hppiv : p = pivot := Option.some.inj (hp.symm.trans hpv)
  rw [hppiv] at hbelow
  have hSI : ∀ st ∈ s.streams, StreamInv st := hInv.2
  have hsorted : ∀ st ∈ s.streams, TimeSorted st := fun st hst => (hSI st hst).1
  have hSI0 := keep_streamInv 0 s.m_next_t s.streams hSI
  have hsorted0 : ∀ st ∈ (keep_n_before_time 0 s.m_next_t s.streams).1,
      TimeSorted st := fun st hst => (hSI0 st hst).1
  have hidx0 : ∀ st ∈ (keep_n_before_time 0 s.m_next_t s.streams).1,
      st.search_idx = 0 := fun st hst => (hSI0 st hst).2.1
  have hSI1 := keep_streamInv 1 pivot _ hSI0
  have hsorted1 : ∀ st ∈ (keep_n_before_time 1 pivot
      (keep_n_before_time 0 s.m_next_t s.streams).1).1, TimeSorted st :=
    fun st hst => (hSI1 st hst).1
  have hidx1 : ∀ st ∈ (keep_n_before_time 1 pivot
      (keep_n_before_time 0 s.m_next_t s.streams).1).1, st.search_idx = 0 :=
    fun st hst => (hSI1 st hst).2.1
  have hlen : s.streams.length = xs.length := hxs.length_eq
  have hfb : List.Forall₂ (fun st x => x ∈ st.queue ∧
      imin (tupleTimes s.streams xs) ≤ st.time_fcn x ∧
      st.time_fcn x ≤ imax (tupleTimes s.streams xs)) s.streams xs := by
    refine forall2_of_get s.streams xs hlen ?_
    intro j st x hs2 hx2
    rcases forall2_get_some hxs j st hs2 with ⟨x2, hx2', hmemx⟩
    rw [hx2] at hx2'
    have hxx : x = x2 := Option.some.inj hx2'
    rw [← hxx] at hmemx
    have hmemT := mem_tupleTimes s.streams xs j st x hs2 hx2
    exact ⟨hmemx, imin_le_mem _ _ hmemT, le_imax_mem _ _ hmemT⟩
  have hfb0 : List.Forall₂ (fun st x => x ∈ st.queue ∧
      imin (tupleTimes s.streams xs) ≤ st.time_fcn x ∧
      st.time_fcn x ≤ imax (tupleTimes s.streams xs))
      (keep_n_before_time 0 s.m_next_t s.streams).1 xs := by
    refine forall2_of_get _ xs ?_ ?_
    · simp only [keep_n_before_time, List.length_map]
      exact hlen
    · intro j st0 x hs0 hx2
      have hs0' : (s.streams.map fun st =>
          ({ st with queue := (trimFront st.time_fcn 0 s.m_next_t st.queue).2 })).get? j =
          some st0 := hs0
      rw [List.get?_map] at hs0'
      rcases Option.map_eq_some'.mp hs0' with ⟨st, hsj, hfst⟩
      rcases forall2_get_some hfb j st hsj with ⟨x2, hx2', hR⟩
      rw [hx2] at hx2'
      have hxx : x = x2 := Option.some.inj hx2'
      rw [← hxx] at hR
      rcases hR with ⟨hmemx, hxm, hxM⟩
      rcases forall2_get_some habove j st hsj with ⟨x3, hx3', hx3gt⟩
      rw [hx2] at hx3'
      have hxx3 : x = x3 := Option.some.inj hx3'
      rw [← hxx3] at hx3gt
      rw [← hfst]
      exact ⟨trimFront_zero_mem st.time_fcn s.m_next_t st.queue x
        (hsorted st (List.get?_mem hsj)) hmemx hx3gt, hxm, hxM⟩
  have hhead0 := head_le_pivot_of_max _ pivot hpv hidx0
  have hpM : pivot ≤ imax (tupleTimes s.streams xs) := by
    rcases max_first_mem _ pivot hpv with ⟨stp, hstp, hstv⟩
    rcases List.mem_iff_get.mp hstp with ⟨⟨j, hj⟩, hgj⟩
    have hsj : (keep_n_before_time 0 s.m_next_t s.streams).1.get? j = some stp := by
      rw [List.get?_eq_get hj, hgj]
    rcases forall2_get_some hfb0 j stp hsj with ⟨x, hxj, hxmem, hxm, hxM⟩
    have hids : stp.search_idx = 0 := hidx0 stp hstp
    rw [search_time_head stp hids] at hstv
    rcases Option.map_eq_some'.mp hstv with ⟨a, hha, hfa⟩
    have hax : stp.time_fcn a ≤ stp.time_fcn x :=
      sorted_head_le stp.time_fcn stp.queue a x (hsorted0 stp hstp) hha hxmem
    omega
  have hmp : imin (tupleTimes s.streams xs) ≤ pivot := by
    rcases hbelow with ⟨j, st, x, hsj, hxj, hxle⟩
    have := imin_le_mem _ _ (mem_tupleTimes s.streams xs j st x hsj hxj)
    omega
  rcases combo_into_keep1 pivot _ _ hpM _ xs hsorted0 hhead0 hfb0 with ⟨c, hc⟩
  have hLI : LoopInv pivot (keep_n_before_time 1 pivot
      (keep_n_before_time 0 s.m_next_t s.streams).1).1 :=
    loopInv_stage1 _ pivot hsorted1 hidx1 hbrk
  have hIdx : IdxLe (keep_n_before_time 1 pivot
      (keep_n_before_time 0 s.m_next_t s.streams).1).1 c :=
    forall2_imp_mem hc (fun st hst i _ => by
      rw [hidx1 st hst]
      exact Nat.zero_le i)
  have hqne0 : ∀ st ∈ (keep_n_before_time 0 s.m_next_t s.streams).1,
      st.queue ≠ [] := by
    intro st hst
    rcases max_first_all_some _ pivot hpv st hst with ⟨v, hv⟩
    have hv2 : (st.queue.get? st.search_idx).map st.time_fcn = some v := hv
    rcases Option.map_eq_some'.mp hv2 with ⟨a, hga, _⟩
    rcases List.get?_eq_some.mp hga with ⟨hl, _⟩
    exact List.length_pos.mp (by omega)
  have hMT1 : max_first_time (keep_n_before_time 1 pivot
      (keep_n_before_time 0 s.m_next_t s.streams).1).1 = some pivot :=
    max_first_keep1 _ pivot hsorted0 hidx0 hqne0 hpv
  have hWO : WindowOk minT pivot (keep_n_before_time 1 pivot
      (keep_n_before_time 0 s.m_next_t s.streams).1).1 := by
    intro mT MT hmT hMT
    have he1 : mT = minT := Option.some.inj (hmT.symm.trans hmt)
    have he2 : MT = pivot := Option.some.inj (hMT.symm.trans hMT1)
    omega
  have hbound := search_loop_bound (total_len (keep_n_before_time 1 pivot
      (keep_n_before_time 0 s.m_next_t s.streams).1).1 + 1) pivot
    (imin (tupleTimes s.streams xs)) (imax (tupleTimes s.streams xs))
    minT pivot minT _ c (r.min_t_best, r.max_t_best, ssL) hloop hLI hmt hc hmp
    (Or.inr ⟨hIdx, hWO⟩)
  have hdec := search_found_decomp s r hInv hr hf
  have hmlen : r.matched.length = s.streams.length := hdec.1
  have hne : s.streams ≠ [] := hInv.1
  have htlen : (tupleTimes s.streams r.matched).length = s.streams.length := by
    simp [tupleTimes, hmlen]
  have htne : tupleTimes s.streams r.matched ≠ [] := by
    have h0 : 0 < s.streams.length := List.length_pos.mpr hne
    exact List.length_pos.mp (by rw [htlen]; exact h0)
  have hMb : ∀ v ∈ tupleTimes s.streams r.matched, v ≤ r.max_t_best := by
    intro v hv
    rcases tupleTimes_mem_inv _ _ v hv with ⟨j, st, x, hsj, hxj, hveq⟩
    rcases hdec.2 j st x hsj hxj with
      ⟨_, _, _, _, _, _, _, _, _, _, _, hmbx, hMbx, _, _, _, _⟩
    omega
  have hmbl : ∀ v ∈ tupleTimes s.streams r.matched, r.min_t_best ≤ v := by
    intro v hv
    rcases tupleTimes_mem_inv _ _ v hv with ⟨j, st, x, hsj, hxj, hveq⟩
    rcases hdec.2 j st x hsj hxj with
      ⟨_, _, _, _, _, _, _, _, _, _, _, hmbx, hMbx, _, _, _, _⟩
    omega
  have h1 : imax (tupleTimes s.streams r.matched) ≤ r.max_t_best :=
    imax_le_of _ _ htne hMb
  have h2 : r.min_t_best ≤ imin (tupleTimes s.streams r.matched) :=
    le_imin_of _ _ htne hmbl
  have hbound2 : r.max_t_best - r.min_t_best ≤
      imax (tupleTimes s.streams xs) - imin (tupleTimes s.streams xs) := hbound
  simp only [widthOf]
  omega

/-- Counterexample to C1 as stated: queues `[99, 101]` and `[100, 101]` with
identity time functions.  The search matches the tuple `[99, 100]` (spread 1),
yet the combination `[101, 101]` of queued elements has spread 0 — the greedy
loop breaks as soon as the window cannot improve with its minimum at or below
the pivot `100`, so the strictly better all-after-pivot combination is never
explored.  The matched tuple therefore does not minimize max-minus-min over
all combinations of queued elements. -/
theorem claim1_counterexample :
    (search (exSync [[99, 101], [100, 101]] 0 int64Min)).map
        (fun r => (r.found, r.matched)) = some (true, [99, 100]) ∧
    List.Forall₂ (fun st x => x ∈ st.queue)
      (exSync [[99, 101], [100, 101]] 0 int64Min).streams [101, 101] ∧
    widthOf (tupleTimes (exSync [[99, 101], [100, 101]] 0 int64Min).streams
        [101, 101]) <
      widthOf (tupleTimes (exSync [[99, 101], [100, 101]] 0 int64Min).streams
        [99, 100]) := by
  refine ⟨rfl, ?_, by decide⟩
  show List.Forall₂ _ [exSt [99, 101], exSt [100, 101]] [101, 101]
  exact List.Forall₂.cons (by decide) (List.Forall₂.cons (by decide) List.Forall₂.nil)

theorem claim1_witness :
    ∃ r, search (exSync [[99, 101], [100, 101]] 0 int64Min) = some r ∧
      r.found = true ∧
      widthOf (tupleTimes (exSync [[99, 101], [100, 101]] 0 int64Min).streams
          r.matched) ≤
        widthOf (tupleTimes (exSync [[99, 101], [100, 101]] 0 int64Min).streams
          [99, 100]) := by
  cases hsearch : search (exSync [[99, 101], [100, 101]] 0 int64Min) with
  | none =>
    have hs : (search (exSync [[99, 101], [100, 101]] 0 int64Min)).isSome = true := rfl
    rw [hsearch] at hs
    exact absurd hs (by decide)
  | some r =>
    have hf : r.found = true := by
      have hm : (search (exSync [[99, 101], [100, 101]] 0 int64Min)).map
          (fun r => r.found) = some true := rfl
      rw [hsearch] at hm
      simpa using hm
    have hInvC : SyncInv (exSync [[99, 101], [100, 101]] 0 int64Min) :=
      exSync_inv _ _ _ (by decide) (by decide)
    have hxs : List.Forall₂ (fun st x => x ∈ st.queue)
        (exSync [[99, 101], [100, 101]] 0 int64Min).streams [99, 100] := by
      show List.Forall₂ _ [exSt [99, 101], exSt [100, 101]] [99, 100]
      exact List.Forall₂.cons (by decide) (List.Forall₂.cons (by decide) List.Forall₂.nil)
    have habove : List.Forall₂ (fun st x =>
        (exSync [[99, 101], [100, 101]] 0 int64Min).m_next_t < st.time_fcn x)
        (exSync [[99, 101], [100, 101]] 0 int64Min).streams [99, 100] := by
      show List.Forall₂ _ [exSt [99, 101], exSt [100, 101]] [99, 100]
      exact List.Forall₂.cons (by decide) (List.Forall₂.cons (by decide) List.Forall₂.nil)
    have hbelow : ∃ j st x,
        (exSync [[99, 101], [100, 101]] 0 int64Min).streams.get? j = some st ∧
        ([99, 100] : List Int).get? j = some x ∧ st.time_fcn x ≤ 100 :=
      ⟨0, exSt [99, 101], 99, rfl, rfl, by decide⟩
    exact ⟨r, rfl, hf, claim1_greedy_optimal
      (exSync [[99, 101], [100, 101]] 0 int64Min) r 100 [99, 100]
      hInvC hsearch hf rfl hxs habove hbelow⟩

theorem trimFront_all_gt {α : Type} (tf : α → Int) (t : Int) (q : List α)
    (h : ∀ x ∈ q, t < tf x) : trimFront tf 0 t q = ([], q) := by
  cases q with
  | nil => rfl
  | cons x xs =>
    have hx : ¬ tf x ≤ t := not_le.mpr (h x (List.mem_cons_self x xs))
    simp only [trimFront, List.get?_cons_zero]
    rw [if_neg hx]

theorem keep0_all_gt {α : Type} (t : Int) : ∀ (ss : List (SyncStream α)),
    (∀ st ∈ ss, ∀ x ∈ st.queue, t < st.time_fcn x) →
    keep_n_before_time 0 t ss = (ss, emptyDrops ss) := by
  intro ss h
  induction ss with
  | nil => rfl
  | cons st rest ih =>
    have htr : trimFront st.time_fcn 0 t st.queue = ([], st.queue) :=
      trimFront_all_gt _ _ _ (h st (List.mem_cons_self st rest))
    have ihh := ih (fun s2 hs2 => h s2 (List.mem_cons_of_mem st hs2))
    simp only [keep_n_before_time, emptyDrops, List.map_cons] at ihh ⊢
    have h1 := congrArg Prod.fst ihh
    have h2 := congrArg Prod.snd ihh
    simp only at h1 h2
    rw [htr, h1, h2]

theorem rep_app_get {β : Type} (A : β) : ∀ (j : Nat) (l : List β),
    (List.replicate j A ++ l).get? j = l.get? 0 := by
  intro j
  induction j with
  | zero => intro l; rfl
  | succ j ih =>
    intro l
    rw [List.replicate_succ]
    exact ih l

theorem rep_app_set {β : Type} (A y x : β) : ∀ (j : Nat) (l : List β),
    (List.replicate j A ++ x :: l).set j y = List.replicate j A ++ y :: l := by
  intro j
  induction j with
  | zero => intro l; rfl
  | succ j ih =>
    intro l
    rw [List.replicate_succ]
    show A :: (List.replicate j A ++ x :: l).set j y = A :: (List.replicate j A ++ y :: l)
    rw [ih l]

theorem rep_app_shift {β : Type} (A : β) (j : Nat) (l : List β) :
    List.replicate j A ++ A :: l = List.replicate (j + 1) A ++ l := by
  rw [List.replicate_succ', List.append_assoc]
  rfl

theorem dropEvs_all_nil {α : Type} : ∀ (k : Nat) (ds : List (List α)),
    (∀ d ∈ ds, d = []) → dropEvs k ds = [] := by
  intro k ds
  induction ds generalizing k with
  | nil => intro _; rfl
  | cons d rest ih =>
    intro h
    have hd : d = [] := h d (List.mem_cons_self d rest)
    rw [dropEvs, hd]
    simp only [List.map_nil, List.nil_append]
    exact ih (k + 1) (fun d2 hd2 => h d2 (List.mem_cons_of_mem d hd2))

theorem max_first_rep {α : Type} (st : SyncStream α) : ∀ (n : Nat),
    max_first_time (List.replicate (n + 1) st) = search_time st := by
  intro n
  induction n with
  | zero => rfl
  | succ n ih =>
    rw [List.replicate_succ]
    rw [max_first_cons st _ (by simp [List.replicate])]
    rw [ih]
    cases hv : search_time st with
    | none => rfl
    | some v => simp [max_self]

theorem min_first_rep {α : Type} (st : SyncStream α) : ∀ (n : Nat),
    min_first_time (List.replicate (n + 1) st) = search_time st := by
  intro n
  induction n with
  | zero => rfl
  | succ n ih =>
    rw [List.replicate_succ]
    rw [min_first_cons st _ (by simp [List.replicate])]
    rw [ih]
    cases hv : search_time st with
    | none => rfl
    | some v => simp [min_self]

theorem total_len_rep {α : Type} (st : SyncStream α) : ∀ (n : Nat),
    total_len (List.replicate n st) = n * st.queue.length := by
  intro n
  induction n with
  | zero => simp [total_len]
  | succ n ih =>
    rw [List.replicate_succ]
    simp only [total_len, List.map_cons, List.sum_cons] at ih ⊢
    rw [ih]
    ring

theorem run_append {α : Type} (l1 l2 : List (Op α)) :
    ∀ s, run s (l1 ++ l2) = (run s l1).bind fun p =>
      (run p.1 l2).map fun q => (q.1, p.2 ++ q.2) := by
  induction l1 with
  | nil =>
    intro s
    show run s l2 = (run s l2).map fun q => (q.1, [] ++ q.2)
    cases h : run s l2 with
    | none => rfl
    | some q => simp
  | cons op l1 ih =>
    intro s
    show (step op s).bind (fun p => (run p.1 (l1 ++ l2)).map fun q => (q.1, p.2 ++ q.2)) =
      ((step op s).bind fun p => (run p.1 l1).map fun q => (q.1, p.2 ++ q.2)).bind fun p =>
        (run p.1 l2).map fun q => (q.1, p.2 ++ q.2)
    cases hstep : step op s with
    | none => rfl
    | some p =>
      simp only [Option.some_bind]
      rw [ih p.1]
      cases h2 : run p.1 l1 with
      | none => rfl
      | some q =>
        simp only [Option.some_bind, Option.map_some']
        cases h3 : run q.1 l2 with
        | none => rfl
        | some z => simp [List.append_assoc]

theorem dto_rep (i : Int) : ∀ (n : Nat),
    drop_to_optimal (List.replicate n (exSt [i])) =
      some (List.replicate n (exSt [i]), List.replicate n []) := by
  intro n
  induction n with
  | zero => rfl
  | succ n ih =>
    rw [List.replicate_succ, drop_to_optimal]
    rw [if_pos (by simp [exSt])]
    rw [ih]
    rfl

theorem fe_rep (i : Int) : ∀ (n : Nat),
    front_elems (List.replicate n (exSt [i])) = some (List.replicate n i) := by
  intro n
  induction n with
  | zero => rfl
  | succ n ih =>
    rw [List.replicate_succ, front_elems, ih]
    rfl

theorem pr_rep (i : Int) : ∀ (n : Nat),
    pop_and_reset (List.replicate n (exSt [i])) =
      some (List.replicate n (exSt [])) := by
  intro n
  induction n with
  | zero => rfl
  | succ n ih =>
    rw [List.replicate_succ]
    show (pop_and_reset (List.replicate n (exSt [i]))).map
        (fun r => (⟨[], 0, 0, fun x => x⟩ : SyncStream Int) :: r) =
      some (List.replicate (n + 1) (exSt []))
    rw [ih, List.replicate_succ]
    rfl

theorem keep1_rep (t i : Int) (n : Nat) :
    keep_n_before_time 1 t (List.replicate n (exSt [i])) =
      (List.replicate n (exSt [i]), List.replicate n []) := by
  simp only [keep_n_before_time, List.map_replicate]
  rfl

theorem search_while_found_step {α : Type} (fuel : Nat) (s : Synchronizer α)
    (r : SearchRes α) (h : search s = some r) (hf : r.found = true) :
    search_while (fuel + 1) s =
      (search_while fuel (resState s.m_delta_t r)).map fun p =>
        (p.1, evsOfRes r ++ p.2) := by
  rw [search_while, h, Option.some_bind, if_pos hf]

theorem search_while_false_step {α : Type} (fuel : Nat) (s : Synchronizer α)
    (r : SearchRes α) (h : search s = some r) (hf : r.found = false) :
    search_while (fuel + 1) s = some (resState s.m_delta_t r, evsOfRes r) := by
  rw [search_while, h, Option.some_bind, if_neg (by rw [hf]; simp)]

theorem evs_false_rec {α : Type} (ss : List (SyncStream α)) (nt : Int) :
    evsOfRes ⟨false, [], 0, 0, emptyDrops ss, emptyDrops ss, emptyDrops ss,
      emptyDrops ss, ss, nt⟩ = [] := by
  have h0 : dropEvs 0 (emptyDrops ss) = ([] : List (Ev α)) :=
    dropEvs_all_nil 0 _ (by
      intro d hd
      rcases List.mem_map.mp hd with ⟨a, _, h⟩
      exact h.symm)
  show dropEvs 0 (emptyDrops ss) ++ dropEvs 0 (emptyDrops ss) ++
    dropEvs 0 (emptyDrops ss) ++ dropEvs 0 (emptyDrops ss) ++ [] = []
  rw [h0]
  rfl

theorem search_some_empty {α : Type} (s : Synchronizer α)
    (hemp : ∃ st ∈ s.streams, st.queue = [])
    (hgt : ∀ st ∈ s.streams, ∀ x ∈ st.queue, s.m_next_t < st.time_fcn x) :
    search s = some ⟨false, [], 0, 0, emptyDrops s.streams, emptyDrops s.streams,
      emptyDrops s.streams, emptyDrops s.streams, s.streams, s.m_next_t⟩ := by
  have hk0 : keep_n_before_time 0 s.m_next_t s.streams =
      (s.streams, emptyDrops s.streams) := keep0_all_gt _ _ hgt
  have h1 : ((keep_n_before_time 0 s.m_next_t s.streams).1.all
      fun st => !st.queue.isEmpty) = false := by
    rw [hk0]
    rcases hemp with ⟨st, hst, hq⟩
    exact List.all_eq_false.mpr ⟨st, hst, by simp [hq]⟩
  have h2 := search_false1_eq s h1
  rw [hk0] at h2
  exact h2

theorem search_full_round (N : Nat) (hN : 1 ≤ N) (i : Int) (s : Synchronizer Int)
    (hss : s.streams = List.replicate N (exSt [i])) (hnt : s.m_next_t < i) :
    search s = some ⟨true, List.replicate N i, i, i,
      emptyDrops s.streams, List.replicate N [], List.replicate N [],
      List.replicate N [], List.replicate N (exSt []), i + s.m_delta_t⟩ := by
  obtain ⟨m, rfl⟩ : ∃ m, N = m + 1 := ⟨N - 1, by omega⟩
  have hgt : ∀ st ∈ s.streams, ∀ x ∈ st.queue, s.m_next_t < st.time_fcn x := by
    intro st hst x hx
    rw [hss] at hst
    have he := List.eq_of_mem_replicate hst
    rw [he] at hx ⊢
    have hxi : x = i := by simpa [exSt] using hx
    rw [hxi]
    exact hnt
  have hk0 : keep_n_before_time 0 s.m_next_t s.streams =
      (s.streams, emptyDrops s.streams) := keep0_all_gt _ _ hgt
  have h1' : ((keep_n_before_time 0 s.m_next_t s.streams).1.all
      fun st => !st.queue.isEmpty) = true := by
    rw [hk0]
    show (s.streams.all fun st => !st.queue.isEmpty) = true
    rw [hss]
    apply List.all_eq_true.mpr
    intro st hst
    rw [List.eq_of_mem_replicate hst]
    rfl
  have h1 : ¬ ((keep_n_before_time 0 s.m_next_t s.streams).1.all
      fun st => !st.queue.isEmpty) = false := by
    rw [h1']
    simp
  have hpv : max_first_time (keep_n_before_time 0 s.m_next_t s.streams).1 = some i := by
    rw [hk0]
    show max_first_time s.streams = some i
    rw [hss, max_first_rep]
    rfl
  have hk1 : keep_n_before_time 1 i (keep_n_before_time 0 s.m_next_t s.streams).1 =
      (List.replicate (m + 1) (exSt [i]), List.replicate (m + 1) []) := by
    rw [hk0]
    show keep_n_before_time 1 i s.streams = _
    rw [hss]
    exact keep1_rep i i (m + 1)
  have h2' : ((keep_n_before_time 1 i
      (keep_n_before_time 0 s.m_next_t s.streams).1).1.all (bracketsB i)) = true := by
    rw [hk1]
    show ((List.replicate (m + 1) (exSt [i])).all (bracketsB i)) = true
    apply List.all_eq_true.mpr
    intro st hst
    rw [List.eq_of_mem_replicate hst]
    simp [bracketsB, exSt]
  have h2 : ¬ ((keep_n_before_time 1 i
      (keep_n_before_time 0 s.m_next_t s.streams).1).1.all (bracketsB i)) = false := by
    rw [h2']
    simp
  have hmt : min_first_time (keep_n_before_time 1 i
      (keep_n_before_time 0 s.m_next_t s.streams).1).1 = some i := by
    rw [hk1]
    show min_first_time (List.replicate (m + 1) (exSt [i])) = some i
    rw [min_first_rep]
    rfl
  have hloop : search_loop (total_len (keep_n_before_time 1 i
      (keep_n_before_time 0 s.m_next_t s.streams).1).1 + 1) i i i i
      (keep_n_before_time 1 i (keep_n_before_time 0 s.m_next_t s.streams).1).1 =
      some (i, i, List.replicate (m + 1) (exSt [i])) := by
    rw [hk1]
    show search_loop (total_len (List.replicate (m + 1) (exSt [i])) + 1) i i i i
      (List.replicate (m + 1) (exSt [i])) = _
    rw [search_loop]
    rw [if_neg (lt_irrefl i)]
  simp only [search]
  rw [if_neg h1]
  simp only [hpv, Option.some_bind]
  rw [if_neg h2]
  simp only [hmt, Option.some_bind, hloop, dto_rep i (m + 1), keep1_rep i i (m + 1),
    fe_rep i (m + 1), pr_rep i (m + 1), Option.some_bind]
  have hd0 : (keep_n_before_time 0 s.m_next_t s.streams).2 = emptyDrops s.streams := by
    rw [hk0]
  have hd1 : (keep_n_before_time 1 i
      (keep_n_before_time 0 s.m_next_t s.streams).1).2 = List.replicate (m + 1) [] := by
    rw [hk1]
  rw [hd0, hd1]

theorem search_while_full_round (N : Nat) (hN : 1 ≤ N) (i : Int) (s : Synchronizer Int)
    (hss : s.streams = List.replicate N (exSt [i])) (hdt : s.m_delta_t = 0)
    (hnt : s.m_next_t < i) (fuel : Nat) (hfuel : 2 ≤ fuel) :
    search_while fuel s = some ((⟨List.replicate N (exSt []), 0, i⟩ : Synchronizer Int),
      [Ev.sync (List.replicate N i) i]) := by
  obtain ⟨f2, rfl⟩ : ∃ f2, fuel = f2 + 2 := ⟨fuel - 2, by omega⟩
  have hsr := search_full_round N hN i s hss hnt
  have hstep := search_while_found_step (f2 + 1) s _ hsr rfl
  rw [hstep]
  have hres : resState s.m_delta_t (⟨true, List.replicate N i, i, i,
      emptyDrops s.streams, List.replicate N [], List.replicate N [],
      List.replicate N [], List.replicate N (exSt []), i + s.m_delta_t⟩ : SearchRes Int) =
      (⟨List.replicate N (exSt []), 0, i⟩ : Synchronizer Int) := by
    show (⟨List.replicate N (exSt []), s.m_delta_t, i + s.m_delta_t⟩ : Synchronizer Int) = _
    rw [hdt, Int.add_zero]
  rw [hres]
  have hs2 : search (⟨List.replicate N (exSt []), 0, i⟩ : Synchronizer Int) =
      some ⟨false, [], 0, 0, emptyDrops (List.replicate N (exSt [])),
        emptyDrops (List.replicate N (exSt [])), emptyDrops (List.replicate N (exSt [])),
        emptyDrops (List.replicate N (exSt [])), List.replicate N (exSt []), i⟩ :=
    search_some_empty _ ⟨exSt [], List.mem_replicate.mpr ⟨by omega, rfl⟩, rfl⟩
      (by
        intro st hst x hx
        rw [List.eq_of_mem_replicate hst] at hx
        simp [exSt] at hx)
  have hstep2 := search_while_false_step f2 _ _ hs2 rfl
  rw [hstep2]
  have hev1 : evsOfRes (⟨true, List.replicate N i, i, i,
      emptyDrops s.streams, List.replicate N [], List.replicate N [],
      List.replicate N [], List.replicate N (exSt []), i + s.m_delta_t⟩ : SearchRes Int) =
      [Ev.sync (List.replicate N i) i] := by
    have h0 : dropEvs 0 (emptyDrops s.streams) = ([] : List (Ev Int)) :=
      dropEvs_all_nil 0 _ (by
        intro d hd
        rcases List.mem_map.mp hd with ⟨a, _, h⟩
        exact h.symm)
    have h1 : dropEvs 0 (List.replicate N ([] : List Int)) = ([] : List (Ev Int)) :=
      dropEvs_all_nil 0 _ (fun d hd => List.eq_of_mem_replicate hd)
    show dropEvs 0 (emptyDrops s.streams) ++ dropEvs 0 (List.replicate N []) ++
      dropEvs 0 (List.replicate N []) ++ dropEvs 0 (List.replicate N []) ++
      [Ev.sync (List.replicate N i) i] = _
    rw [h0, h1]
    rfl
  rw [hev1, evs_false_rec]
  show some ((⟨List.replicate N (exSt []), 0, i⟩ : Synchronizer Int),
    [Ev.sync (List.replicate N i) i] ++ ([] : List (Ev Int))) = _
  rw [List.append_nil]

theorem round_spec (N : Nat) (hN : 1 ≤ N) (i : Int) :
    ∀ (rem j : Nat), j + rem = N → 1 ≤ rem → ∀ nt : Int, nt < i →
    run ⟨List.replicate j (exSt [i]) ++ List.replicate rem (exSt []), 0, nt⟩
        ((List.range' j rem).map fun j2 => Op.addSearch j2 i) =
      some ((⟨List.replicate N (exSt []), 0, i⟩ : Synchronizer Int),
        [Ev.sync (List.replicate N i) i]) := by
  intro rem
  induction rem with
  | zero =>
    intro j hjN h1
    omega
  | succ r ih =>
    intro j hjN _ nt hnt
    rw [List.range'_succ, List.map_cons]
    simp only [run, step]
    have hadd : add j i (⟨List.replicate j (exSt [i]) ++
        List.replicate (r + 1) (exSt []), 0, nt⟩ : Synchronizer Int) =
        ⟨List.replicate (j + 1) (exSt [i]) ++ List.replicate r (exSt []), 0, nt⟩ := by
      show (⟨add_impl nt i j (List.replicate j (exSt [i]) ++
        List.replicate (r + 1) (exSt [])), 0, nt⟩ : Synchronizer Int) = _
      congr 1
      conv_lhs => rw [List.replicate_succ]
      rw [add_impl_congr nt i j _ (exSt [])
        ((rep_app_get (exSt [i]) j (exSt [] :: List.replicate r (exSt []))).trans rfl)]
      rw [add_to_queue_accept nt i (exSt []) (by show ¬ i < nt; omega)
        (by intro b hb; simp [exSt] at hb)]
      rw [show SyncStream.mk ((exSt []).queue ++ [i]) (exSt []).search_idx
          (exSt []).optimal_idx (exSt []).time_fcn = exSt [i] from rfl]
      rw [rep_app_set, rep_app_shift]
    have haas : add_and_search j i (⟨List.replicate j (exSt [i]) ++
        List.replicate (r + 1) (exSt []), 0, nt⟩ : Synchronizer Int) =
        search_while (total_len (List.replicate (j + 1) (exSt [i]) ++
            List.replicate r (exSt [])) + 1)
          (⟨List.replicate (j + 1) (exSt [i]) ++ List.replicate r (exSt []), 0,
            nt⟩ : Synchronizer Int) := by
      simp only [add_and_search]
      rw [hadd]
    rw [haas]
    cases r with
    | zero =>
      have hj1 : j + 1 = N := by omega
      rw [List.replicate_zero, List.append_nil, hj1]
      have hfuelge : 2 ≤ total_len (List.replicate N (exSt [i])) + 1 := by
        rw [total_len_rep]
        show 2 ≤ N * ([i] : List Int).length + 1
        simp only [List.length_singleton, Nat.mul_one]
        omega
      rw [search_while_full_round N hN i _ rfl rfl hnt _ hfuelge]
      simp only [Option.some_bind]
      rw [show List.range' N 0 = ([] : List Nat) from rfl, List.map_nil]
      rw [show run (⟨List.replicate N (exSt []), 0, i⟩ : Synchronizer Int)
        ([] : List (Op Int)) = some ((⟨List.replicate N (exSt []), 0,
          i⟩ : Synchronizer Int), ([] : List (Ev Int))) from rfl]
      rw [Option.map_some']
      rw [List.append_nil]
    | succ r2 =>
      have hse : search (⟨List.replicate (j + 1) (exSt [i]) ++
          List.replicate (r2 + 1) (exSt []), 0, nt⟩ : Synchronizer Int) =
          some ⟨false, [], 0, 0,
            emptyDrops (List.replicate (j + 1) (exSt [i]) ++
              List.replicate (r2 + 1) (exSt [])),
            emptyDrops (List.replicate (j + 1) (exSt [i]) ++
              List.replicate (r2 + 1) (exSt [])),
            emptyDrops (List.replicate (j + 1) (exSt [i]) ++
              List.replicate (r2 + 1) (exSt [])),
            emptyDrops (List.replicate (j + 1) (exSt [i]) ++
              List.replicate (r2 + 1) (exSt [])),
            List.replicate (j + 1) (exSt [i]) ++ List.replicate (r2 + 1) (exSt []),
            nt⟩ :=
        search_some_empty _
          ⟨exSt [], List.mem_append_right _ (List.mem_replicate.mpr ⟨by omega, rfl⟩), rfl⟩
          (by
            intro st hst x hx
            rcases List.mem_append.mp hst with hA | hB
            · rw [List.eq_of_mem_replicate hA] at hx ⊢
              have hxi : x = i := by simpa [exSt] using hx
              rw [hxi]
              exact hnt
            · rw [List.eq_of_mem_replicate hB] at hx
              simp [exSt] at hx)
      have hswF := search_while_false_step (total_len (List.replicate (j + 1) (exSt [i]) ++
        List.replicate (r2 + 1) (exSt []))) _ _ hse rfl
      rw [hswF, evs_false_rec]
      simp only [Option.some_bind]
      rw [show resState (⟨List.replicate (j + 1) (exSt [i]) ++
          List.replicate (r2 + 1) (exSt []), 0, nt⟩ : Synchronizer Int).m_delta_t
          (⟨false, [], 0, 0,
            emptyDrops (List.replicate (j + 1) (exSt [i]) ++
              List.replicate (r2 + 1) (exSt [])),
            emptyDrops (List.replicate (j + 1) (exSt [i]) ++
              List.replicate (r2 + 1) (exSt [])),
            emptyDrops (List.replicate (j + 1) (exSt [i]) ++
              List.replicate (r2 + 1) (exSt [])),
            emptyDrops (List.replicate (j + 1) (exSt [i]) ++
              List.replicate (r2 + 1) (exSt [])),
            List.replicate (j + 1) (exSt [i]) ++ List.replicate (r2 + 1) (exSt []),
            nt⟩ : SearchRes Int) =
        (⟨List.replicate (j + 1) (exSt [i]) ++ List.replicate (r2 + 1) (exSt []), 0,
          nt⟩ : Synchronizer Int) from rfl]
      rw [ih (j + 1) (by omega) (by omega) nt hnt]
      rw [Option.map_some']
      rw [List.nil_append]

theorem list_bind_cons {α β : Type} (a : α) (l : List α) (f : α → List β) :
    (a :: l).bind f = f a ++ l.bind f := rfl

theorem rounds_spec (N : Nat) (hN : 1 ≤ N) :
    ∀ (cnt base : Nat) (nt : Int), nt < (base : Int) →
    ∃ ntF, run ⟨List.replicate N (exSt []), 0, nt⟩
        ((List.range' base cnt).bind fun i2 : Nat =>
          (List.range N).map fun j => Op.addSearch j (i2 : Int)) =
      some ((⟨List.replicate N (exSt []), 0, ntF⟩ : Synchronizer Int),
        (List.range' base cnt).map fun i2 : Nat =>
          Ev.sync (List.replicate N ((i2 : Int))) ((i2 : Int))) := by
  intro cnt
  induction cnt with
  | zero =>
    intro base nt _
    exact ⟨nt, rfl⟩
  | succ cnt ih =>
    intro base nt hnt
    rw [List.range'_succ]
    rw [list_bind_cons, List.map_cons]
    rw [run_append]
    have hround : run (⟨List.replicate N (exSt []), 0, nt⟩ : Synchronizer Int)
        ((List.range N).map fun j => Op.addSearch j (base : Int)) =
        some ((⟨List.replicate N (exSt []), 0, (base : Int)⟩ : Synchronizer Int),
          [Ev.sync (List.replicate N ((base : Int))) ((base : Int))]) := by
      rw [List.range_eq_range']
      exact round_spec N hN (base : Int) N 0 (by omega) hN nt hnt
    rw [hround]
    simp only [Option.some_bind]
    rcases ih (base + 1) (base : Int) (by push_cast; omega) with ⟨ntF, hrest⟩
    rw [hrest]
    rw [Option.map_some']
    exact ⟨ntF, rfl⟩

/-- C3 (confirmed): completeness under a single common index.  For every
stream count `N ≥ 1` and every `k`, a fresh synchronizer with `N` identity-time
streams and `delta_t = 0`, fed the values `0, 1, …, k` value-major (each value
added to every stream in stream order via `add_and_search`), fires the match
callback exactly `k + 1` times, the `i`-th firing receiving the tuple
`(i, i, …, i)` with representative timestamp `i`, in increasing order of `i`,
and no drop callback ever fires. -/
theorem claim3_common_index (N k : Nat) (hN : 1 ≤ N) :
    ∃ sF, run (mkInit N 0)
        ((List.range (k + 1)).bind fun i : Nat =>
          (List.range N).map fun j => Op.addSearch j (i : Int)) =
      some (sF, (List.range (k + 1)).map fun i : Nat =>
        Ev.sync (List.replicate N ((i : Int))) ((i : Int))) := by
  rcases rounds_spec N hN (k + 1) 0 int64Min (by norm_num [int64Min]) with ⟨ntF, hrun⟩
  refine ⟨⟨List.replicate N (exSt []), 0, ntF⟩, ?_⟩
  rw [List.range_eq_range']
  exact hrun

theorem claim3_witness :
    ∃ sF, run (mkInit 2 0)
        ((List.range 2).bind fun i : Nat =>
          (List.range 2).map fun j => Op.addSearch j (i : Int)) =
      some (sF, (List.range 2).map fun i : Nat =>
        Ev.sync (List.replicate 2 ((i : Int))) ((i : Int))) :=
  claim3_common_index 2 1 (by decide)
